import Mathlib

/-! MusicRecognitionApp: landmark hashes, the SQLite catalog and the vote matcher

A shallow embedding of `src/fingerprint/Fingerprint.cpp`, `src/db/Database.cpp` and of the
validation in `src/ui/MetadataDialog.{h,cpp}`, followed by the properties proved about them.

Conventions of the embedding
* C++ `int` values are `Int`, `uint32_t` values are `Nat`; a conversion to `uint32_t` is the
  explicit reduction `toUInt32`.  Signed `+`, `-` are taken in `Int` (a signed overflow has no
  defined result in C++).  The conversion `int(double)` of the anchor offset is 32-bit: see
  `offsetMs`.
* `QString` is `Option String`, `none` being the null string (bound as SQL `NULL` by Qt).
* The SQLite file is the pair of its two tables, rows in insertion (rowid) order.
* What the C++ leaves to the platform is a parameter: the order in which a `QHash` is
  iterated (`iterOrder`), whether a statement executes (`execOk`, `selectOk`, `metaOk`) and the
  floating-point part of the pipeline, window + FFT + power + `nth_element` (`peakPick`).
-/

namespace MusicRecognition

/-! ## `Fingerprint.cpp` -/

/-- Samples per analysis frame (`WINDOW_SIZE`). -/
def WINDOW_SIZE : Nat := 2048

/-- Samples between frame starts (`HOP_SIZE`). -/
def HOP_SIZE : Nat := 1024

/-- Peaks kept per frame (`TOP_PEAKS`). -/
def TOP_PEAKS : Nat := 5

/-- Pairs emitted per anchor frame at most (`FANOUT`). -/
def FANOUT : Nat := 5

/-- First target frame distance (`TARGET_DT_MIN`). -/
def TARGET_DT_MIN : Nat := 1

/-- Last target frame distance (`TARGET_DT_MAX`). -/
def TARGET_DT_MAX : Nat := 20

/-- Conversion of an `int` to `uint32_t`: reduction modulo `2^32`. -/
def toUInt32 (x : Int) : Nat := (x % 4294967296).toNat

/-- A fingerprint as `compute` returns it: `(hash, offset_ms)`, a `pair<uint32_t,int>`. -/
abbrev Emit := Nat × Int

/-- The function `freqToBand(bin, fftSize, sr)`.  The source computes
`freq = double(bin) * sr / fftSize` and compares it with the band limits; the product and the
quotient by `fftSize = 2048` are exact in `double`, so `freq < c` is `bin * sr < c * fftSize`
(for the positive `fftSize` the program passes). -/
def freqToBand (bin fftSize sr : Int) : Int :=
  if bin * sr < 200 * fftSize then 0
  else if bin * sr < 400 * fftSize then 1
  else if bin * sr < 800 * fftSize then 2
  else if bin * sr < 1600 * fftSize then 3
  else if bin * sr < 3200 * fftSize then 4
  else if bin * sr < 6400 * fftSize then 5
  else 6

namespace Fingerprint

/-- The function `Fingerprint::hashPair(f1, f2, dt)`: the three clamps, then
`(uint32_t)((f1 & 0x3FF) << 22) | ((f2 & 0x3FF) << 12) | (dt & 0xFFF)`.  The left shifts are
multiplications by `2^22` and `2^12`; each operand of `|` is converted to `uint32_t`. -/
def hashPair (f1 f2 dt : Int) : Nat :=
  let f1 := if f1 > 1023 then 1023 else f1
  let f2 := if f2 > 1023 then 1023 else f2
  let dt := if dt > 4095 then 4095 else dt
  toUInt32 (Int.land f1 0x3FF * 2 ^ 22) ||| toUInt32 (Int.land f2 0x3FF * 2 ^ 12)
    ||| toUInt32 (Int.land dt 0xFFF)

/-- Reading the three fields back: `(h >> 22, (h >> 12) & 0x3FF, h & 0xFFF)`. -/
def decodeHash (h : Nat) : Nat × Nat × Nat :=
  (h >>> 22, (h >>> 12) &&& 0x3FF, h &&& 0xFFF)

/-- The band code of a peak: `freqToBand(f, WINDOW_SIZE, sr) * 128 + (f % 128)`, with the
truncating `%` of C++. -/
def bandCode (f sr : Int) : Int :=
  freqToBand f WINDOW_SIZE sr * 128 + Int.tmod f 128

/-- The anchor time `int((a * HOP_SIZE * 1000.0) / sr)`, a 32-bit `int`.  When `sr` is not
`0` and the quotient truncated toward zero lies in `[INT_MIN, INT_MAX]`, that is the result.
Otherwise (`sr = 0`, where the `double` quotient is infinite or not a number, or a quotient
outside the range of `int`) C++ leaves the conversion undefined; the definition takes
`INT_MIN = -2147483648`, the value the conversion instruction of x86 (`cvttsd2si`) delivers. -/
def offsetMs (a : Nat) (sr : Int) : Int :=
  let q := Int.tdiv ((a : Int) * HOP_SIZE * 1000) sr
  if sr ≠ 0 ∧ -2147483648 ≤ q ∧ q ≤ 2147483647 then q else -2147483648

/-- The pair emitted for anchor frame `a`, target frame `t` and peaks `f1`, `f2`. -/
def emitPair (sr : Int) (a t : Nat) (f1 f2 : Int) : Emit :=
  let b1 := bandCode f1 sr
  let b2 := bandCode f2 sr
  let h := hashPair b1 b2 ((t : Int) - (a : Int))
  let offset_ms := offsetMs a sr
  (h, offset_ms)

/-- The loop `for (int f2 : T)`; the state is `(targetsAdded, out)`.  It stops at the `break`
taken as soon as `++targetsAdded >= FANOUT`. -/
def pairF2 (sr : Int) (a t : Nat) (f1 : Int) : List Int → Nat × List Emit → Nat × List Emit
  | [], st => st
  | f2 :: rest, st =>
      let out := st.2 ++ [emitPair sr a t f1 f2]
      let targetsAdded := st.1 + 1
      if targetsAdded ≥ FANOUT then (targetsAdded, out)
      else pairF2 sr a t f1 rest (targetsAdded, out)

/-- The loop `for (int f1 : A)`, left when `targetsAdded >= FANOUT` after the inner loop. -/
def pairF1 (sr : Int) (a t : Nat) (T : List Int) : List Int → Nat × List Emit → Nat × List Emit
  | [], st => st
  | f1 :: rest, st =>
      let st1 := pairF2 sr a t f1 T st
      if st1.1 ≥ FANOUT then st1 else pairF1 sr a t T rest st1

/-- The loop over the target frames `t`, left when `targetsAdded >= FANOUT`. -/
def pairT (sr : Int) (peaksInFrame : List (List Int)) (a : Nat) (A : List Int) :
    List Nat → Nat × List Emit → Nat × List Emit
  | [], st => st
  | t :: rest, st =>
      let st1 := pairF1 sr a t (peaksInFrame.getD t []) A st
      if st1.1 ≥ FANOUT then st1 else pairT sr peaksInFrame a A rest st1

/-- The target frames of anchor `a`:
`t = a + TARGET_DT_MIN, ..., min(a + TARGET_DT_MAX, totalFrames - 1)`. -/
def targetFrames (totalFrames a : Nat) : List Nat :=
  List.range' (a + TARGET_DT_MIN)
    (min (a + TARGET_DT_MAX) (totalFrames - 1) + 1 - (a + TARGET_DT_MIN))

/-- One round of the anchor loop: frame `a` appends its pairs to `out`; an empty peak list is
skipped (`continue`), otherwise `targetsAdded` starts at `0`. -/
def anchorStep (sr : Int) (peaksInFrame : List (List Int)) (out : List Emit) (a : Nat) :
    List Emit :=
  let A := peaksInFrame.getD a []
  if A.isEmpty then out
  else (pairT sr peaksInFrame a A (targetFrames peaksInFrame.length a) (0, out)).2

/-- The pairing stage of `compute`: `for (a = 0; a < totalFrames; ++a)`. -/
def pairing (sr : Int) (peaksInFrame : List (List Int)) : List Emit :=
  (List.range peaksInFrame.length).foldl (anchorStep sr peaksInFrame) []

/-- The frame loop `for (start = 0; start + WINDOW_SIZE <= N; start += HOP_SIZE)`, returning
the sample window of every frame; `fuel` bounds the number of rounds. -/
def frameLoop (pcm : List Int) : Nat → Nat → List (List Int)
  | 0, _ => []
  | fuel + 1, start =>
      if start + WINDOW_SIZE ≤ pcm.length then
        (pcm.drop start).take WINDOW_SIZE :: frameLoop pcm fuel (start + HOP_SIZE)
      else []

/-- The function `Fingerprint::compute(pcm, sr)`.  `peakPick` is the floating-point part of
one round of the frame loop, from the Hann window to the `take` bins left in front by
`std::nth_element`: a function of the frame's samples.  The peaks of frame `k` are then
`peaksInFrame[k]`, in the order they were pushed. -/
def compute (peakPick : List Int → List Int) (pcm : List Int) (sr : Int) : List Emit :=
  if pcm.length < WINDOW_SIZE then []
  else pairing sr ((frameLoop pcm pcm.length 0).map peakPick)

/-- The pairs anchor frame `a` would emit against target frame `t` without the budget, in
loop order: anchor peaks outside, target peaks inside. -/
def candidatesAt (sr : Int) (a t : Nat) (A T : List Int) : List Emit :=
  A.flatMap fun f1 => T.map fun f2 => emitPair sr a t f1 f2

/-- The pairs anchor frame `a` would emit without the budget, target frames in order. -/
def candidates (sr : Int) (peaksInFrame : List (List Int)) (a : Nat) : List Emit :=
  (targetFrames peaksInFrame.length a).flatMap fun t =>
    candidatesAt sr a t (peaksInFrame.getD a []) (peaksInFrame.getD t [])

end Fingerprint

/-! ## `MetadataDialog.h`, `MetadataDialog.cpp` -/

/-- A `QString`; `none` is the null string. -/
abbrev QString := Option String

/-- The predicate `QChar::isSpace`: space, `\t \n \v \f \r`, U+0085, U+00A0 and the
characters of the Unicode separator categories. -/
def qIsSpace (c : Char) : Bool :=
  let u := c.toNat
  u == 0x20 || (0x09 ≤ u && u ≤ 0x0D) || u == 0x85 || u == 0xA0 || u == 0x1680
    || (0x2000 ≤ u && u ≤ 0x200A) || u == 0x2028 || u == 0x2029 || u == 0x202F
    || u == 0x205F || u == 0x3000

/-- The method `QString::trimmed()`: whitespace removed from both ends. -/
def qTrimmed (s : QString) : QString :=
  s.map fun str => String.mk ((str.data.dropWhile qIsSpace).reverse.dropWhile qIsSpace).reverse

/-- The method `QString::isEmpty()`; a null string is empty. -/
def qIsEmpty (s : QString) : Bool :=
  match s with
  | none => true
  | some str => str.data.isEmpty

/-- The struct `SongMeta`. -/
structure SongMeta where
  title : QString := none
  artist : QString := none
  album : QString := none
  year : Int := 0
  genre : QString := none
  deriving DecidableEq, Repr

/-- The method `SongMeta::isValid()`. -/
def SongMeta.isValid (m : SongMeta) : Bool :=
  !qIsEmpty (qTrimmed m.title) && !qIsEmpty (qTrimmed m.artist)

/-- The result code of a closed dialog. -/
inductive DialogCode where
  | Rejected
  | Accepted
  deriving DecidableEq, Repr

/-- The state of a `MetadataDialog`: the stored `m_meta` and, once closed, its result. -/
structure MetadataDialog where
  m_meta : SongMeta := {}
  result : Option DialogCode := none
  deriving DecidableEq, Repr

/-- The slot `MetadataDialog::onOk()` with the form fields `fields`: they are stored, and the
dialog is accepted only when they are valid; otherwise it stays open. -/
def MetadataDialog.onOk (d : MetadataDialog) (fields : SongMeta) : MetadataDialog :=
  let d1 := { d with m_meta := fields }
  if !d1.m_meta.isValid then d1 else { d1 with result := some DialogCode.Accepted }

/-- The slot `MetadataDialog::onCancel()`. -/
def MetadataDialog.onCancel (d : MetadataDialog) : MetadataDialog :=
  { d with result := some DialogCode.Rejected }

/-- The call `dlg.exec()` on a fresh dialog: the user's clicks are served in order, `some m`
being OK with fields `m` and `none` being Cancel, until the dialog closes; a dialog left
without a closing click is dismissed, which rejects it. -/
def MetadataDialog.exec (clicks : List (Option SongMeta)) : MetadataDialog :=
  let rec go : List (Option SongMeta) → MetadataDialog → MetadataDialog
    | [], d => d.onCancel
    | click :: rest, d =>
        let d1 := match click with
          | some fields => d.onOk fields
          | none => d.onCancel
        if d1.result.isSome then d1 else go rest d1
  go clicks {}

/-! ## `Database.h`, `Database.cpp` -/

/-- The struct `SongRow`. -/
structure SongRow where
  id : Int := -1
  title : QString := none
  artist : QString := none
  album : QString := none
  genre : QString := none
  year : Int := 0
  deriving DecidableEq, Repr

/-- A row of table `fingerprints(id, song_id, hash, offset_ms)`; the row id, which nothing
reads, is the position in the table. -/
structure FingerprintRow where
  song_id : Int
  hash : Nat
  offset_ms : Int
  deriving DecidableEq, Repr

/-- The contents of the database file behind `m_db`: tables `songs` and `fingerprints`. -/
structure Database where
  songs : List SongRow := []
  fingerprints : List FingerprintRow := []
  deriving DecidableEq, Repr

/-- The connection `m_db` while a member function runs: the visible tables, and the contents
at `BEGIN` when a transaction is open. -/
structure Connection where
  tables : Database
  snapshot : Option Database := none
  deriving DecidableEq, Repr

/-- The call `m_db.transaction()`: fails inside an open transaction. -/
def Connection.transaction (c : Connection) : Bool × Connection :=
  match c.snapshot with
  | none => (true, { c with snapshot := some c.tables })
  | some _ => (false, c)

/-- The call `m_db.rollback()`: restores the contents at `BEGIN`. -/
def Connection.rollback (c : Connection) : Bool × Connection :=
  match c.snapshot with
  | some saved => (true, { tables := saved, snapshot := none })
  | none => (false, c)

/-- The call `m_db.commit()`. -/
def Connection.commit (c : Connection) : Bool × Connection :=
  match c.snapshot with
  | some _ => (true, { c with snapshot := none })
  | none => (false, c)

/-- A successful `INSERT INTO fingerprints(song_id,hash,offset_ms) VALUES(?,?,?)`.  The table
of `migrate` declares the three columns `INTEGER NOT NULL` and nothing else: no foreign key. -/
def Connection.insertFingerprintRow (c : Connection) (r : FingerprintRow) : Connection :=
  { c with tables := { c.tables with fingerprints := c.tables.fingerprints ++ [r] } }

namespace Database

/-- The id `AUTOINCREMENT` gives the next row of `songs`: one more than the largest id used,
starting at `1` (no row is ever deleted). -/
def nextSongId (db : Database) : Int :=
  db.songs.foldl (fun m s => max m s.id) 0 + 1

/-- The function `Database::insertSong(s, outId, err)`; the result is `some outId` when it
returns `true`.  `q.exec()` fails when storage does (`execOk = false`) or when `title` or
`artist` is bound `NULL`, the columns being `NOT NULL`; nothing else is checked. -/
def insertSong (db : Database) (s : SongRow) (execOk : Bool) : Option Int × Database :=
  if execOk && s.title.isSome && s.artist.isSome then
    let outId := db.nextSongId
    (some outId, { db with songs := db.songs ++ [{ s with id := outId }] })
  else (none, db)

/-- The loop of `insertFingerprints` and the `commit` after it; `execOk i` tells whether the
`q.exec()` of item `i` succeeds. -/
def insertLoop (songId : Int) (execOk : Nat → Bool) :
    List Emit → Nat → Connection → Bool × Connection
  | [], _, c => (true, c.commit.2)
  | h :: rest, i, c =>
      if !execOk i then (false, c.rollback.2)
      else insertLoop songId execOk rest (i + 1)
        (c.insertFingerprintRow { song_id := songId, hash := h.1, offset_ms := h.2 })

/-- The function `Database::insertFingerprints(songId, hashes, err)` on a connection. -/
def insertFingerprintsConn (c : Connection) (songId : Int) (hashes : List Emit)
    (execOk : Nat → Bool) : Bool × Connection :=
  insertLoop songId execOk hashes 0 c.transaction.2

/-- The function `Database::insertFingerprints(songId, hashes, err)`: the returned flag and
the contents of the database afterwards.  No transaction is open between two calls. -/
def insertFingerprints (db : Database) (songId : Int) (hashes : List Emit)
    (execOk : Nat → Bool) : Bool × Database :=
  let r := insertFingerprintsConn { tables := db } songId hashes execOk
  (r.1, r.2.tables)

/-- The rows of `SELECT song_id, offset_ms FROM fingerprints WHERE hash=?`. -/
def lookup (db : Database) (hash : Nat) : List (Int × Int) :=
  (db.fingerprints.filter fun r => r.hash == hash).map fun r => (r.song_id, r.offset_ms)

/-- A key of the vote table: `(song_id, delta)`. -/
abbrev VoteKey := Int × Int

/-- The table `QHash<QPair<int,int>, int> votes`, as its entries. -/
abbrev Votes := List (VoteKey × Int)

/-- The statement `votes[key] += 1`: a missing key is first inserted with value `0`. -/
def bump : Votes → VoteKey → Votes
  | [], key => [(key, 1)]
  | e :: rest, key => if e.1 = key then (e.1, e.2 + 1) :: rest else e :: bump rest key

/-- The loop `while (q.next())` for one query item with offset `q_ms`. -/
def castVotes (votes : Votes) (rows : List (Int × Int)) (q_ms : Int) : Votes :=
  rows.foldl (fun v row => bump v (row.1, row.2 - q_ms)) votes

/-- The loop `for (auto& h : hashes)` of `bestMatch`; `none` when a `q.exec()` fails. -/
def voteLoop (db : Database) (selectOk : Nat → Bool) : List Emit → Nat → Votes → Option Votes
  | [], _, votes => some votes
  | h :: rest, i, votes =>
      if !selectOk i then none
      else voteLoop db selectOk rest (i + 1) (castVotes votes (db.lookup h.1) h.2)

/-- The scan for the highest count: `(bestSong, bestCount)` starts at `(-1, 0)` and is
replaced by an entry whose value is strictly greater. -/
def pickBest (entries : Votes) : Int × Int :=
  entries.foldl (fun best e => if e.2 > best.2 then (e.1.1, e.2) else best) (-1, 0)

/-- What a call of `bestMatch` leaves: the returned flag and the two reference parameters. -/
structure MatchResult where
  ok : Bool
  outSong : SongRow
  voteCount : Int
  deriving DecidableEq, Repr

/-- The function `Database::bestMatch(hashes, outSong, voteCount, err)`.  `iterOrder` is the
order in which the `QHash` hands out its entries, `selectOk i` the success of the `i`-th
`SELECT`, `metaOk` that of the `SELECT` on `songs`. -/
def bestMatch (iterOrder : Votes → Votes) (selectOk : Nat → Bool) (metaOk : Bool)
    (db : Database) (hashes : List Emit) (outSong : SongRow) (voteCount : Int) : MatchResult :=
  match voteLoop db selectOk hashes 0 [] with
  | none => { ok := false, outSong := outSong, voteCount := voteCount }
  | some votes =>
      let best := pickBest (iterOrder votes)
      let bestSong := best.1
      let bestCount := best.2
      if bestSong < 0 then { ok := false, outSong := outSong, voteCount := bestCount }
      else
        match (if metaOk then db.songs.find? (fun s => s.id == bestSong) else none) with
        | none => { ok := false, outSong := outSong, voteCount := bestCount }
        | some row => { ok := true, outSong := row, voteCount := bestCount }

end Database

/-! ## `MainWindow.cpp` -/

/-- The function `MainWindow::fingerprintAndStore` after the WAV file is loaded: `hashes` is
the result of `Fingerprint::compute`, `clicks` what the user does in the metadata dialog.
Returns the database afterwards. -/
def fingerprintAndStore (db : Database) (hashes : List Emit) (clicks : List (Option SongMeta))
    (songOk : Bool) (execOk : Nat → Bool) : Database :=
  let dlg := MetadataDialog.exec clicks
  if dlg.result ≠ some DialogCode.Accepted then db
  else
    let m := dlg.m_meta
    let s : SongRow :=
      { title := m.title, artist := m.artist, album := m.album, year := m.year, genre := m.genre }
    match db.insertSong s songOk with
    | (none, db1) => db1
    | (some songId, db1) => (db1.insertFingerprints songId hashes execOk).2

/-! ## Specification-side notions -/

/-- The vote count of the specification: the number of pairs (query item, posting) with the
posting's hash equal to the item's, the posting's song equal to `song`, and
`offset_ms - q_ms = d`. -/
def pairCount (db : Database) (query : List Emit) (song d : Int) : Nat :=
  (query.map fun q =>
    db.fingerprints.countP fun p =>
      decide (p.hash = q.1 ∧ p.song_id = song ∧ p.offset_ms - q.2 = d)).sum

/-- Song `songId` is the id of a row of `songs`. -/
def songExists (db : Database) (songId : Int) : Prop :=
  ∃ s ∈ db.songs, s.id = songId

/-- Every posting references an existing song. -/
def RefIntegrity (db : Database) : Prop :=
  ∀ p ∈ db.fingerprints, songExists db p.song_id

/-- The ids of `songs` are positive, as `INTEGER PRIMARY KEY AUTOINCREMENT` assigns them. -/
def IdsPositive (db : Database) : Prop :=
  ∀ s ∈ db.songs, 0 < s.id

/-- The states the member functions reach from the empty database, `insertFingerprints` being
called with the id of an existing song as `fingerprintAndStore` does. -/
inductive Reachable : Database → Prop where
  | empty : Reachable {}
  | song (db : Database) (s : SongRow) (execOk : Bool) :
      Reachable db → Reachable (db.insertSong s execOk).2
  | prints (db : Database) (songId : Int) (hashes : List Emit) (execOk : Nat → Bool) :
      Reachable db → songExists db songId →
      Reachable (db.insertFingerprints songId hashes execOk).2

/-- The value `votes.value(key)`: the stored count, `0` for a missing key. -/
def voteOf : Database.Votes → Database.VoteKey → Int
  | [], _ => 0
  | e :: rest, key => if e.1 = key then e.2 else voteOf rest key

/-- A vote table as a `QHash` holds it: one entry per key, and every count positive. -/
def VotesOk (votes : Database.Votes) : Prop :=
  (votes.map Prod.fst).Nodup ∧ ∀ e ∈ votes, 0 < e.2

/-- The posting `insertFingerprints` writes for item `h` of song `songId`. -/
def postingOf (songId : Int) (h : Emit) : FingerprintRow :=
  { song_id := songId, hash := h.1, offset_ms := h.2 }

/-- Registration on an empty database with storage working: `insertSong`, then
`insertFingerprints` under the id it returned, as `fingerprintAndStore` does. -/
def registerFresh (s : SongRow) (hashes : List Emit) : Database :=
  match ({} : Database).insertSong s true with
  | (some songId, db1) => (db1.insertFingerprints songId hashes (fun _ => true)).2
  | (none, db1) => db1

/-- A buffer of `n` samples of silence. -/
def silence (n : Nat) : List Int := List.replicate n 0


namespace Fingerprint

/-- The comparison handed to `std::nth_element`:
`[](auto& a, auto& b){ return a.first > b.first; }` on `(power, bin)` pairs. -/
def peakGreater {P : Type} [LinearOrder P] (a b : P × Int) : Bool :=
  decide (a.1 > b.1)

/-- What the C++ standard promises after `std::nth_element(first, first + n, last, comp)`:
the range is a rearrangement of what it was, and no element at or after position `n`
precedes, by `comp`, an element before position `n`. -/
def NthElementPost {α : Type} (comp : α → α → Bool) (n : Nat) (input output : List α) : Prop :=
  output.Perm input ∧ ∀ x ∈ output.take n, ∀ y ∈ output.drop n, comp y x = false

/-- The vector `bins` of the peak selection: `(mag[k], k)` for `k = 5 .. WINDOW_SIZE/2 - 1`. -/
def binsOf {P : Type} [Inhabited P] (mag : List P) : List (P × Int) :=
  (List.range' 5 (WINDOW_SIZE / 2 - 5)).map fun k => (mag.getD k default, (k : Int))

/-- The peak selection of one round of the frame loop, on the power spectrum `mag` of the
frame: `bins` is filled, `std::nth_element` (the parameter `nthElement`, called with the
position `min(TOP_PEAKS, bins.size())`) rearranges it, and the bin indices of its first
`take` entries are the peaks of the frame, in that order. -/
def selectPeaks {P : Type} [Inhabited P]
    (nthElement : Nat → List (P × Int) → List (P × Int)) (mag : List P) : List Int :=
  let bins := binsOf mag
  let bins := nthElement (min TOP_PEAKS bins.length) bins
  let take := min TOP_PEAKS bins.length
  (bins.take take).map Prod.snd

/-- The power of bin `k` in the spectrum `mag`. -/
def powerAt {P : Type} [Inhabited P] (mag : List P) (k : Int) : P :=
  mag.getD k.toNat default

end Fingerprint

/-- Two songs with one posting each of the same hash; the posting of song 2 is stored first. -/
def tiedCatalog : Database :=
  { songs := [{ id := 1 }, { id := 2 }],
    fingerprints := [{ song_id := 2, hash := 7, offset_ms := 0 },
                     { song_id := 1, hash := 7, offset_ms := 0 }] }

namespace Fingerprint

/-- The peak picker of `compute` split at the power spectrum: `spectrum` is the
floating-point part up to `mag` (window, FFT, power), `nthElement` the library call. -/
def peakPickOf {P : Type} [Inhabited P] (spectrum : List Int → List P)
    (nthElement : Nat → List (P × Int) → List (P × Int)) : List Int → List Int :=
  fun frame => selectPeaks nthElement (spectrum frame)

/-- The vector `peaksInFrame` of `compute`: the peaks of every frame of the buffer. -/
def framePeaks (peakPick : List Int → List Int) (pcm : List Int) : List (List Int) :=
  (frameLoop pcm pcm.length 0).map peakPick

end Fingerprint

/-- Conversion of an `int` to `int16_t`: reduction into `[-32768, 32768)`. -/
def toInt16 (x : Int) : Int := (x + 32768) % 65536 - 32768

/-- The function `WavFile::loadPcm16` from `out.clear()` to the loops that fill `out`:
`p` is the data chunk read as `int16_t` values, `dataSize` its size in bytes.  With one
channel the first `frames` samples are copied; otherwise the first two samples of every
group of two are averaged, `static_cast<int16_t>((L + R) / 2)` with `L`, `R` widened to
`int32_t` and the truncating `/` of C++.  (A read past the end of `p` is taken as 0.) -/
def loadSamples (numChannels dataSize : Nat) (p : List Int) : List Int :=
  let frames := dataSize / (numChannels * 2)
  if numChannels = 1 then p.take frames
  else
    (List.range frames).map fun i =>
      let L := p.getD (2 * i) 0
      let R := p.getD (2 * i + 1) 0
      toInt16 (Int.tdiv (L + R) 2)

namespace Fingerprint

/-- The two facts about rounding to `double` (IEEE-754 binary64, round to nearest) the
offset computation rests on, for a rounding function on the rationals: rounding is monotone,
and a number `m / 2^k` with `|m| ≤ 2^53` and `k ≤ 1022` is a `double`, so it rounds to
itself. -/
def DoubleRounding (fl : ℚ → ℚ) : Prop :=
  (∀ x y : ℚ, x ≤ y → fl x ≤ fl y)
  ∧ ∀ (m : Int) (k : Nat), |m| ≤ 2 ^ 53 → k ≤ 1022 → fl ((m : ℚ) / 2 ^ k) = (m : ℚ) / 2 ^ k

/-- The conversion `int(x)` of a `double`: the value truncated toward zero when that is an
`int`; the C++ conversion has no defined result otherwise (`none`). -/
def truncToInt (x : ℚ) : Option Int :=
  let t := Int.tdiv x.num x.den
  if -2147483648 ≤ t ∧ t ≤ 2147483647 then some t else none

/-- The expression `int((a * HOP_SIZE * 1000.0) / sr)` in `double` arithmetic with rounding
`fl`: `a * HOP_SIZE` is an `int` product, converted exactly; the product with `1000.0` and
the quotient by `double(sr)` are rounded. -/
def offsetMsDouble (fl : ℚ → ℚ) (a : Nat) (sr : Int) : Option Int :=
  truncToInt (fl (fl (((a * HOP_SIZE : Nat) : ℚ) * 1000) / (sr : ℚ)))

end Fingerprint

/-! ## `FFT.cpp`

The buffer of `miniFFT::fft` is a function from positions to elements of a ring `K`; the
twiddle `cpx(cos(ang), sin(ang))` of each stage is the parameter `wlenOf`. Values of type
`size_t` are natural numbers: no index of a buffer that fits in memory wraps. -/

namespace miniFFT

/-- The inner loop of the bit reversal, `for (; j & bit; bit >>= 1) j ^= bit;`, returning
`(j, bit)`; `fuel` bounds the number of rounds. -/
def carryLoop : Nat → Nat → Nat → Nat × Nat
  | 0, j, bit => (j, bit)
  | fuel + 1, j, bit =>
      if j &&& bit ≠ 0 then carryLoop fuel (j ^^^ bit) (bit >>> 1) else (j, bit)

/-- The call `std::swap(a[i], a[j])` on a buffer. -/
def swapAt {K : Type} (a : Nat → K) (i j : Nat) : Nat → K :=
  fun k => if k = i then a j else if k = j then a i else a k

/-- The bit-reversal loop `for (size_t i = 1, j = 0; i < n; i++)` after its rounds
`i = 1 .. c`: the counter `j` and the buffer. -/
def reorder {K : Type} (n : Nat) (a : Nat → K) : Nat → Nat × (Nat → K)
  | 0 => (0, a)
  | c + 1 =>
      let st := reorder n a c
      let i := c + 1
      let bit := n >>> 1
      let jb := carryLoop n st.1 bit
      let j := jb.1 ^^^ jb.2
      (j, if i < j then swapAt st.2 i j else st.2)

/-- The butterfly loop `for (size_t j = 0; j < len / 2; ++j)` of the block at `i` after its
rounds `j = 0 .. c - 1`: the twiddle `w` and the buffer. -/
def butterflies {K : Type} [Ring K] (wlen : K) (i half : Nat) (a : Nat → K) :
    Nat → K × (Nat → K)
  | 0 => (1, a)
  | j + 1 =>
      let st := butterflies wlen i half a j
      let u := st.2 (i + j)
      let v := st.2 (i + j + half) * st.1
      (st.1 * wlen,
        Function.update (Function.update st.2 (i + j) (u + v)) (i + j + half) (u - v))

/-- The block loop `for (size_t i = 0; i < n; i += len)` after its first `c` rounds, round
`c` working on the block at `i = c * len`. -/
def blocks {K : Type} [Ring K] (wlen : K) (len : Nat) (a : Nat → K) : Nat → Nat → K
  | 0 => a
  | c + 1 => (butterflies wlen (c * len) (len / 2) (blocks wlen len a c) (len / 2)).2

/-- The stage loop `for (size_t len = 2; len <= n; len <<= 1)`; `wlenOf len` is the value
`cpx(cos(ang), sin(ang))` computed for `ang = 2 * M_PI / len`, and `fuel` bounds the number
of rounds. -/
def stages {K : Type} [Ring K] (wlenOf : Nat → K) (n : Nat) :
    Nat → Nat → (Nat → K) → Nat → K
  | 0, _, a => a
  | fuel + 1, len, a =>
      if len ≤ n then
        stages wlenOf n fuel (len <<< 1) (blocks (wlenOf len) len a ((n + len - 1) / len))
      else a

/-- The function `miniFFT::fft` on a buffer of `n` elements. -/
def fftBuf {K : Type} [Ring K] (wlenOf : Nat → K) (n : Nat) (a : Nat → K) : Nat → K :=
  if n ≤ 1 then a else stages wlenOf n n 2 (reorder n a (n - 1)).2

/-- The function `miniFFT::fft(std::vector<cpx>& a)`: the vector afterwards. -/
def fft {K : Type} [Ring K] (wlenOf : Nat → K) (a : List K) : List K :=
  (List.range a.length).map (fftBuf wlenOf a.length fun i => a.getD i 0)

/-- The number `i` of `m` bits with its bits in reverse order. -/
def bitRev : Nat → Nat → Nat
  | 0, _ => 0
  | m + 1, i => (i % 2) * 2 ^ m + bitRev m (i / 2)

end miniFFT

/-! ## The matcher under a time shift of the query -/

/-- The query with every `q_ms` replaced by `q_ms + c`. -/
def shiftQuery (c : Int) (query : List Emit) : List Emit :=
  query.map fun h => (h.1, h.2 + c)

/-- Song `s` attains the maximum vote count: one of its keys has a positive pair count that
no key exceeds. -/
def TopSong (db : Database) (query : List Emit) (s : Int) : Prop :=
  ∃ d, 0 < pairCount db query s d ∧ ∀ s2 d2, pairCount db query s2 d2 ≤ pairCount db query s d

/-! ## Bit layout of the hash -/

namespace Fingerprint

theorem or_fields (a b c : Nat) (hb : b < 1024) (hc : c < 4096) :
    (a * 2 ^ 22 ||| b * 2 ^ 12 ||| c) = a * 2 ^ 22 + b * 2 ^ 12 + c := by
  have e1 : a * 2 ^ 22 ||| b * 2 ^ 12 = a * 2 ^ 22 + b * 2 ^ 12 := by
    have hb2 : b * 2 ^ 12 < 2 ^ 22 := by omega
    have key := Nat.mul_add_lt_is_or hb2 a
    rw [Nat.mul_comm (2 ^ 22) a] at key
    exact key.symm
  rw [e1]
  have hc2 : c < 2 ^ 12 := by omega
  have key := Nat.mul_add_lt_is_or hc2 (a * 2 ^ 10 + b)
  rw [show a * 2 ^ 22 + b * 2 ^ 12 = 2 ^ 12 * (a * 2 ^ 10 + b) by ring]
  exact key.symm

theorem land_mask_natCast (x k : Nat) :
    Int.land (x : Int) ((2 ^ k - 1 : Nat) : Int) = ((x % 2 ^ k : Nat) : Int) := by
  show ((x &&& (2 ^ k - 1) : Nat) : Int) = _
  rw [Nat.and_pow_two_sub_one_eq_mod]

theorem land_3FF (a : Nat) (ha : a < 1024) : Int.land (a : Int) 0x3FF = (a : Int) := by
  have key := land_mask_natCast a 10
  simp only [Nat.reducePow, Nat.reduceSub] at key
  rw [Nat.mod_eq_of_lt ha] at key
  exact key

theorem land_FFF (c : Nat) (hc : c < 4096) : Int.land (c : Int) 0xFFF = (c : Int) := by
  have key := land_mask_natCast c 12
  simp only [Nat.reducePow, Nat.reduceSub] at key
  rw [Nat.mod_eq_of_lt hc] at key
  exact key

/-- On in-range fields the hash is the positional sum `f1 * 2^22 + f2 * 2^12 + dt`. -/
theorem hashPair_natCast (a b c : Nat) (ha : a < 1024) (hb : b < 1024) (hc : c < 4096) :
    hashPair (a : Int) (b : Int) (c : Int) = a * 2 ^ 22 + b * 2 ^ 12 + c := by
  have h1 : ¬ ((a : Int) > 1023) := by omega
  have h2 : ¬ ((b : Int) > 1023) := by omega
  have h3 : ¬ ((c : Int) > 4095) := by omega
  simp only [hashPair, h1, h2, h3, if_false, land_3FF a ha, land_3FF b hb, land_FFF c hc,
    toUInt32]
  have t1 : (((a : Int) * 2 ^ 22) % 4294967296).toNat = a * 2 ^ 22 := by omega
  have t2 : (((b : Int) * 2 ^ 12) % 4294967296).toNat = b * 2 ^ 12 := by omega
  have t3 : ((c : Int) % 4294967296).toNat = c := by omega
  rw [t1, t2, t3]
  exact or_fields a b c hb hc

/-- Decoding a positional sum of in-range fields gives the fields back. -/
theorem decodeHash_sum (a b c : Nat) (_ha : a < 1024) (hb : b < 1024) (hc : c < 4096) :
    decodeHash (a * 2 ^ 22 + b * 2 ^ 12 + c) = (a, b, c) := by
  have m1 : ∀ x : Nat, x &&& 0x3FF = x % 2 ^ 10 := fun x =>
    Nat.and_pow_two_sub_one_eq_mod x 10
  have m2 : ∀ x : Nat, x &&& 0xFFF = x % 2 ^ 12 := fun x =>
    Nat.and_pow_two_sub_one_eq_mod x 12
  simp only [decodeHash, Nat.shiftRight_eq_div_pow, m1, m2, Prod.mk.injEq]
  refine ⟨?_, ?_, ?_⟩ <;> omega

/-- The clamped hash of non-negative fields, in closed form. -/
theorem hashPair_clamped (f1 f2 dt : Int) (h1 : 0 ≤ f1) (h2 : 0 ≤ f2) (h3 : 0 ≤ dt) :
    hashPair f1 f2 dt
      = (min f1 1023).toNat * 2 ^ 22 + (min f2 1023).toNat * 2 ^ 12 + (min dt 4095).toNat := by
  have key := hashPair_natCast (min f1 1023).toNat (min f2 1023).toNat (min dt 4095).toNat
    (by omega) (by omega) (by omega)
  rw [← key]
  have e1 : (((min f1 1023).toNat : Nat) : Int) = min f1 1023 := by omega
  have e2 : (((min f2 1023).toNat : Nat) : Int) = min f2 1023 := by omega
  have e3 : (((min dt 4095).toNat : Nat) : Int) = min dt 4095 := by omega
  rw [e1, e2, e3]
  unfold hashPair
  have c1 : (if f1 > 1023 then (1023 : Int) else f1) = min f1 1023 := by
    split <;> omega
  have c2 : (if f2 > 1023 then (1023 : Int) else f2) = min f2 1023 := by
    split <;> omega
  have c3 : (if dt > 4095 then (4095 : Int) else dt) = min dt 4095 := by
    split <;> omega
  have i1 : ¬ (min f1 1023 > 1023) := by omega
  have i2 : ¬ (min f2 1023 > 1023) := by omega
  have i3 : ¬ (min dt 4095 > 4095) := by omega
  simp only [c1, c2, c3, i1, i2, i3, if_false]

/-- C1. Round trip of `hashPair`: for `0 ≤ f1, f2 < 1024` and `0 ≤ dt < 4096`, reading
`h = hashPair f1 f2 dt` back as `(h >> 22, (h >> 12) & 0x3FF, h & 0xFFF)` gives `(f1, f2, dt)`;
hence two in-range triples with the same hash are equal. -/
theorem hashPair_roundtrip (f1 f2 dt : Int)
    (hf1 : 0 ≤ f1 ∧ f1 < 1024) (hf2 : 0 ≤ f2 ∧ f2 < 1024) (hdt : 0 ≤ dt ∧ dt < 4096) :
    (((decodeHash (hashPair f1 f2 dt)).1 : Int) = f1
      ∧ ((decodeHash (hashPair f1 f2 dt)).2.1 : Int) = f2
      ∧ ((decodeHash (hashPair f1 f2 dt)).2.2 : Int) = dt)
    ∧ ∀ g1 g2 gt : Int, 0 ≤ g1 ∧ g1 < 1024 → 0 ≤ g2 ∧ g2 < 1024 → 0 ≤ gt ∧ gt < 4096 →
        hashPair g1 g2 gt = hashPair f1 f2 dt → g1 = f1 ∧ g2 = f2 ∧ gt = dt := by
  have closed : ∀ x y z : Int, 0 ≤ x ∧ x < 1024 → 0 ≤ y ∧ y < 1024 → 0 ≤ z ∧ z < 4096 →
      decodeHash (hashPair x y z) = (x.toNat, y.toNat, z.toNat) := by
    intro x y z hx hy hz
    have key := hashPair_natCast x.toNat y.toNat z.toNat (by omega) (by omega) (by omega)
    rw [Int.toNat_of_nonneg hx.1, Int.toNat_of_nonneg hy.1, Int.toNat_of_nonneg hz.1] at key
    rw [key]
    exact decodeHash_sum _ _ _ (by omega) (by omega) (by omega)
  refine ⟨?_, ?_⟩
  · rw [closed f1 f2 dt hf1 hf2 hdt]
    refine ⟨?_, ?_, ?_⟩ <;> simp only [] <;> omega
  · intro g1 g2 gt hg1 hg2 hgt heq
    have e := closed g1 g2 gt hg1 hg2 hgt
    rw [heq, closed f1 f2 dt hf1 hf2 hdt] at e
    simp only [Prod.mk.injEq] at e
    omega

/-- Witness of C1 at `(5, 900, 20)`. -/
theorem hashPair_roundtrip_witness :
    ((decodeHash (hashPair 5 900 20)).1 : Int) = 5
      ∧ ((decodeHash (hashPair 5 900 20)).2.1 : Int) = 900
      ∧ ((decodeHash (hashPair 5 900 20)).2.2 : Int) = 20 :=
  (hashPair_roundtrip 5 900 20 (by decide) (by decide) (by decide)).1

/-- C2. Saturation of `hashPair`: for non-negative `f1, f2, dt` the hash is that of the fields
clamped to `1023`, `1023`, `4095`, and it reads back as exactly the clamped fields, so a field
that overflows never reaches another field. -/
theorem hashPair_saturates (f1 f2 dt : Int) (h1 : 0 ≤ f1) (h2 : 0 ≤ f2) (h3 : 0 ≤ dt) :
    hashPair f1 f2 dt = hashPair (min f1 1023) (min f2 1023) (min dt 4095)
    ∧ ((decodeHash (hashPair f1 f2 dt)).1 : Int) = min f1 1023
    ∧ ((decodeHash (hashPair f1 f2 dt)).2.1 : Int) = min f2 1023
    ∧ ((decodeHash (hashPair f1 f2 dt)).2.2 : Int) = min dt 4095 := by
  have e := hashPair_clamped f1 f2 dt h1 h2 h3
  have e' := hashPair_clamped (min f1 1023) (min f2 1023) (min dt 4095)
    (by omega) (by omega) (by omega)
  have m1 : min (min f1 1023) 1023 = min f1 1023 := by omega
  have m2 : min (min f2 1023) 1023 = min f2 1023 := by omega
  have m3 : min (min dt 4095) 4095 = min dt 4095 := by omega
  rw [m1, m2, m3] at e'
  refine ⟨by rw [e, e'], ?_⟩
  rw [e, decodeHash_sum _ _ _ (by omega) (by omega) (by omega)]
  refine ⟨?_, ?_, ?_⟩ <;> simp only [] <;> omega

/-- Witness of C2: the two saturation examples of the specification. -/
theorem hashPair_saturates_witness :
    hashPair 1024 0 0 = hashPair 1023 0 0 ∧ hashPair 0 0 4096 = hashPair 0 0 4095 :=
  ⟨(hashPair_saturates 1024 0 0 (by decide) (by decide) (by decide)).1,
   (hashPair_saturates 0 0 4096 (by decide) (by decide) (by decide)).1⟩

end Fingerprint

open Database Fingerprint

/-! ## The vote table -/

theorem voteOf_bump (v : Votes) (k k' : VoteKey) :
    voteOf (bump v k) k' = voteOf v k' + (if k = k' then 1 else 0) := by
  induction v with
  | nil =>
      simp only [bump, voteOf]
      split <;> simp
  | cons e rest ih =>
      by_cases hk : e.1 = k
      · simp only [bump, hk, if_true, voteOf]
        by_cases hk' : k = k'
        · simp [hk']
        · simp [hk']
      · simp only [bump, hk, if_false, voteOf, ih]
        by_cases he : e.1 = k'
        · have hne : ¬ k = k' := fun h => hk (he.trans h.symm)
          simp [he, hne]
        · simp [he]

theorem mem_keys_bump (v : Votes) (k x : VoteKey) :
    x ∈ (bump v k).map Prod.fst ↔ x ∈ v.map Prod.fst ∨ x = k := by
  induction v with
  | nil => simp [bump]
  | cons e rest ih =>
      by_cases hk : e.1 = k
      · simp only [bump, hk, if_true, List.map_cons, List.mem_cons]
        constructor
        · rintro (h | h)
          · exact Or.inr h
          · exact Or.inl (Or.inr h)
        · rintro ((h | h) | h)
          · exact Or.inl h
          · exact Or.inr h
          · exact Or.inl h
      · simp only [bump, hk, if_false, List.map_cons, List.mem_cons, ih]
        tauto

theorem votesOk_bump (v : Votes) (k : VoteKey) (hv : VotesOk v) : VotesOk (bump v k) := by
  induction v with
  | nil =>
      refine ⟨by simp [bump], ?_⟩
      intro e he
      simp only [bump, List.mem_singleton] at he
      subst he
      exact Int.one_pos
  | cons e rest ih =>
      obtain ⟨hnd, hpos⟩ := hv
      have hnd' : e.1 ∉ rest.map Prod.fst ∧ (rest.map Prod.fst).Nodup := by
        simpa [List.nodup_cons] using hnd
      have hrest : VotesOk rest := ⟨hnd'.2, fun x hx => hpos x (List.mem_cons_of_mem _ hx)⟩
      have he0 : 0 < e.2 := hpos e (List.mem_cons_self _ _)
      by_cases hk : e.1 = k
      · simp only [bump, hk, if_true]
        refine ⟨?_, ?_⟩
        · rw [← hk]
          simpa [List.nodup_cons] using hnd
        · intro x hx
          rcases List.mem_cons.1 hx with h | h
          · subst h
            show 0 < e.2 + 1
            omega
          · exact hpos x (List.mem_cons_of_mem _ h)
      · simp only [bump, hk, if_false]
        obtain ⟨ihnd, ihpos⟩ := ih hrest
        refine ⟨?_, ?_⟩
        · rw [List.map_cons, List.nodup_cons]
          refine ⟨?_, ihnd⟩
          rw [mem_keys_bump]
          rintro (h | h)
          · exact hnd'.1 h
          · exact hk h
        · intro x hx
          rcases List.mem_cons.1 hx with h | h
          · subst h
            exact he0
          · exact ihpos x h

theorem voteOf_of_mem (v : Votes) (hv : (v.map Prod.fst).Nodup) (e : VoteKey × Int)
    (he : e ∈ v) : voteOf v e.1 = e.2 := by
  induction v with
  | nil => cases he
  | cons x rest ih =>
      have hnd : x.1 ∉ rest.map Prod.fst ∧ (rest.map Prod.fst).Nodup := by
        simpa [List.nodup_cons] using hv
      rcases List.mem_cons.1 he with h | h
      · subst h
        simp [voteOf]
      · have hne : ¬ x.1 = e.1 := by
          intro hx
          exact hnd.1 (hx ▸ List.mem_map_of_mem Prod.fst h)
        simp only [voteOf, hne, if_false]
        exact ih hnd.2 h

theorem mem_of_voteOf_ne_zero (v : Votes) (k : VoteKey) (h : voteOf v k ≠ 0) :
    (k, voteOf v k) ∈ v := by
  induction v with
  | nil => exact absurd rfl h
  | cons x rest ih =>
      by_cases hx : x.1 = k
      · simp only [voteOf, hx, if_true]
        rw [← hx]
        exact List.mem_cons_self _ _
      · simp only [voteOf, hx, if_false] at h ⊢
        exact List.mem_cons_of_mem _ (ih h)

theorem castVotes_spec (rows : List (Int × Int)) (q_ms : Int) (v : Votes) (hv : VotesOk v) :
    VotesOk (castVotes v rows q_ms) ∧
    ∀ k, voteOf (castVotes v rows q_ms) k
      = voteOf v k + (rows.countP fun row => decide ((row.1, row.2 - q_ms) = k)) := by
  induction rows generalizing v with
  | nil => exact ⟨hv, fun k => by simp [castVotes]⟩
  | cons r rest ih =>
      have step := ih (bump v (r.1, r.2 - q_ms)) (votesOk_bump v _ hv)
      refine ⟨step.1, ?_⟩
      intro k
      have e := step.2 k
      simp only [castVotes, List.foldl_cons] at e ⊢
      rw [e, voteOf_bump, List.countP_cons]
      by_cases hk : (r.1, r.2 - q_ms) = k
      · simp [hk]; omega
      · simp [hk]

theorem countP_lookup (db : Database) (h : Nat) (q_ms : Int) (k : VoteKey) :
    ((db.lookup h).countP fun row => decide ((row.1, row.2 - q_ms) = k))
      = db.fingerprints.countP fun p =>
          decide (p.hash = h ∧ p.song_id = k.1 ∧ p.offset_ms - q_ms = k.2) := by
  unfold Database.lookup
  rw [List.countP_map, List.countP_filter]
  apply List.countP_congr
  intro p _
  obtain ⟨s, d⟩ := k
  simp only [Function.comp, beq_iff_eq, Bool.and_eq_true, decide_eq_true_eq, Prod.mk.injEq]
  tauto

theorem voteLoop_spec (db : Database) (selectOk : Nat → Bool) (hsel : ∀ i, selectOk i = true)
    (query : List Emit) (i : Nat) (v : Votes) (hv : VotesOk v) :
    ∃ w, voteLoop db selectOk query i v = some w ∧ VotesOk w ∧
      ∀ k, voteOf w k = voteOf v k + pairCount db query k.1 k.2 := by
  induction query generalizing i v with
  | nil => exact ⟨v, rfl, hv, fun k => by simp [pairCount]⟩
  | cons q rest ih =>
      have c := castVotes_spec (db.lookup q.1) q.2 v hv
      obtain ⟨w, hw, hwok, hwv⟩ := ih (i + 1) _ c.1
      refine ⟨w, ?_, hwok, ?_⟩
      · simp only [voteLoop, hsel i, Bool.not_true, Bool.false_eq_true, if_false]
        exact hw
      · intro k
        rw [hwv k, c.2 k, countP_lookup]
        simp only [pairCount, List.map_cons, List.sum_cons, Nat.cast_add]
        omega

theorem pickBest_fold (entries : Votes) (init : Int × Int) :
    init.2 ≤ (entries.foldl (fun best e => if e.2 > best.2 then (e.1.1, e.2) else best) init).2
    ∧ (∀ e ∈ entries,
        e.2 ≤ (entries.foldl (fun best e => if e.2 > best.2 then (e.1.1, e.2) else best) init).2)
    ∧ ((entries.foldl (fun best e => if e.2 > best.2 then (e.1.1, e.2) else best) init) = init
        ∨ ∃ e ∈ entries,
          (entries.foldl (fun best e => if e.2 > best.2 then (e.1.1, e.2) else best) init)
            = (e.1.1, e.2) ∧ init.2 < e.2) := by
  induction entries generalizing init with
  | nil => exact ⟨le_refl _, fun e he => absurd he (List.not_mem_nil e), Or.inl rfl⟩
  | cons x rest ih =>
      simp only [List.foldl_cons]
      by_cases hx : x.2 > init.2
      · simp only [hx, if_true]
        obtain ⟨h1, h2, h3⟩ := ih (x.1.1, x.2)
        refine ⟨?_, ?_, ?_⟩
        · exact le_trans (le_of_lt hx) h1
        · intro e he
          rcases List.mem_cons.1 he with h | h
          · subst h; exact h1
          · exact h2 e h
        · right
          rcases h3 with h | ⟨e, he, hr, hlt⟩
          · exact ⟨x, List.mem_cons_self _ _, h, hx⟩
          · exact ⟨e, List.mem_cons_of_mem _ he, hr, lt_trans hx hlt⟩
      · simp only [hx, if_false]
        obtain ⟨h1, h2, h3⟩ := ih init
        refine ⟨h1, ?_, ?_⟩
        · intro e he
          rcases List.mem_cons.1 he with h | h
          · subst h; exact le_trans (not_lt.1 hx) h1
          · exact h2 e h
        · rcases h3 with h | ⟨e, he, hr, hlt⟩
          · exact Or.inl h
          · exact Or.inr ⟨e, List.mem_cons_of_mem _ he, hr, hlt⟩

/-- A positive pair count comes from a posting of that song. -/
theorem posting_of_pairCount_pos (db : Database) (query : List Emit) (s d : Int)
    (h : 0 < pairCount db query s d) :
    ∃ q ∈ query, ∃ p ∈ db.fingerprints, p.hash = q.1 ∧ p.song_id = s ∧ p.offset_ms - q.2 = d := by
  unfold pairCount at h
  by_contra hno
  push_neg at hno
  have hz : (query.map fun q => db.fingerprints.countP fun p =>
      decide (p.hash = q.1 ∧ p.song_id = s ∧ p.offset_ms - q.2 = d)).sum = 0 := by
    apply List.sum_eq_zero
    intro x hx
    obtain ⟨q, hq, rfl⟩ := List.mem_map.1 hx
    rw [List.countP_eq_zero]
    intro p hp
    simp only [decide_eq_true_eq]
    intro hc
    exact hno q hq p hp hc.1 hc.2.1 hc.2.2
  omega

theorem find_song (db : Database) (s : Int) (h : songExists db s) :
    ∃ row, db.songs.find? (fun x => x.id == s) = some row := by
  obtain ⟨x, hx, hid⟩ := h
  cases hf : db.songs.find? (fun x => x.id == s) with
  | some row => exact ⟨row, rfl⟩
  | none =>
      rw [List.find?_eq_none] at hf
      exact absurd (by simpa using hid) (hf x hx)

/-- What `bestMatch` returns when every `SELECT` succeeds: `voteCount` bounds every pair
count; either no pair count is positive and the call fails leaving `outSong` alone, or
`voteCount` is the pair count of a key `(s, d)` and the call succeeds exactly with the row of
`s` when `s` is non-negative and exists. -/
theorem bestMatch_cases (iterOrder : Votes → Votes) (horder : ∀ v, (iterOrder v).Perm v)
    (selectOk : Nat → Bool) (hsel : ∀ i, selectOk i = true) (db : Database) (query : List Emit)
    (outSong : SongRow) (voteCount : Int) (r : MatchResult)
    (hr : bestMatch iterOrder selectOk true db query outSong voteCount = r) :
    (∀ s d, (pairCount db query s d : Int) ≤ r.voteCount)
    ∧ ((r.voteCount = 0 ∧ r.ok = false ∧ r.outSong = outSong
          ∧ ∀ s d, pairCount db query s d = 0)
       ∨ ∃ s d, 0 < pairCount db query s d ∧ (pairCount db query s d : Int) = r.voteCount
          ∧ (r.ok = true → r.outSong ∈ db.songs ∧ r.outSong.id = s)
          ∧ (0 ≤ s → songExists db s → r.ok = true)) := by
  obtain ⟨v, hv, hvok, hvote⟩ :=
    voteLoop_spec db selectOk hsel query 0 [] ⟨List.nodup_nil, fun e he => absurd he (List.not_mem_nil e)⟩
  have hvote' : ∀ k, voteOf v k = pairCount db query k.1 k.2 := by
    intro k
    rw [hvote k]
    simp [voteOf]
  obtain ⟨h0, hle, hcase⟩ := pickBest_fold (iterOrder v) (-1, 0)
  change (0 : Int) ≤ (pickBest (iterOrder v)).2 at h0
  change ∀ e ∈ iterOrder v, e.2 ≤ (pickBest (iterOrder v)).2 at hle
  change pickBest (iterOrder v) = (-1, 0) ∨ ∃ e ∈ iterOrder v,
    pickBest (iterOrder v) = (e.1.1, e.2) ∧ (0 : Int) < e.2 at hcase
  have hbound : ∀ s d, (pairCount db query s d : Int) ≤ (pickBest (iterOrder v)).2 := by
    intro s d
    by_cases hz : voteOf v (s, d) = 0
    · have e := hvote' (s, d)
      rw [hz] at e
      simp only [] at e
      omega
    · have hm := mem_of_voteOf_ne_zero v (s, d) hz
      have hm' := (horder v).mem_iff.2 hm
      have := hle _ hm'
      rw [← hvote' (s, d)]
      exact this
  have hcount : r.voteCount = (pickBest (iterOrder v)).2 := by
    rw [← hr]
    unfold bestMatch
    rw [hv]
    simp only []
    split
    · rfl
    · split <;> rfl
  refine ⟨fun s d => hcount ▸ hbound s d, ?_⟩
  rcases hcase with hinit | ⟨e, he, hre, hpos⟩
  · left
    have hz : ∀ s d, pairCount db query s d = 0 := by
      intro s d
      have := hbound s d
      rw [hinit] at this
      simp only [] at this
      omega
    refine ⟨by rw [hcount, hinit], ?_, ?_, hz⟩
    · rw [← hr]
      unfold bestMatch
      rw [hv]
      simp only [hinit]
      rfl
    · rw [← hr]
      unfold bestMatch
      rw [hv]
      simp only [hinit]
      rfl
  · right
    have hev : e ∈ v := (horder v).mem_iff.1 he
    have hval : e.2 = (pairCount db query e.1.1 e.1.2 : Int) := by
      rw [← hvote' e.1, voteOf_of_mem v hvok.1 e hev]
    refine ⟨e.1.1, e.1.2, ?_, ?_, ?_, ?_⟩
    · rw [hval] at hpos
      exact_mod_cast hpos
    · rw [hcount, hre, ← hval]
    · intro hok
      rw [← hr] at hok ⊢
      unfold bestMatch at hok ⊢
      rw [hv] at hok ⊢
      simp only [hre] at hok ⊢
      split at hok
      · cases hok
      · rename_i hneg
        simp only [hneg, if_false]
        simp only [if_true] at hok ⊢
        cases hf : db.songs.find? (fun x => x.id == e.1.1) with
        | none => rw [hf] at hok; cases hok
        | some row =>
            simp only []
            refine ⟨List.mem_of_find?_eq_some hf, ?_⟩
            have := List.find?_some hf
            simpa using this
    · intro hs hex
      obtain ⟨row, hrow⟩ := find_song db e.1.1 hex
      rw [← hr]
      unfold bestMatch
      rw [hv]
      simp only [hre]
      have hneg : ¬ e.1.1 < 0 := by omega
      simp only [hneg, if_false, if_true, hrow]

/-! ## The matcher -/

theorem length_le_sum_map {α : Type} (l : List α) (f : α → Nat) (h : ∀ x ∈ l, 1 ≤ f x) :
    l.length ≤ (l.map f).sum := by
  induction l with
  | nil => simp
  | cons a rest ih =>
      have h1 := h a (List.mem_cons_self _ _)
      have h2 := ih fun x hx => h x (List.mem_cons_of_mem _ hx)
      simp only [List.length_cons, List.map_cons, List.sum_cons]
      omega

theorem sum_map_le_length {α : Type} (l : List α) (f : α → Nat) (h : ∀ x ∈ l, f x ≤ 1) :
    (l.map f).sum ≤ l.length := by
  induction l with
  | nil => simp
  | cons a rest ih =>
      have h1 := h a (List.mem_cons_self _ _)
      have h2 := ih fun x hx => h x (List.mem_cons_of_mem _ hx)
      simp only [List.length_cons, List.map_cons, List.sum_cons]
      omega

theorem length_lt_sum_map {α : Type} (l : List α) (f : α → Nat) (h : ∀ x ∈ l, 1 ≤ f x)
    (a : α) (ha : a ∈ l) (h2 : 2 ≤ f a) : l.length < (l.map f).sum := by
  induction l with
  | nil => cases ha
  | cons b rest ih =>
      simp only [List.length_cons, List.map_cons, List.sum_cons]
      have hb := h b (List.mem_cons_self _ _)
      have hrest : ∀ x ∈ rest, 1 ≤ f x := fun x hx => h x (List.mem_cons_of_mem _ hx)
      rcases List.mem_cons.1 ha with e | e
      · subst e
        have := length_le_sum_map rest f hrest
        omega
      · have := ih hrest e
        omega

theorem mem_le_sum (l : List Nat) (x : Nat) (hx : x ∈ l) : x ≤ l.sum := by
  induction l with
  | nil => cases hx
  | cons b rest ih =>
      simp only [List.sum_cons]
      rcases List.mem_cons.1 hx with e | e
      · subst e; omega
      · have := ih e
        omega

/-- A posting sharing the hash of a query item gives its key a positive pair count. -/
theorem pairCount_pos_of_posting (db : Database) (query : List Emit) (q : Emit)
    (hq : q ∈ query) (p : FingerprintRow) (hp : p ∈ db.fingerprints) (hh : p.hash = q.1) :
    0 < pairCount db query p.song_id (p.offset_ms - q.2) := by
  unfold pairCount
  have hterm : 0 < db.fingerprints.countP fun x =>
      decide (x.hash = q.1 ∧ x.song_id = p.song_id ∧ x.offset_ms - q.2 = p.offset_ms - q.2) := by
    rw [List.countP_pos_iff]
    exact ⟨p, hp, by simp [hh]⟩
  have hmem : (db.fingerprints.countP fun x =>
      decide (x.hash = q.1 ∧ x.song_id = p.song_id ∧ x.offset_ms - q.2 = p.offset_ms - q.2))
      ∈ query.map fun q' => db.fingerprints.countP fun x =>
        decide (x.hash = q'.1 ∧ x.song_id = p.song_id ∧ x.offset_ms - q'.2 = p.offset_ms - q.2) :=
    List.mem_map.2 ⟨q, hq, rfl⟩
  have := mem_le_sum _ _ hmem
  omega

/-- When some pair count is positive and the postings reference existing songs of positive
id, the key the scan ends on belongs to a stored song, and `bestMatch` returns its row. -/
theorem bestMatch_hit (iterOrder : Votes → Votes) (horder : ∀ v, (iterOrder v).Perm v)
    (selectOk : Nat → Bool) (hsel : ∀ i, selectOk i = true) (db : Database)
    (href : RefIntegrity db) (hids : IdsPositive db) (query : List Emit)
    (outSong : SongRow) (voteCount : Int) (hvote : ∃ s d, 0 < pairCount db query s d) :
    ∃ s d, (pairCount db query s d : Int)
        = (bestMatch iterOrder selectOk true db query outSong voteCount).voteCount
      ∧ (bestMatch iterOrder selectOk true db query outSong voteCount).ok = true
      ∧ (bestMatch iterOrder selectOk true db query outSong voteCount).outSong ∈ db.songs
      ∧ (bestMatch iterOrder selectOk true db query outSong voteCount).outSong.id = s := by
  obtain ⟨_, hcase⟩ :=
    bestMatch_cases iterOrder horder selectOk hsel db query outSong voteCount _ rfl
  rcases hcase with ⟨_, _, _, hzero⟩ | ⟨s, d, hpos, hval, hrow, hok⟩
  · obtain ⟨s, d, hsd⟩ := hvote
    rw [hzero s d] at hsd
    exact absurd hsd (lt_irrefl 0)
  · obtain ⟨q, _, p, hp, _, hps, _⟩ := posting_of_pairCount_pos db query s d hpos
    have hex : songExists db s := hps ▸ href p hp
    have hs : 0 ≤ s := by
      obtain ⟨row, hrowmem, hid⟩ := hex
      have := hids row hrowmem
      omega
    have hk := hok hs hex
    obtain ⟨hmem, hid⟩ := hrow hk
    exact ⟨s, d, hval, hk, hmem, hid⟩

/-- C3. `bestMatch` returns an argmax of the vote histogram: when the postings reference
existing songs (whose ids `AUTOINCREMENT` made positive), the `SELECT`s succeed and some pair
count is positive, the call succeeds, `voteCount` is the maximum of `pairCount` over all
`(song, d)`, and the returned song is a row of `songs` that attains it for some `d`. -/
theorem bestMatch_argmax (iterOrder : Votes → Votes) (horder : ∀ v, (iterOrder v).Perm v)
    (selectOk : Nat → Bool) (hsel : ∀ i, selectOk i = true) (db : Database)
    (href : RefIntegrity db) (hids : IdsPositive db) (query : List Emit)
    (outSong : SongRow) (voteCount : Int) (hvote : ∃ s d, 0 < pairCount db query s d) :
    (bestMatch iterOrder selectOk true db query outSong voteCount).ok = true
    ∧ (∀ s d, (pairCount db query s d : Int)
        ≤ (bestMatch iterOrder selectOk true db query outSong voteCount).voteCount)
    ∧ (bestMatch iterOrder selectOk true db query outSong voteCount).outSong ∈ db.songs
    ∧ ∃ d, (pairCount db query
          (bestMatch iterOrder selectOk true db query outSong voteCount).outSong.id d : Int)
        = (bestMatch iterOrder selectOk true db query outSong voteCount).voteCount := by
  have hbound :=
    (bestMatch_cases iterOrder horder selectOk hsel db query outSong voteCount _ rfl).1
  obtain ⟨s, d, hval, hok, hmem, hid⟩ :=
    bestMatch_hit iterOrder horder selectOk hsel db href hids query outSong voteCount hvote
  refine ⟨hok, hbound, hmem, d, ?_⟩
  rw [hid]
  exact hval

/-- Witness of C3: one song, one posting, one query item. -/
theorem bestMatch_argmax_witness :
    (bestMatch id (fun _ => true) true
        { songs := [{ id := 1 }], fingerprints := [{ song_id := 1, hash := 7, offset_ms := 30 }] }
        [(7, 10)] {} 0).ok = true :=
  (bestMatch_argmax id (fun _ => List.Perm.refl _) (fun _ => true) (fun _ => rfl)
    { songs := [{ id := 1 }], fingerprints := [{ song_id := 1, hash := 7, offset_ms := 30 }] }
    (by intro p hp; simp only [List.mem_singleton] at hp; subst hp; exact ⟨{ id := 1 }, by simp, rfl⟩)
    (by intro s hs; simp only [List.mem_singleton] at hs; subst hs; decide)
    [(7, 10)] {} 0 ⟨1, 20, by decide⟩).1

/-! ## Storing fingerprints -/

/-- The loop of `insertFingerprints` inside an open transaction: when every `exec` succeeds
the rows are appended and committed. -/
theorem insertLoop_ok (songId : Int) (execOk : Nat → Bool) (items : List Emit) (i : Nat)
    (c : Connection) (saved : Database) (hc : c.snapshot = some saved)
    (hall : ∀ j, j < items.length → execOk (i + j) = true) :
    insertLoop songId execOk items i c
      = (true, { tables := { c.tables with
                    fingerprints := c.tables.fingerprints ++ items.map (postingOf songId) },
                 snapshot := none }) := by
  induction items generalizing i c with
  | nil =>
      simp only [insertLoop, Connection.commit, hc, List.map_nil, List.append_nil]
  | cons h rest ih =>
      have h0 : execOk i = true := by simpa using hall 0 (by simp)
      have hrest : ∀ j, j < rest.length → execOk (i + 1 + j) = true := by
        intro j hj
        have := hall (j + 1) (by simp; omega)
        rwa [show i + (j + 1) = i + 1 + j by omega] at this
      simp only [insertLoop, h0, Bool.not_true, Bool.false_eq_true, if_false]
      rw [ih (i + 1) _ (by simpa [Connection.insertFingerprintRow] using hc) hrest]
      simp [Connection.insertFingerprintRow, postingOf]

/-- The loop of `insertFingerprints` inside an open transaction: when the `exec` of some item
fails, the contents at `BEGIN` are restored. -/
theorem insertLoop_fail (songId : Int) (execOk : Nat → Bool) (items : List Emit) (i : Nat)
    (c : Connection) (saved : Database) (hc : c.snapshot = some saved)
    (hfail : ∃ j, j < items.length ∧ execOk (i + j) = false) :
    insertLoop songId execOk items i c = (false, { tables := saved, snapshot := none }) := by
  induction items generalizing i c with
  | nil =>
      obtain ⟨j, hj, _⟩ := hfail
      simp at hj
  | cons h rest ih =>
      by_cases h0 : execOk i = true
      · simp only [insertLoop, h0, Bool.not_true, Bool.false_eq_true, if_false]
        apply ih (i + 1) _ (by simpa [Connection.insertFingerprintRow] using hc)
        obtain ⟨j, hj, hjf⟩ := hfail
        cases j with
        | zero => simp [h0] at hjf
        | succ k =>
            refine ⟨k, by simpa using hj, ?_⟩
            rwa [show i + (k + 1) = i + 1 + k by omega] at hjf
      · have h0' : execOk i = false := by simpa using h0
        simp only [insertLoop, h0', Bool.not_false, if_true, Connection.rollback, hc]

theorem insertFingerprints_ok (db : Database) (songId : Int) (items : List Emit)
    (execOk : Nat → Bool) (hall : ∀ j, j < items.length → execOk j = true) :
    db.insertFingerprints songId items execOk
      = (true, { db with fingerprints := db.fingerprints ++ items.map (postingOf songId) }) := by
  unfold Database.insertFingerprints insertFingerprintsConn
  rw [insertLoop_ok songId execOk items 0 _ db (by simp [Connection.transaction])
    (by intro j hj; simpa using hall j hj)]
  simp [Connection.transaction]

theorem insertFingerprints_fail (db : Database) (songId : Int) (items : List Emit)
    (execOk : Nat → Bool) (hfail : ∃ j, j < items.length ∧ execOk j = false) :
    db.insertFingerprints songId items execOk = (false, db) := by
  unfold Database.insertFingerprints insertFingerprintsConn
  rw [insertLoop_fail songId execOk items 0 _ db (by simp [Connection.transaction])
    (by obtain ⟨j, hj, hf⟩ := hfail; exact ⟨j, hj, by simpa using hf⟩)]

/-- Each call either adds all the items or leaves the database as it was. -/
theorem insertFingerprints_cases (db : Database) (songId : Int) (items : List Emit)
    (execOk : Nat → Bool) :
    db.insertFingerprints songId items execOk = (false, db)
    ∨ db.insertFingerprints songId items execOk
      = (true, { db with fingerprints := db.fingerprints ++ items.map (postingOf songId) }) := by
  by_cases h : ∀ j, j < items.length → execOk j = true
  · exact Or.inr (insertFingerprints_ok db songId items execOk h)
  · left
    push_neg at h
    obtain ⟨j, hj, hf⟩ := h
    exact insertFingerprints_fail db songId items execOk ⟨j, hj, by simpa using hf⟩

/-- C7. Atomicity of `insertFingerprints`: if the insert of any item fails, the call returns
`false` and the database, hence the result of every lookup, is what it was before the call;
if no insert fails, it returns `true`, table `songs` is unchanged and exactly the listed
items are appended to `fingerprints`, each under the given song id. -/
theorem insertFingerprints_atomic (db : Database) (songId : Int) (items : List Emit)
    (execOk : Nat → Bool) :
    ((∃ j, j < items.length ∧ execOk j = false) →
        (db.insertFingerprints songId items execOk).1 = false
        ∧ (db.insertFingerprints songId items execOk).2 = db
        ∧ ∀ h, (db.insertFingerprints songId items execOk).2.lookup h = db.lookup h)
    ∧ ((∀ j, j < items.length → execOk j = true) →
        (db.insertFingerprints songId items execOk).1 = true
        ∧ (db.insertFingerprints songId items execOk).2.songs = db.songs
        ∧ (db.insertFingerprints songId items execOk).2.fingerprints
            = db.fingerprints ++ items.map (fun h =>
                ({ song_id := songId, hash := h.1, offset_ms := h.2 } : FingerprintRow))
        ∧ ∀ h, (db.insertFingerprints songId items execOk).2.lookup h
            = db.lookup h ++ (items.filter fun x => x.1 == h).map fun x => (songId, x.2)) := by
  constructor
  · intro hfail
    rw [insertFingerprints_fail db songId items execOk hfail]
    exact ⟨rfl, rfl, fun _ => rfl⟩
  · intro hall
    rw [insertFingerprints_ok db songId items execOk hall]
    refine ⟨rfl, rfl, rfl, ?_⟩
    intro h
    simp only [Database.lookup, List.filter_append, List.map_append, List.filter_map,
      List.map_map]
    rfl

/-- Witness of C7: the third of three inserts fails and nothing remains; with no failure
the three rows are there. -/
theorem insertFingerprints_atomic_witness :
    (({ songs := [{ id := 1 }] } : Database).insertFingerprints 1 [(7, 0), (8, 23), (9, 46)]
        (fun i => i != 2)).2 = { songs := [{ id := 1 }] }
    ∧ (({ songs := [{ id := 1 }] } : Database).insertFingerprints 1 [(7, 0), (8, 23), (9, 46)]
        (fun _ => true)).2.fingerprints
      = [{ song_id := 1, hash := 7, offset_ms := 0 }, { song_id := 1, hash := 8, offset_ms := 23 },
         { song_id := 1, hash := 9, offset_ms := 46 }] :=
  ⟨((insertFingerprints_atomic { songs := [{ id := 1 }] } 1 [(7, 0), (8, 23), (9, 46)]
      (fun i => i != 2)).1 ⟨2, by decide, by decide⟩).2.1,
   ((insertFingerprints_atomic { songs := [{ id := 1 }] } 1 [(7, 0), (8, 23), (9, 46)]
      (fun _ => true)).2 (fun _ _ => rfl)).2.2.1⟩

/-! ## Matching what was stored -/

/-- After the items of `H` are stored for song `S`, the key `(S, 0)` has at least one vote
per item of `H`. -/
theorem pairCount_self_ge (db : Database) (S : Int) (H : List Emit) (other : List FingerprintRow)
    (hfp : db.fingerprints = other ++ H.map (postingOf S)) :
    H.length ≤ pairCount db H S 0 := by
  unfold pairCount
  apply length_le_sum_map
  intro q hq
  have : 0 < db.fingerprints.countP fun p =>
      decide (p.hash = q.1 ∧ p.song_id = S ∧ p.offset_ms - q.2 = 0) := by
    rw [List.countP_pos_iff]
    refine ⟨postingOf S q, ?_, by simp [postingOf]⟩
    rw [hfp]
    exact List.mem_append_right _ (List.mem_map_of_mem _ hq)
  omega

theorem refIntegrity_append (db : Database) (S : Int) (H : List Emit) (href : RefIntegrity db)
    (hS : songExists db S) :
    RefIntegrity { db with fingerprints := db.fingerprints ++ H.map (postingOf S) } := by
  intro p hp
  simp only [List.mem_append, List.mem_map] at hp
  rcases hp with hp | ⟨q, _, rfl⟩
  · exact href p hp
  · exact hS

/-- C5. Self-match lower bound: once the non-empty list `H` is stored for an existing song
`S` in a database whose postings reference existing songs, `bestMatch` on `H` reports a match
with `voteCount` at least the length of `H`; if `S` is the only song, the match is `S`. -/
theorem self_match_lower_bound (iterOrder : Votes → Votes) (horder : ∀ v, (iterOrder v).Perm v)
    (selectOk : Nat → Bool) (hsel : ∀ i, selectOk i = true) (db : Database)
    (href : RefIntegrity db) (hids : IdsPositive db) (S : Int) (hS : songExists db S)
    (H : List Emit) (hH : H ≠ []) (execOk : Nat → Bool) (hexec : ∀ i, execOk i = true)
    (outSong : SongRow) (voteCount : Int) :
    (bestMatch iterOrder selectOk true (db.insertFingerprints S H execOk).2 H
        outSong voteCount).ok = true
    ∧ (H.length : Int) ≤ (bestMatch iterOrder selectOk true
        (db.insertFingerprints S H execOk).2 H outSong voteCount).voteCount
    ∧ ((∀ s ∈ db.songs, s.id = S) → (bestMatch iterOrder selectOk true
        (db.insertFingerprints S H execOk).2 H outSong voteCount).outSong.id = S) := by
  rw [insertFingerprints_ok db S H execOk fun j _ => hexec j]
  simp only []
  have hself := pairCount_self_ge
    { db with fingerprints := db.fingerprints ++ H.map (postingOf S) } S H db.fingerprints rfl
  have hlen : 0 < H.length := List.length_pos.2 hH
  have hbound := (bestMatch_cases iterOrder horder selectOk hsel
    { db with fingerprints := db.fingerprints ++ H.map (postingOf S) }
    H outSong voteCount _ rfl).1
  obtain ⟨_, _, _, hok, hmem, _⟩ := bestMatch_hit iterOrder horder selectOk hsel
    { db with fingerprints := db.fingerprints ++ H.map (postingOf S) }
    (refIntegrity_append db S H href hS) hids H outSong voteCount ⟨S, 0, by omega⟩
  refine ⟨hok, ?_, fun honly => honly _ hmem⟩
  have := hbound S 0
  omega

/-- Witness of C5: two items stored for song 1 beside a posting of song 2. -/
theorem self_match_lower_bound_witness :
    (bestMatch id (fun _ => true) true
      ((({ songs := [{ id := 1 }, { id := 2 }],
           fingerprints := [{ song_id := 2, hash := 7, offset_ms := 5 }] } : Database).insertFingerprints
          1 [(7, 0), (9, 23)] (fun _ => true)).2) [(7, 0), (9, 23)] {} 0).ok = true :=
  (self_match_lower_bound id (fun _ => List.Perm.refl _) (fun _ => true) (fun _ => rfl)
    { songs := [{ id := 1 }, { id := 2 }],
      fingerprints := [{ song_id := 2, hash := 7, offset_ms := 5 }] }
    (by intro p hp; simp only [List.mem_singleton] at hp; subst hp
        exact ⟨{ id := 2 }, by simp, rfl⟩)
    (by intro s hs
        simp only [List.mem_cons, List.mem_singleton, List.not_mem_nil, or_false] at hs
        rcases hs with h | h <;> subst h <;> decide)
    1 ⟨{ id := 1 }, by simp, rfl⟩ [(7, 0), (9, 23)] (by simp) (fun _ => true) (fun _ => rfl)
    {} 0).1

/-- C6. No-match rule: with postings referencing existing songs of positive ids and the
`SELECT`s succeeding, `bestMatch` returns `false` with `voteCount = 0` exactly when no
posting has the hash of a query item; each of the two alone is equivalent to that too, and an
empty query or an empty posting table always gives it. -/
theorem bestMatch_no_match_iff (iterOrder : Votes → Votes)
    (horder : ∀ v, (iterOrder v).Perm v) (selectOk : Nat → Bool)
    (hsel : ∀ i, selectOk i = true) (db : Database) (href : RefIntegrity db)
    (hids : IdsPositive db) (query : List Emit) (outSong : SongRow) (voteCount : Int) :
    (((bestMatch iterOrder selectOk true db query outSong voteCount).ok = false
        ∧ (bestMatch iterOrder selectOk true db query outSong voteCount).voteCount = 0)
      ↔ ∀ q ∈ query, ∀ p ∈ db.fingerprints, p.hash ≠ q.1)
    ∧ ((bestMatch iterOrder selectOk true db query outSong voteCount).ok = false
      ↔ ∀ q ∈ query, ∀ p ∈ db.fingerprints, p.hash ≠ q.1)
    ∧ ((bestMatch iterOrder selectOk true db query outSong voteCount).voteCount = 0
      ↔ ∀ q ∈ query, ∀ p ∈ db.fingerprints, p.hash ≠ q.1)
    ∧ (query = [] →
        (bestMatch iterOrder selectOk true db query outSong voteCount).ok = false
        ∧ (bestMatch iterOrder selectOk true db query outSong voteCount).voteCount = 0)
    ∧ (db.fingerprints = [] →
        (bestMatch iterOrder selectOk true db query outSong voteCount).ok = false
        ∧ (bestMatch iterOrder selectOk true db query outSong voteCount).voteCount = 0) := by
  obtain ⟨_, hcase⟩ :=
    bestMatch_cases iterOrder horder selectOk hsel db query outSong voteCount _ rfl
  have key : ((bestMatch iterOrder selectOk true db query outSong voteCount).ok = false
        ∧ (bestMatch iterOrder selectOk true db query outSong voteCount).voteCount = 0
        ∧ ∀ q ∈ query, ∀ p ∈ db.fingerprints, p.hash ≠ q.1)
      ∨ ((bestMatch iterOrder selectOk true db query outSong voteCount).ok = true
        ∧ (bestMatch iterOrder selectOk true db query outSong voteCount).voteCount ≠ 0
        ∧ ¬ ∀ q ∈ query, ∀ p ∈ db.fingerprints, p.hash ≠ q.1) := by
    rcases hcase with ⟨hv, hk, _, hzero⟩ | ⟨s, d, hpos, hval, _, hok⟩
    · left
      refine ⟨hk, hv, ?_⟩
      intro q hq p hp hh
      have := pairCount_pos_of_posting db query q hq p hp hh
      rw [hzero] at this
      exact absurd this (lt_irrefl 0)
    · right
      obtain ⟨q, hq, p, hp, hh, hps, _⟩ := posting_of_pairCount_pos db query s d hpos
      have hex : songExists db s := hps ▸ href p hp
      have hs : 0 ≤ s := by
        obtain ⟨row, hrowmem, hid⟩ := hex
        have := hids row hrowmem
        omega
      refine ⟨hok hs hex, ?_, fun hno => hno q hq p hp hh⟩
      rw [← hval]
      exact_mod_cast (Nat.pos_iff_ne_zero.1 hpos)
  have main : ((bestMatch iterOrder selectOk true db query outSong voteCount).ok = false
        ↔ ∀ q ∈ query, ∀ p ∈ db.fingerprints, p.hash ≠ q.1)
      ∧ ((bestMatch iterOrder selectOk true db query outSong voteCount).voteCount = 0
        ↔ ∀ q ∈ query, ∀ p ∈ db.fingerprints, p.hash ≠ q.1) := by
    rcases key with ⟨h1, h2, h3⟩ | ⟨h1, h2, h3⟩
    · exact ⟨⟨fun _ => h3, fun _ => h1⟩, ⟨fun _ => h3, fun _ => h2⟩⟩
    · refine ⟨⟨fun h => ?_, fun h => absurd h h3⟩, ⟨fun h => absurd h h2, fun h => absurd h h3⟩⟩
      rw [h1] at h
      cases h
  refine ⟨⟨fun h => main.1.1 h.1, fun h => ⟨main.1.2 h, main.2.2 h⟩⟩, main.1, main.2, ?_, ?_⟩
  · intro hq
    have hno : ∀ q ∈ query, ∀ p ∈ db.fingerprints, p.hash ≠ q.1 := by
      intro q hq'
      rw [hq] at hq'
      cases hq'
    exact ⟨main.1.2 hno, main.2.2 hno⟩
  · intro hfp
    have hno : ∀ q ∈ query, ∀ p ∈ db.fingerprints, p.hash ≠ q.1 := by
      intro q _ p hp
      rw [hfp] at hp
      cases hp
    exact ⟨main.1.2 hno, main.2.2 hno⟩

/-- Witness of C6: the only posting has hash 7, the query asks for hash 8. -/
theorem bestMatch_no_match_iff_witness :
    (bestMatch id (fun _ => true) true
        { songs := [{ id := 1 }], fingerprints := [{ song_id := 1, hash := 7, offset_ms := 30 }] }
        [(8, 10)] {} 0).ok = false :=
  (bestMatch_no_match_iff id (fun _ => List.Perm.refl _) (fun _ => true) (fun _ => rfl)
    { songs := [{ id := 1 }], fingerprints := [{ song_id := 1, hash := 7, offset_ms := 30 }] }
    (by intro p hp; simp only [List.mem_singleton] at hp; subst hp; exact ⟨{ id := 1 }, by simp, rfl⟩)
    (by intro s hs; simp only [List.mem_singleton] at hs; subst hs; decide)
    [(8, 10)] {} 0).2.1.2
    (by intro q hq p hp
        simp only [List.mem_singleton] at hq hp
        subst hq; subst hp
        decide)

/-! ## Referential integrity and metadata validation -/

theorem foldl_max_ge (songs : List SongRow) (init : Int) :
    init ≤ songs.foldl (fun m s => max m s.id) init := by
  induction songs generalizing init with
  | nil => exact le_refl _
  | cons s rest ih =>
      simp only [List.foldl_cons]
      exact le_trans (le_max_left _ _) (ih _)

theorem nextSongId_pos (db : Database) : 0 < db.nextSongId := by
  have := foldl_max_ge db.songs 0
  unfold Database.nextSongId
  omega

/-- Every call of `insertSong` either fails and leaves the database alone, or appends the row
under the next id. -/
theorem insertSong_cases (db : Database) (s : SongRow) (execOk : Bool) :
    db.insertSong s execOk = (none, db)
    ∨ db.insertSong s execOk
      = (some db.nextSongId, { db with songs := db.songs ++ [{ s with id := db.nextSongId }] }) := by
  unfold Database.insertSong
  split
  · exact Or.inr rfl
  · exact Or.inl rfl

theorem songExists_insertSong (db : Database) (s : SongRow) (execOk : Bool) (songId : Int)
    (h : songExists db songId) : songExists (db.insertSong s execOk).2 songId := by
  rcases insertSong_cases db s execOk with e | e <;> rw [e]
  · exact h
  · obtain ⟨row, hrow, hid⟩ := h
    exact ⟨row, List.mem_append_left _ hrow, hid⟩

theorem refIntegrity_insertSong (db : Database) (s : SongRow) (execOk : Bool)
    (h : RefIntegrity db) : RefIntegrity (db.insertSong s execOk).2 := by
  intro p hp
  have hfp : (db.insertSong s execOk).2.fingerprints = db.fingerprints := by
    rcases insertSong_cases db s execOk with e | e <;> rw [e]
  rw [hfp] at hp
  exact songExists_insertSong db s execOk _ (h p hp)

theorem idsPositive_insertSong (db : Database) (s : SongRow) (execOk : Bool)
    (h : IdsPositive db) : IdsPositive (db.insertSong s execOk).2 := by
  rcases insertSong_cases db s execOk with e | e <;> rw [e]
  · exact h
  · intro row hrow
    simp only [List.mem_append, List.mem_singleton] at hrow
    rcases hrow with hrow | hrow
    · exact h row hrow
    · subst hrow
      exact nextSongId_pos db

theorem refIntegrity_insertFingerprints (db : Database) (songId : Int) (items : List Emit)
    (execOk : Nat → Bool) (h : RefIntegrity db) (hS : songExists db songId) :
    RefIntegrity (db.insertFingerprints songId items execOk).2 := by
  rcases insertFingerprints_cases db songId items execOk with e | e <;> rw [e]
  · exact h
  · exact refIntegrity_append db songId items h hS

theorem idsPositive_insertFingerprints (db : Database) (songId : Int) (items : List Emit)
    (execOk : Nat → Bool) (h : IdsPositive db) :
    IdsPositive (db.insertFingerprints songId items execOk).2 := by
  rcases insertFingerprints_cases db songId items execOk with e | e <;> rw [e]
  · exact h
  · exact h

/-- Counterexample to C8 as stated: in the empty database song 42 does not exist, yet
`insertFingerprints 42` returns `true` and stores the row, which then references no song. -/
theorem insertFingerprints_unknown_song_counterexample :
    ¬ songExists {} 42
    ∧ ({} : Database).insertFingerprints 42 [(7, 0)] (fun _ => true)
        = (true, { fingerprints := [{ song_id := 42, hash := 7, offset_ms := 0 }] })
    ∧ ¬ RefIntegrity (({} : Database).insertFingerprints 42 [(7, 0)] (fun _ => true)).2 := by
  refine ⟨?_, by decide, ?_⟩
  · rintro ⟨s, hs, _⟩
    cases hs
  · intro h
    obtain ⟨s, hs, _⟩ := h { song_id := 42, hash := 7, offset_ms := 0 } (by decide)
    have hsongs : (({} : Database).insertFingerprints 42 [(7, 0)] (fun _ => true)).2.songs = [] := by
      decide
    rw [hsongs] at hs
    cases hs

/-- C8, amended. `insertFingerprints` does not look the song id up, so referential integrity
rests on its callers: in every state reached from the empty database by `insertSong` and by
`insertFingerprints` called with the id of an existing song, every posting references an
existing song (and every song id is positive). -/
theorem refIntegrity_of_reachable (db : Database) (h : Reachable db) :
    RefIntegrity db ∧ IdsPositive db := by
  induction h with
  | empty =>
      exact ⟨fun p hp => absurd hp (List.not_mem_nil p), fun s hs => absurd hs (List.not_mem_nil s)⟩
  | song db s execOk _ ih =>
      exact ⟨refIntegrity_insertSong db s execOk ih.1, idsPositive_insertSong db s execOk ih.2⟩
  | prints db songId hashes execOk _ hex ih =>
      exact ⟨refIntegrity_insertFingerprints db songId hashes execOk ih.1 hex,
        idsPositive_insertFingerprints db songId hashes execOk ih.2⟩

/-- Witness of C8 amended: a song is inserted, then two hashes are stored under its id. -/
theorem refIntegrity_of_reachable_witness :
    RefIntegrity
      ((({} : Database).insertSong { title := some "A-Tone", artist := some "Test" } true).2.insertFingerprints
        1 [(7, 0), (9, 23)] (fun _ => true)).2 :=
  (refIntegrity_of_reachable _
    (Reachable.prints _ 1 [(7, 0), (9, 23)] (fun _ => true)
      (Reachable.song {} { title := some "A-Tone", artist := some "Test" } true Reachable.empty)
      ⟨{ id := 1, title := some "A-Tone", artist := some "Test" }, by decide, rfl⟩)).1

/-! ### Metadata validation -/

theorem exec_go_rejected (clicks : List (Option SongMeta)) (d : MetadataDialog)
    (hd : d.result ≠ some DialogCode.Accepted)
    (hinv : ∀ m, some m ∈ clicks → m.isValid = false) :
    (MetadataDialog.exec.go clicks d).result ≠ some DialogCode.Accepted := by
  induction clicks generalizing d with
  | nil => simp [MetadataDialog.exec.go, MetadataDialog.onCancel]
  | cons click rest ih =>
      have hrest : ∀ m, some m ∈ rest → m.isValid = false :=
        fun m hm => hinv m (List.mem_cons_of_mem _ hm)
      cases click with
      | none =>
          simp [MetadataDialog.exec.go, MetadataDialog.onCancel]
      | some fields =>
          have hf : fields.isValid = false := hinv fields (List.mem_cons_self _ _)
          have hok : d.onOk fields = { d with m_meta := fields } := by
            simp [MetadataDialog.onOk, hf]
          simp only [MetadataDialog.exec.go, hok]
          split
          · exact hd
          · exact ih _ hd hrest

/-- Counterexample to C9 as stated: a title of one blank, and an empty title, are empty after
trimming, yet `insertSong` returns `true` with a new id and table `songs` gains a row. -/
theorem insertSong_blank_title_counterexample :
    qIsEmpty (qTrimmed (some " ")) = true ∧ qIsEmpty (qTrimmed (some "")) = true
    ∧ (({} : Database).insertSong { title := some " ", artist := some "Test" } true).1 = some 1
    ∧ (({} : Database).insertSong { title := some " ", artist := some "Test" } true).2.songs.length = 1
    ∧ (({} : Database).insertSong { title := some "", artist := some "Test" } true).1 = some 1
    ∧ (({} : Database).insertSong { title := some "", artist := some "Test" } true).2.songs.length
        = 1 := by
  decide

/-- C9, amended. Metadata whose title or artist is empty after trimming is refused by the
dialog, not by the database: `SongMeta::isValid` is false for it, `MetadataDialog::onOk` keeps
the dialog open, and when every OK click of the user carries such metadata
`fingerprintAndStore` never calls `insertSong` and leaves the database unchanged.
`insertSong` itself fails, leaving the database unchanged, exactly when storage fails or
`title` or `artist` is null. -/
theorem invalid_metadata_not_stored (clicks : List (Option SongMeta))
    (hinv : ∀ m, some m ∈ clicks →
      qIsEmpty (qTrimmed m.title) = true ∨ qIsEmpty (qTrimmed m.artist) = true) :
    (∀ m, some m ∈ clicks → m.isValid = false
        ∧ ∀ d : MetadataDialog, (d.onOk m).result = d.result)
    ∧ (∀ (db : Database) (hashes : List Emit) (songOk : Bool) (execOk : Nat → Bool),
        fingerprintAndStore db hashes clicks songOk execOk = db)
    ∧ ∀ (db : Database) (s : SongRow) (execOk : Bool),
        ((db.insertSong s execOk).1 = none ↔ execOk = false ∨ s.title = none ∨ s.artist = none)
        ∧ ((db.insertSong s execOk).1 = none → (db.insertSong s execOk).2 = db)
        ∧ ((db.insertSong s execOk).1 ≠ none →
            (db.insertSong s execOk).2.songs.length = db.songs.length + 1) := by
  have hval : ∀ m, some m ∈ clicks → m.isValid = false := by
    intro m hm
    unfold SongMeta.isValid
    rcases hinv m hm with h | h <;> simp [h]
  refine ⟨?_, ?_, ?_⟩
  · intro m hm
    refine ⟨hval m hm, fun d => ?_⟩
    simp [MetadataDialog.onOk, hval m hm]
  · intro db hashes songOk execOk
    have hrej := exec_go_rejected clicks {} (by simp) hval
    unfold fingerprintAndStore
    simp only [MetadataDialog.exec]
    rw [if_pos hrej]
  · intro db s execOk
    unfold Database.insertSong
    cases execOk <;> cases s.title <;> cases s.artist <;> simp

/-- Witness of C9 amended: the user presses OK with a blank title, then gives up. -/
theorem invalid_metadata_not_stored_witness :
    fingerprintAndStore {} [(7, 0)] [some { title := some " ", artist := some "Test" }, none]
      true (fun _ => true) = {} :=
  (invalid_metadata_not_stored [some { title := some " ", artist := some "Test" }, none]
    (by intro m hm
        simp only [List.mem_cons, Option.some.injEq, List.mem_singleton, reduceCtorEq,
          or_false, List.not_mem_nil] at hm
        subst hm
        left
        decide)).2.1 {} [(7, 0)] true (fun _ => true)

/-! ## The pairing stage in closed form -/

namespace Fingerprint
theorem pairF2_eq (sr : Int) (a t : Nat) (f1 : Int) (T : List Int) (st : Nat × List Emit)
    (hst : st.1 < FANOUT) :
    pairF2 sr a t f1 T st
      = (st.1 + min (FANOUT - st.1) T.length,
         st.2 ++ (T.map fun f2 => emitPair sr a t f1 f2).take (FANOUT - st.1)) := by
  induction T generalizing st with
  | nil => simp [pairF2]
  | cons f2 rest ih =>
      obtain ⟨n, out⟩ := st
      simp only at hst
      obtain ⟨k, hk⟩ : ∃ k, FANOUT - n = k + 1 := ⟨FANOUT - n - 1, by omega⟩
      by_cases hfull : n + 1 ≥ FANOUT
      · have hk0 : k = 0 := by omega
        simp only [pairF2, hfull, if_true, hk, hk0, List.map_cons, List.length_cons]
        simp
      · simp only [pairF2, hfull, if_false]
        rw [ih (n + 1, out ++ [emitPair sr a t f1 f2]) (by simp only; omega)]
        have hk' : FANOUT - (n + 1) = k := by omega
        simp only [hk, hk', List.map_cons, List.length_cons, List.take_succ_cons,
          List.append_assoc, List.singleton_append, Prod.mk.injEq, and_true]
        omega

/-- A budgeted loop step: running a body that appends `take (FANOUT - n)` of its candidates
and then testing the budget is the same as taking from the concatenation. -/
theorem budget_step (n : Nat) (out c1 rest : List Emit) (hn : n < FANOUT)
    (hlt : ¬ n + min (FANOUT - n) c1.length ≥ FANOUT) :
    (n + min (FANOUT - n) c1.length + min (FANOUT - (n + min (FANOUT - n) c1.length)) rest.length,
      (out ++ c1.take (FANOUT - n)) ++ rest.take (FANOUT - (n + min (FANOUT - n) c1.length)))
    = (n + min (FANOUT - n) (c1 ++ rest).length, out ++ (c1 ++ rest).take (FANOUT - n)) := by
  have hc : c1.length < FANOUT - n := by omega
  have hmin : min (FANOUT - n) c1.length = c1.length := by omega
  rw [hmin, List.take_append_eq_append_take, List.take_of_length_le (by omega),
    List.length_append]
  simp only [List.append_assoc, Prod.mk.injEq]
  refine ⟨by omega, ?_⟩
  rw [show FANOUT - (n + c1.length) = FANOUT - n - c1.length by omega]

theorem budget_stop (n : Nat) (out c1 rest : List Emit)
    (hge : n + min (FANOUT - n) c1.length ≥ FANOUT) :
    (n + min (FANOUT - n) c1.length, out ++ c1.take (FANOUT - n))
    = (n + min (FANOUT - n) (c1 ++ rest).length, out ++ (c1 ++ rest).take (FANOUT - n)) := by
  have hc : FANOUT - n ≤ c1.length := by omega
  rw [List.take_append_eq_append_take, List.length_append]
  have h0 : FANOUT - n - c1.length = 0 := by omega
  simp only [h0, List.take_zero, List.append_nil, Prod.mk.injEq, and_true]
  omega

theorem pairF1_eq (sr : Int) (a t : Nat) (T A : List Int) (st : Nat × List Emit)
    (hst : st.1 < FANOUT) :
    pairF1 sr a t T A st
      = (st.1 + min (FANOUT - st.1) (candidatesAt sr a t A T).length,
         st.2 ++ (candidatesAt sr a t A T).take (FANOUT - st.1)) := by
  induction A generalizing st with
  | nil => simp [pairF1, candidatesAt]
  | cons f1 rest ih =>
      obtain ⟨n, out⟩ := st
      simp only at hst
      have hcons : candidatesAt sr a t (f1 :: rest) T
          = (T.map fun f2 => emitPair sr a t f1 f2) ++ candidatesAt sr a t rest T := by
        simp [candidatesAt, List.flatMap_cons]
      have hl : (T.map fun f2 => emitPair sr a t f1 f2).length = T.length := List.length_map _ _
      simp only [pairF1, pairF2_eq sr a t f1 T (n, out) hst, hcons]
      rw [← hl]
      by_cases hfull : n + min (FANOUT - n) (T.map fun f2 => emitPair sr a t f1 f2).length ≥ FANOUT
      · rw [if_pos hfull]
        exact budget_stop n out _ _ hfull
      · rw [if_neg hfull, ih _ (by simp only; omega)]
        exact budget_step n out _ _ hst hfull

theorem pairT_eq (sr : Int) (peaksInFrame : List (List Int)) (a : Nat) (A : List Int)
    (ts : List Nat) (st : Nat × List Emit) (hst : st.1 < FANOUT) :
    pairT sr peaksInFrame a A ts st
      = (st.1 + min (FANOUT - st.1)
            (ts.flatMap fun t => candidatesAt sr a t A (peaksInFrame.getD t [])).length,
         st.2 ++ (ts.flatMap fun t =>
            candidatesAt sr a t A (peaksInFrame.getD t [])).take (FANOUT - st.1)) := by
  induction ts generalizing st with
  | nil => simp [pairT]
  | cons t rest ih =>
      obtain ⟨n, out⟩ := st
      simp only at hst
      simp only [pairT, pairF1_eq sr a t _ A (n, out) hst, List.flatMap_cons]
      by_cases hfull :
          n + min (FANOUT - n) (candidatesAt sr a t A (peaksInFrame.getD t [])).length ≥ FANOUT
      · rw [if_pos hfull]
        exact budget_stop n out _ _ hfull
      · rw [if_neg hfull, ih _ (by simp only; omega)]
        exact budget_step n out _ _ hst hfull

theorem candidatesAt_nil (sr : Int) (a t : Nat) (T : List Int) :
    candidatesAt sr a t [] T = [] := rfl

theorem flatMap_nil_of_forall {α β : Type} (l : List α) (f : α → List β)
    (h : ∀ x ∈ l, f x = []) : l.flatMap f = [] := by
  induction l with
  | nil => rfl
  | cons x rest ih =>
      rw [List.flatMap_cons, h x (List.mem_cons_self _ _),
        ih fun y hy => h y (List.mem_cons_of_mem _ hy)]
      rfl

/-- One round of the anchor loop appends the first `FANOUT` candidates of the frame. -/
theorem anchorStep_eq (sr : Int) (peaksInFrame : List (List Int)) (out : List Emit) (a : Nat) :
    anchorStep sr peaksInFrame out a = out ++ (candidates sr peaksInFrame a).take FANOUT := by
  unfold anchorStep candidates
  by_cases hA : (peaksInFrame.getD a []).isEmpty = true
  · have hnil : peaksInFrame.getD a [] = [] := List.isEmpty_iff.1 hA
    simp only [hA, if_true, hnil]
    rw [flatMap_nil_of_forall _ _ fun t _ => candidatesAt_nil sr a t _]
    simp
  · simp only [hA, Bool.false_eq_true, if_false]
    have h0 : ((0, out) : Nat × List Emit).1 < FANOUT := by
      show (0 : Nat) < 5
      omega
    rw [pairT_eq sr peaksInFrame a _ _ (0, out) h0]
    simp only [Nat.sub_zero]

theorem foldl_anchorStep (sr : Int) (peaksInFrame : List (List Int)) (frames : List Nat)
    (out : List Emit) :
    frames.foldl (anchorStep sr peaksInFrame) out
      = out ++ frames.flatMap fun a => (candidates sr peaksInFrame a).take FANOUT := by
  induction frames generalizing out with
  | nil => simp
  | cons a rest ih =>
      rw [List.foldl_cons, ih, anchorStep_eq, List.flatMap_cons, List.append_assoc]

/-- The pairing stage in closed form: every anchor frame contributes, in frame order, the
first `FANOUT` of its candidate pairs. -/
theorem pairing_eq (sr : Int) (peaksInFrame : List (List Int)) :
    pairing sr peaksInFrame
      = (List.range peaksInFrame.length).flatMap fun a =>
          (candidates sr peaksInFrame a).take FANOUT := by
  unfold pairing
  rw [foldl_anchorStep]
  rfl

end Fingerprint

namespace Fingerprint

/-- The frame loop leaves by its own test before the fuel runs out: any two amounts of fuel
that outlast the buffer give the same frames. -/
theorem frameLoop_fuel (pcm : List Int) (fuel1 fuel2 start : Nat)
    (h1 : pcm.length < start + WINDOW_SIZE + fuel1 * HOP_SIZE)
    (h2 : pcm.length < start + WINDOW_SIZE + fuel2 * HOP_SIZE) :
    frameLoop pcm fuel1 start = frameLoop pcm fuel2 start := by
  induction fuel1 generalizing fuel2 start with
  | zero =>
      cases fuel2 with
      | zero => rfl
      | succ k =>
          simp only [frameLoop]
          rw [if_neg (by simp only [WINDOW_SIZE, HOP_SIZE] at h1 ⊢; omega)]
  | succ n ih =>
      cases fuel2 with
      | zero =>
          simp only [frameLoop]
          rw [if_neg (by simp only [WINDOW_SIZE, HOP_SIZE] at h2 ⊢; omega)]
      | succ k =>
          simp only [frameLoop]
          by_cases hc : start + WINDOW_SIZE ≤ pcm.length
          · rw [if_pos hc, if_pos hc]
            congr 1
            apply ih
            · simp only [WINDOW_SIZE, HOP_SIZE] at h1 ⊢; omega
            · simp only [WINDOW_SIZE, HOP_SIZE] at h2 ⊢; omega
          · rw [if_neg hc, if_neg hc]

/-- The fuel `compute` gives the frame loop, the buffer length, outlasts the buffer. -/
theorem frameLoop_enough (pcm : List Int) (fuel : Nat) (h : pcm.length ≤ fuel) :
    frameLoop pcm fuel 0 = frameLoop pcm pcm.length 0 := by
  apply frameLoop_fuel
  · simp only [WINDOW_SIZE, HOP_SIZE]; omega
  · simp only [WINDOW_SIZE, HOP_SIZE]; omega

theorem frameLoop_silence_fuel (k : Nat) :
    frameLoop (silence 4096) (k + 3) 0 = [silence 2048, silence 2048, silence 2048] := by
  have hlen : (silence 4096).length = 4096 := by simp only [silence, List.length_replicate]
  have hslice : ∀ start, start + 2048 ≤ 4096 →
      ((silence 4096).drop start).take WINDOW_SIZE = silence 2048 := by
    intro start h
    simp only [silence, WINDOW_SIZE, List.drop_replicate, List.take_replicate]
    congr 1
    omega
  have hlast : frameLoop (silence 4096) k 3072 = [] := by
    cases k with
    | zero => rfl
    | succ j =>
        simp only [frameLoop, hlen, WINDOW_SIZE]
        rw [if_neg (by omega)]
  simp only [frameLoop, hlen, WINDOW_SIZE, HOP_SIZE, Nat.zero_add, Nat.reduceAdd, Nat.reduceLeDiff,
    if_true]
  have s0 := hslice 0 (by omega)
  have s1 := hslice 1024 (by omega)
  have s2 := hslice 2048 (by omega)
  simp only [WINDOW_SIZE] at s0 s1 s2
  rw [s0, s1, s2, hlast]

theorem frameLoop_silence :
    frameLoop (silence 4096) 4096 0 = [silence 2048, silence 2048, silence 2048] :=
  frameLoop_silence_fuel 4093

theorem five_of_length {α : Type} (l : List α) (h : l.length = 5) :
    ∃ p0 p1 p2 p3 p4, l = [p0, p1, p2, p3, p4] := by
  match l, h with
  | [p0, p1, p2, p3, p4], _ => exact ⟨p0, p1, p2, p3, p4, rfl⟩

/-- The fingerprints of 4096 samples of silence, whatever the five peaks `p0 .. p4` picked in
the silent frame: three equal frames, frames 0 and 1 pair their first peak with the five
peaks of the next frame. -/
theorem compute_silence (peakPick : List Int → List Int) (sr : Int) (p0 p1 p2 p3 p4 : Int)
    (hP : peakPick (silence 2048) = [p0, p1, p2, p3, p4]) :
    compute peakPick (silence 4096) sr
      = [emitPair sr 0 1 p0 p0, emitPair sr 0 1 p0 p1, emitPair sr 0 1 p0 p2,
         emitPair sr 0 1 p0 p3, emitPair sr 0 1 p0 p4,
         emitPair sr 1 2 p0 p0, emitPair sr 1 2 p0 p1, emitPair sr 1 2 p0 p2,
         emitPair sr 1 2 p0 p3, emitPair sr 1 2 p0 p4] := by
  have hlen : (silence 4096).length = 4096 := by simp only [silence, List.length_replicate]
  unfold compute
  rw [hlen, frameLoop_silence]
  simp only [List.map_cons, List.map_nil, hP, WINDOW_SIZE]
  rw [if_neg (by omega)]
  rfl

end Fingerprint

/-! ## Pairs and the anchor offset -/

namespace Fingerprint

theorem mem_pairing (sr : Int) (peaksInFrame : List (List Int)) (e : Emit)
    (he : e ∈ pairing sr peaksInFrame) :
    ∃ a t f1 f2, e = emitPair sr a t f1 f2 := by
  rw [pairing_eq] at he
  simp only [List.mem_flatMap] at he
  obtain ⟨a, _, hmem⟩ := he
  have hc := List.mem_of_mem_take hmem
  simp only [candidates, candidatesAt, List.mem_flatMap, List.mem_map] at hc
  obtain ⟨t, _, f1, _, f2, _, rfl⟩ := hc
  exact ⟨a, t, f1, f2, rfl⟩

theorem length_candidatesAt (sr : Int) (a t : Nat) (A T : List Int) :
    (candidatesAt sr a t A T).length = A.length * T.length := by
  induction A with
  | nil => simp [candidatesAt]
  | cons f1 rest ih =>
      have hcons : candidatesAt sr a t (f1 :: rest) T
          = (T.map fun f2 => emitPair sr a t f1 f2) ++ candidatesAt sr a t rest T := by
        simp [candidatesAt, List.flatMap_cons]
      rw [hcons, List.length_append, ih, List.length_map, List.length_cons]
      ring

theorem length_candidates (sr : Int) (peaksInFrame : List (List Int)) (a : Nat) :
    (candidates sr peaksInFrame a).length
      = ((targetFrames peaksInFrame.length a).map fun t =>
          (peaksInFrame.getD a []).length * (peaksInFrame.getD t []).length).sum := by
  simp only [candidates, List.length_flatMap, Function.comp_def, length_candidatesAt]

theorem length_pairing (sr sr2 : Int) (peaksInFrame : List (List Int)) :
    (pairing sr peaksInFrame).length = (pairing sr2 peaksInFrame).length := by
  simp only [pairing_eq, List.length_flatMap, Function.comp_def, List.length_take,
    length_candidates]

/-- Within the range of `int` the offset is the truncated quotient. -/
theorem offsetMs_of_fit (a : Nat) (sr : Int) (hsr : sr ≠ 0)
    (hlo : -2147483648 ≤ Int.tdiv ((a : Int) * 1024 * 1000) sr)
    (hhi : Int.tdiv ((a : Int) * 1024 * 1000) sr ≤ 2147483647) :
    offsetMs a sr = Int.tdiv ((a : Int) * 1024 * 1000) sr := by
  unfold offsetMs
  simp only [HOP_SIZE]
  exact if_pos ⟨hsr, hlo, hhi⟩

/-- At `sr = 0` the conversion is the undefined one. -/
theorem offsetMs_zero_rate (a : Nat) : offsetMs a 0 = -2147483648 := by
  unfold offsetMs
  simp

/-- Frame 2098 at `sr = 1`: the quotient `2148352000` is beyond `INT_MAX`. -/
theorem offsetMs_out_of_range : offsetMs 2098 1 = -2147483648 := by
  decide

theorem offsetMs_nonpos (a : Nat) (sr : Int) (h : sr < 0) : offsetMs a sr ≤ 0 := by
  have hn : 0 ≤ Int.tdiv ((a : Int) * HOP_SIZE * 1000) (-sr) := by
    apply Int.tdiv_nonneg
    · simp only [HOP_SIZE]
      positivity
    · omega
  rw [Int.tdiv_neg] at hn
  unfold offsetMs
  simp only []
  split
  · omega
  · decide

end Fingerprint

/-! ## Identity recognition -/

theorem registerFresh_eq (s : SongRow) (H : List Emit)
    (hs : s.title ≠ none ∧ s.artist ≠ none) :
    registerFresh s H
      = { songs := [{ s with id := 1 }], fingerprints := H.map (postingOf 1) } := by
  obtain ⟨t, ht⟩ := Option.ne_none_iff_exists'.1 hs.1
  obtain ⟨ar, har⟩ := Option.ne_none_iff_exists'.1 hs.2
  have h1 : ({} : Database).insertSong s true
      = (some 1, { songs := [{ s with id := 1 }], fingerprints := [] }) := by
    simp [Database.insertSong, ht, har, Database.nextSongId]
  unfold registerFresh
  rw [h1]
  simp only []
  rw [insertFingerprints_ok _ 1 H (fun _ => true) (fun _ _ => rfl)]
  simp

theorem countP_eq_le_one (H : List Emit) (hnd : H.Nodup) (a : Emit) :
    (H.countP fun x => decide (x = a)) ≤ 1 := by
  induction H with
  | nil => simp
  | cons x rest ih =>
      obtain ⟨hx, hrest⟩ := List.nodup_cons.1 hnd
      rw [List.countP_cons]
      by_cases hxa : x = a
      · have hz : (rest.countP fun y => decide (y = a)) = 0 := by
          rw [List.countP_eq_zero]
          intro y hy
          simp only [decide_eq_true_eq]
          intro hya
          exact hx (hxa ▸ hya ▸ hy)
        simp [hxa, hz]
      · have := ih hrest
        simp [hxa, this]

theorem exists_countP_ge_two (H : List Emit) (h : ¬ H.Nodup) :
    ∃ a ∈ H, 2 ≤ H.countP fun x => decide (x = a) := by
  induction H with
  | nil => exact absurd List.nodup_nil h
  | cons x rest ih =>
      by_cases hx : x ∈ rest
      · refine ⟨x, List.mem_cons_self _ _, ?_⟩
        have hpos : 0 < rest.countP fun y => decide (y = x) :=
          List.countP_pos_iff.2 ⟨x, hx, by simp⟩
        rw [List.countP_cons]
        simp only [decide_True, if_true]
        omega
      · have hrest : ¬ rest.Nodup := fun hn => h (List.nodup_cons.2 ⟨hx, hn⟩)
        obtain ⟨a, ha, h2⟩ := ih hrest
        refine ⟨a, List.mem_cons_of_mem _ ha, ?_⟩
        rw [List.countP_cons]
        omega

/-- With exactly the items of `H` stored under song `S`, the key `(S, 0)` collects, for each
item, the number of times it occurs in `H`. -/
theorem pairCount_stored_zero (db : Database) (S : Int) (H : List Emit)
    (hfp : db.fingerprints = H.map (postingOf S)) :
    pairCount db H S 0 = (H.map fun q => H.countP fun x => decide (x = q)).sum := by
  unfold pairCount
  rw [hfp]
  congr 1
  apply List.map_congr_left
  intro q _
  rw [List.countP_map]
  apply List.countP_congr
  intro x _
  obtain ⟨x1, x2⟩ := x
  obtain ⟨q1, q2⟩ := q
  simp only [Function.comp, postingOf, decide_eq_true_eq, Prod.mk.injEq, true_and]
  constructor
  · rintro ⟨h1, h2⟩
    exact ⟨h1, by omega⟩
  · rintro ⟨h1, h2⟩
    exact ⟨h1, by omega⟩

/-- With exactly the items of a duplicate-free `H` stored, no key collects more votes than
`H` has items. -/
theorem pairCount_stored_le (db : Database) (S : Int) (H : List Emit)
    (hfp : db.fingerprints = H.map (postingOf S)) (hnd : H.Nodup) (s d : Int) :
    pairCount db H s d ≤ H.length := by
  unfold pairCount
  rw [hfp]
  apply sum_map_le_length
  intro q _
  rw [List.countP_map]
  have hle : (H.countP ((fun p : FingerprintRow =>
        decide (p.hash = q.1 ∧ p.song_id = s ∧ p.offset_ms - q.2 = d)) ∘ postingOf S))
      ≤ H.countP fun x => decide (x = (q.1, q.2 + d)) := by
    apply List.countP_mono_left
    intro x _ hx
    obtain ⟨x1, x2⟩ := x
    simp only [Function.comp, postingOf, decide_eq_true_eq] at hx
    simp only [decide_eq_true_eq, Prod.mk.injEq]
    exact ⟨hx.1, by omega⟩
  exact le_trans hle (countP_eq_le_one H hnd (q.1, q.2 + d))

theorem length_lt_sum_count (H : List Emit) (h : ¬ H.Nodup) :
    H.length < (H.map fun q => H.countP fun x => decide (x = q)).sum := by
  obtain ⟨a, hmem, ha⟩ := exists_countP_ge_two H h
  exact length_lt_sum_map H (fun q => H.countP fun x => decide (x = q))
    (fun x hx => List.countP_pos_iff.2 ⟨x, hx, by simp⟩) a hmem ha

/-- C4, amended. Identity recognition: for every PCM buffer `B` and `sr > 0` whose
fingerprint list `H = compute B sr` is non-empty, after `insertSong` and
`insertFingerprints` of `H` on an empty database `bestMatch` on `H` returns the stored song
with `voteCount` at least the length of `H`, and equal to it exactly when the
`(hash, anchor_ms)` pairs of `H` are pairwise distinct. -/
theorem identity_recognition (iterOrder : Votes → Votes) (horder : ∀ v, (iterOrder v).Perm v)
    (selectOk : Nat → Bool) (hsel : ∀ i, selectOk i = true)
    (peakPick : List Int → List Int) (B : List Int) (sr : Int) (_hsr : 0 < sr)
    (hne : compute peakPick B sr ≠ []) (s : SongRow) (hs : s.title ≠ none ∧ s.artist ≠ none)
    (outSong : SongRow) (voteCount : Int) :
    (bestMatch iterOrder selectOk true (registerFresh s (compute peakPick B sr))
        (compute peakPick B sr) outSong voteCount).ok = true
    ∧ (bestMatch iterOrder selectOk true (registerFresh s (compute peakPick B sr))
        (compute peakPick B sr) outSong voteCount).outSong = { s with id := 1 }
    ∧ ((compute peakPick B sr).length : Int)
        ≤ (bestMatch iterOrder selectOk true (registerFresh s (compute peakPick B sr))
            (compute peakPick B sr) outSong voteCount).voteCount
    ∧ ((bestMatch iterOrder selectOk true (registerFresh s (compute peakPick B sr))
          (compute peakPick B sr) outSong voteCount).voteCount
        = ((compute peakPick B sr).length : Int) ↔ (compute peakPick B sr).Nodup) := by
  generalize compute peakPick B sr = H at hne ⊢
  rw [registerFresh_eq s H hs]
  have href : RefIntegrity
      { songs := [{ s with id := 1 }], fingerprints := H.map (postingOf 1) } := by
    intro p _
    exact ⟨{ s with id := 1 }, List.mem_singleton.2 rfl, by
      obtain ⟨q, _, rfl⟩ := List.mem_map.1 ‹p ∈ _›
      rfl⟩
  have hids : IdsPositive
      { songs := [{ s with id := 1 }], fingerprints := H.map (postingOf 1) } := by
    intro row hrow
    rw [List.mem_singleton.1 hrow]
    exact Int.one_pos
  have hzero := pairCount_stored_zero
    { songs := [{ s with id := 1 }], fingerprints := H.map (postingOf 1) } 1 H rfl
  have hself := pairCount_self_ge
    { songs := [{ s with id := 1 }], fingerprints := H.map (postingOf 1) } 1 H [] rfl
  have hlen : 0 < H.length := List.length_pos.2 hne
  have hbound := (bestMatch_cases iterOrder horder selectOk hsel
    { songs := [{ s with id := 1 }], fingerprints := H.map (postingOf 1) }
    H outSong voteCount _ rfl).1
  obtain ⟨s1, d, hd, hok, hmem, hid⟩ := bestMatch_hit iterOrder horder selectOk hsel
    { songs := [{ s with id := 1 }], fingerprints := H.map (postingOf 1) }
    href hids H outSong voteCount ⟨1, 0, by omega⟩
  have hge := hbound 1 0
  refine ⟨hok, List.mem_singleton.1 hmem, by omega, ?_⟩
  constructor
  · intro heq
    by_contra hnd
    have := length_lt_sum_count H hnd
    rw [← hzero] at this
    omega
  · intro hnd
    have hle := pairCount_stored_le
      { songs := [{ s with id := 1 }], fingerprints := H.map (postingOf 1) } 1 H rfl hnd s1 d
    omega

theorem silence_pairs_not_nodup (peakPick : List Int → List Int)
    (hlen : (peakPick (silence 2048)).length = 5) :
    (compute peakPick (silence 4096) 2048000).length = 10
    ∧ ¬ (compute peakPick (silence 4096) 2048000).Nodup := by
  obtain ⟨p0, p1, p2, p3, p4, hP⟩ := five_of_length _ hlen
  rw [compute_silence peakPick 2048000 p0 p1 p2 p3 p4 hP]
  refine ⟨rfl, ?_⟩
  have hdup : emitPair 2048000 1 2 p0 p0 = emitPair 2048000 0 1 p0 p0 := by
    have ho : offsetMs 1 2048000 = offsetMs 0 2048000 := by decide
    simp only [emitPair, ho]
    rfl
  rw [hdup]
  intro hnd
  have h1 := (List.nodup_cons.1 hnd).1
  exact h1 (by simp)

/-- Counterexample to C4 as stated: 4096 samples of silence at `sr = 2048000`.  The three
frames are equal and frames 0 and 1 both start at millisecond 0, so the ten pairs of `H`
are five pairs listed twice: with the peaks `40 .. 44` the vote count is 20, not 10, and
whatever five peaks the silent frame yields and however the `QHash` is iterated, the vote
count differs from the length of `H`. -/
theorem identity_recognition_counterexample :
    ((compute (fun _ => [40, 41, 42, 43, 44]) (silence 4096) 2048000).length = 10
      ∧ (bestMatch id (fun _ => true) true
          (registerFresh { title := some "A-Tone", artist := some "Test" }
            (compute (fun _ => [40, 41, 42, 43, 44]) (silence 4096) 2048000))
          (compute (fun _ => [40, 41, 42, 43, 44]) (silence 4096) 2048000) {} 0).voteCount = 20)
    ∧ ∀ peakPick : List Int → List Int, (peakPick (silence 2048)).length = 5 →
        ∀ iterOrder : Votes → Votes, (∀ v, (iterOrder v).Perm v) →
          (compute peakPick (silence 4096) 2048000).length = 10
          ∧ (bestMatch iterOrder (fun _ => true) true
              (registerFresh { title := some "A-Tone", artist := some "Test" }
                (compute peakPick (silence 4096) 2048000))
              (compute peakPick (silence 4096) 2048000) {} 0).voteCount ≠ 10 := by
  refine ⟨?_, ?_⟩
  · rw [compute_silence _ 2048000 40 41 42 43 44 rfl]
    decide
  · intro peakPick hlen iterOrder horder
    obtain ⟨h10, hdup⟩ := silence_pairs_not_nodup peakPick hlen
    refine ⟨h10, ?_⟩
    generalize compute peakPick (silence 4096) 2048000 = H at h10 hdup ⊢
    rw [registerFresh_eq _ H ⟨by simp, by simp⟩]
    have hzero := pairCount_stored_zero
      { songs := [{ ({ title := some "A-Tone", artist := some "Test" } : SongRow) with id := 1 }],
        fingerprints := H.map (postingOf 1) } 1 H rfl
    have hlt := length_lt_sum_count H hdup
    have hb := (bestMatch_cases iterOrder horder (fun _ => true) (fun _ => rfl)
      { songs := [{ ({ title := some "A-Tone", artist := some "Test" } : SongRow) with id := 1 }],
        fingerprints := H.map (postingOf 1) } H {} 0 _ rfl).1 1 0
    rw [hzero] at hb
    intro heq
    have h10le := le_trans hb (le_of_eq heq)
    omega

/-- Witness of C4 amended: 4096 samples of silence at 44100 Hz with the peaks `40 .. 44`,
registered as "A-Tone" and recognized. -/
theorem identity_recognition_witness :
    (bestMatch id (fun _ => true) true
        (registerFresh { title := some "A-Tone", artist := some "Test" }
          (compute (fun _ => [40, 41, 42, 43, 44]) (silence 4096) 44100))
        (compute (fun _ => [40, 41, 42, 43, 44]) (silence 4096) 44100) {} 0).ok = true
    ∧ (compute (fun _ => [40, 41, 42, 43, 44]) (silence 4096) 44100).length = 10 :=
  ⟨(identity_recognition id (fun _ => List.Perm.refl _) (fun _ => true) (fun _ => rfl)
      (fun _ => [40, 41, 42, 43, 44]) (silence 4096) 44100 (by decide)
      (by rw [compute_silence _ 44100 40 41 42 43 44 rfl]; simp)
      { title := some "A-Tone", artist := some "Test" } ⟨by simp, by simp⟩ {} 0).1,
   by rw [compute_silence _ 44100 40 41 42 43 44 rfl]; rfl⟩

namespace Fingerprint

theorem mem_targetFrames (totalFrames a t : Nat) :
    t ∈ targetFrames totalFrames a
      ↔ a + TARGET_DT_MIN ≤ t ∧ t ≤ min (a + TARGET_DT_MAX) (totalFrames - 1) := by
  unfold targetFrames
  rw [List.mem_range'_1]
  simp only [TARGET_DT_MIN, TARGET_DT_MAX]
  omega

theorem anchorStep_append (sr : Int) (peaksInFrame : List (List Int)) (out : List Emit)
    (a : Nat) : anchorStep sr peaksInFrame out a = out ++ anchorStep sr peaksInFrame [] a := by
  rw [anchorStep_eq, anchorStep_eq, List.nil_append]

theorem length_anchorStep (sr : Int) (peaksInFrame : List (List Int)) (a : Nat) :
    (anchorStep sr peaksInFrame [] a).length
      = min FANOUT ((peaksInFrame.getD a []).length
          * ((targetFrames peaksInFrame.length a).map fun t =>
              (peaksInFrame.getD t []).length).sum) := by
  rw [anchorStep_eq, List.nil_append, List.length_take, length_candidates]
  congr 1
  induction targetFrames peaksInFrame.length a with
  | nil => simp
  | cons t rest ih =>
      simp only [List.map_cons, List.sum_cons, ih]
      ring

/-- C11. Per-anchor budget of the pairing stage: for peak lists of any length, the pairs
anchor frame `a` appends number exactly `min(5, |peaks[a]| * Σ |peaks[t]|)`, the sum over the
target frames `t = a+1 .. min(a+20, lastFrame)`; so they never exceed `FANOUT = 5`, the one
budget covers all target frames of the anchor, the last frame appends nothing, and the
output of the stage is what the anchors append, frame after frame. -/
theorem anchor_fanout_budget (sr : Int) (peaksInFrame : List (List Int)) (a : Nat) :
    (∀ out, anchorStep sr peaksInFrame out a = out ++ anchorStep sr peaksInFrame [] a)
    ∧ (anchorStep sr peaksInFrame [] a).length
        = min 5 ((peaksInFrame.getD a []).length
            * ((targetFrames peaksInFrame.length a).map fun t =>
                (peaksInFrame.getD t []).length).sum)
    ∧ (∀ t, t ∈ targetFrames peaksInFrame.length a
        ↔ a + 1 ≤ t ∧ t ≤ min (a + 20) (peaksInFrame.length - 1))
    ∧ (anchorStep sr peaksInFrame [] a).length ≤ FANOUT
    ∧ (a + 1 = peaksInFrame.length → anchorStep sr peaksInFrame [] a = [])
    ∧ pairing sr peaksInFrame
        = (List.range peaksInFrame.length).flatMap fun b => anchorStep sr peaksInFrame [] b := by
  have hlen := length_anchorStep sr peaksInFrame a
  refine ⟨fun out => anchorStep_append sr peaksInFrame out a, hlen,
    fun t => mem_targetFrames _ a t, ?_, ?_, ?_⟩
  · rw [hlen]
    exact Nat.min_le_left _ _
  · intro hlast
    have hnil : targetFrames peaksInFrame.length a = [] := by
      unfold targetFrames
      simp only [TARGET_DT_MIN, TARGET_DT_MAX]
      rw [show min (a + 20) (peaksInFrame.length - 1) + 1 - (a + 1) = 0 by omega]
      rfl
    rw [hnil] at hlen
    simp only [List.map_nil, List.sum_nil, Nat.mul_zero, Nat.min_zero] at hlen
    exact List.length_eq_zero.1 hlen
  · rw [pairing_eq]
    congr 1
    funext b
    rw [anchorStep_eq, List.nil_append]

theorem getD_perm_of_forall₂ (peaks1 peaks2 : List (List Int))
    (h : List.Forall₂ List.Perm peaks1 peaks2) (a : Nat) :
    (peaks1.getD a []).Perm (peaks2.getD a []) := by
  induction h generalizing a with
  | nil => exact List.Perm.refl _
  | cons hp _ ih =>
      cases a with
      | zero => exact hp
      | succ k => exact ih k

theorem candidatesAt_perm (sr : Int) (a t : Nat) (A1 A2 T1 T2 : List Int)
    (hA : A1.Perm A2) (hT : T1.Perm T2) :
    (candidatesAt sr a t A1 T1).Perm (candidatesAt sr a t A2 T2) := by
  unfold candidatesAt
  refine (List.Perm.flatMap_right _ hA).trans ?_
  exact List.Perm.flatMap_left _ fun f1 _ => List.Perm.map _ hT

theorem candidates_perm (sr : Int) (peaks1 peaks2 : List (List Int))
    (h : List.Forall₂ List.Perm peaks1 peaks2) (a : Nat) :
    (candidates sr peaks1 a).Perm (candidates sr peaks2 a) := by
  unfold candidates
  rw [h.length_eq]
  exact List.Perm.flatMap_left _ fun t _ =>
    candidatesAt_perm sr a t _ _ _ _ (getD_perm_of_forall₂ _ _ h a) (getD_perm_of_forall₂ _ _ h t)

end Fingerprint

/-- Counterexample to C13 as stated: frame 0 holds the peaks 10 and 300, frame 1 five peaks.
The budget of anchor 0 is used up by its first peak, so exchanging 10 and 300 changes all
five emitted hashes: the two outputs are not permutations of one another. -/
theorem pairing_order_counterexample :
    [10, 300].Perm [300, (10 : Int)]
    ∧ ¬ (pairing 44100 [[10, 300], [11, 12, 13, 14, 15]]).Perm
        (pairing 44100 [[300, 10], [11, 12, 13, 14, 15]]) := by
  decide

/-- C13, amended. Permuting the peaks inside the frames' lists leaves the number of pairs
emitted by every anchor frame, and by the stage, unchanged; the emitted collection itself is
unchanged as a multiset when no anchor frame overruns its budget, that is when for every
anchor `a` the candidate pairs, `|peaks[a]| * Σ |peaks[t]|` over its target frames, number at
most `FANOUT`. -/
theorem pairing_perm (sr : Int) (peaks1 peaks2 : List (List Int))
    (hperm : List.Forall₂ List.Perm peaks1 peaks2) :
    (∀ a, (anchorStep sr peaks1 [] a).length = (anchorStep sr peaks2 [] a).length)
    ∧ (pairing sr peaks1).length = (pairing sr peaks2).length
    ∧ ((∀ a, a < peaks1.length → (peaks1.getD a []).length
          * ((targetFrames peaks1.length a).map fun t => (peaks1.getD t []).length).sum
          ≤ FANOUT)
        → (pairing sr peaks1).Perm (pairing sr peaks2)) := by
  have hstep : ∀ a, ((candidates sr peaks1 a).take FANOUT).length
      = ((candidates sr peaks2 a).take FANOUT).length := by
    intro a
    rw [List.length_take, List.length_take, (candidates_perm sr peaks1 peaks2 hperm a).length_eq]
  refine ⟨?_, ?_, ?_⟩
  · intro a
    rw [anchorStep_eq, anchorStep_eq, List.nil_append, List.nil_append]
    exact hstep a
  · rw [pairing_eq, pairing_eq, List.length_flatMap, List.length_flatMap, hperm.length_eq]
    congr 1
    apply List.map_congr_left
    intro a _
    exact hstep a
  · intro hfit
    rw [pairing_eq, pairing_eq, hperm.length_eq]
    apply List.Perm.flatMap_left
    intro a ha
    have h1 : (candidates sr peaks1 a).length ≤ FANOUT := by
      rw [length_candidates]
      have := hfit a (by rw [hperm.length_eq]; exact List.mem_range.1 ha)
      have e : ((targetFrames peaks1.length a).map fun t =>
          (peaks1.getD a []).length * (peaks1.getD t []).length).sum
          = (peaks1.getD a []).length
            * ((targetFrames peaks1.length a).map fun t => (peaks1.getD t []).length).sum := by
        induction targetFrames peaks1.length a with
        | nil => simp
        | cons t rest ih =>
            simp only [List.map_cons, List.sum_cons, ih]
            ring
      rw [e]
      exact this
    have h2 : (candidates sr peaks2 a).length ≤ FANOUT := by
      rw [← (candidates_perm sr peaks1 peaks2 hperm a).length_eq]
      exact h1
    rw [List.take_of_length_le h1, List.take_of_length_le h2]
    exact candidates_perm sr peaks1 peaks2 hperm a

/-- Witness of C13 amended: two peaks against two peaks fit the budget of five. -/
theorem pairing_perm_witness :
    (pairing 44100 [[10, 300], [11, 12]]).Perm (pairing 44100 [[300, 10], [12, 11]]) :=
  (pairing_perm 44100 [[10, 300], [11, 12]] [[300, 10], [12, 11]]
    (List.Forall₂.cons (by decide) (List.Forall₂.cons (by decide) List.Forall₂.nil))).2.2
    (by decide)

namespace Fingerprint

theorem length_binsOf {P : Type} [Inhabited P] (mag : List P) : (binsOf mag).length = 1019 := by
  simp [binsOf, WINDOW_SIZE]

theorem mem_binsOf {P : Type} [Inhabited P] (mag : List P) (x : P × Int) :
    x ∈ binsOf mag ↔ (5 ≤ x.2 ∧ x.2 < 1024) ∧ x.1 = powerAt mag x.2 := by
  obtain ⟨p, k⟩ := x
  simp only [binsOf, WINDOW_SIZE, List.mem_map, List.mem_range'_1, Prod.mk.injEq, powerAt]
  constructor
  · rintro ⟨j, hj, rfl, rfl⟩
    refine ⟨by omega, ?_⟩
    simp
  · rintro ⟨hk, rfl⟩
    refine ⟨k.toNat, by omega, ?_, by omega⟩
    rfl

theorem nodup_binsOf_snd {P : Type} [Inhabited P] (mag : List P) :
    ((binsOf mag).map Prod.snd).Nodup := by
  simp only [binsOf, List.map_map]
  refine (List.nodup_range' 5 _).map ?_
  intro i j hij
  simpa using hij

/-- The facts about a selection made by a conforming `nth_element`. -/
theorem selectPeaks_spec {P : Type} [LinearOrder P] [Inhabited P]
    (nthElement : Nat → List (P × Int) → List (P × Int)) (mag : List P)
    (hpost : NthElementPost peakGreater (min TOP_PEAKS (binsOf mag).length) (binsOf mag)
      (nthElement (min TOP_PEAKS (binsOf mag).length) (binsOf mag))) :
    (selectPeaks nthElement mag).length = 5
    ∧ (selectPeaks nthElement mag).Nodup
    ∧ (∀ k ∈ selectPeaks nthElement mag, 5 ≤ k ∧ k < 1024)
    ∧ ∀ k ∈ selectPeaks nthElement mag, ∀ j : Int, 5 ≤ j → j < 1024 →
        j ∉ selectPeaks nthElement mag → powerAt mag j ≤ powerAt mag k := by
  obtain ⟨hperm, hpart⟩ := hpost
  have hn : min TOP_PEAKS (binsOf mag).length = 5 := by
    rw [length_binsOf]; rfl
  rw [hn] at hperm hpart
  have hsel : selectPeaks nthElement mag
      = ((nthElement 5 (binsOf mag)).take 5).map Prod.snd := by
    show List.map Prod.snd (List.take
        (min TOP_PEAKS (nthElement (min TOP_PEAKS (binsOf mag).length) (binsOf mag)).length)
        (nthElement (min TOP_PEAKS (binsOf mag).length) (binsOf mag))) = _
    rw [hn, hperm.length_eq, hn]
  have hlen : (nthElement 5 (binsOf mag)).length = 1019 := by
    rw [hperm.length_eq, length_binsOf]
  have hnd : ((nthElement 5 (binsOf mag)).map Prod.snd).Nodup :=
    (hperm.map Prod.snd).nodup_iff.2 (nodup_binsOf_snd mag)
  have hmem : ∀ x ∈ nthElement 5 (binsOf mag),
      (5 ≤ x.2 ∧ x.2 < 1024) ∧ x.1 = powerAt mag x.2 :=
    fun x hx => (mem_binsOf mag x).1 (hperm.mem_iff.1 hx)
  rw [hsel]
  refine ⟨?_, ?_, ?_, ?_⟩
  · rw [List.length_map, List.length_take, hlen]
    rfl
  · rw [List.map_take]
    exact hnd.sublist (List.take_sublist _ _)
  · intro k hk
    obtain ⟨x, hx, rfl⟩ := List.mem_map.1 hk
    exact (hmem x (List.mem_of_mem_take hx)).1
  · intro k hk j hj5 hj hjsel
    obtain ⟨x, hx, rfl⟩ := List.mem_map.1 hk
    have hy : (powerAt mag j, j) ∈ nthElement 5 (binsOf mag) :=
      hperm.mem_iff.2 ((mem_binsOf mag _).2 ⟨⟨hj5, hj⟩, rfl⟩)
    rw [← List.take_append_drop 5 (nthElement 5 (binsOf mag)), List.mem_append] at hy
    rcases hy with hy | hy
    · exact absurd (List.mem_map.2 ⟨_, hy, rfl⟩) hjsel
    · have hc := hpart x hx _ hy
      simp only [peakGreater, decide_eq_false_iff_not, not_lt] at hc
      rw [(hmem x (List.mem_of_mem_take hx)).2] at hc
      exact hc

end Fingerprint

/-- C12. Top-k peak selection: for every power spectrum of length 1024 and every
`nth_element` that keeps the promise of the C++ standard on the frame's `bins`, the picker
selects exactly 5 pairwise distinct bins, all in `[5, 1024)`, and every selected bin has at
least the power of every bin of `[5, 1024)` that is not selected; bins 0..4 are never
selected. -/
theorem top_k_peaks {P : Type} [LinearOrder P] [Inhabited P]
    (nthElement : Nat → List (P × Int) → List (P × Int)) (mag : List P)
    (_hlen : mag.length = WINDOW_SIZE / 2)
    (hpost : NthElementPost peakGreater (min TOP_PEAKS (binsOf mag).length) (binsOf mag)
      (nthElement (min TOP_PEAKS (binsOf mag).length) (binsOf mag))) :
    (selectPeaks nthElement mag).length = 5
    ∧ (selectPeaks nthElement mag).Nodup
    ∧ (∀ k ∈ selectPeaks nthElement mag, 5 ≤ k ∧ k < 1024)
    ∧ (∀ k ∈ selectPeaks nthElement mag, ∀ j : Int, 5 ≤ j → j < 1024 →
        j ∉ selectPeaks nthElement mag → powerAt mag j ≤ powerAt mag k)
    ∧ ∀ k : Int, 0 ≤ k → k ≤ 4 → k ∉ selectPeaks nthElement mag := by
  obtain ⟨h1, h2, h3, h4⟩ := selectPeaks_spec nthElement mag hpost
  refine ⟨h1, h2, h3, h4, ?_⟩
  intro k _ hk4 hk
  have := (h3 k hk).1
  omega

theorem binsOf_replicate_fst (x : Nat × Int) (hx : x ∈ binsOf (List.replicate 1024 (0 : Nat))) :
    x.1 = 0 := by
  have h := ((mem_binsOf _ x).1 hx).2
  rw [h, powerAt, List.getD_eq_getElem?_getD]
  cases hg : (List.replicate 1024 (0 : Nat))[x.2.toNat]? with
  | none => rfl
  | some v =>
      have := List.getElem?_replicate ▸ hg
      simp only [Option.getD_some]
      split at this
      · exact (Option.some.inj this).symm
      · cases this

theorem post_of_flat (n : Nat) (output : List (Nat × Int))
    (hperm : output.Perm (binsOf (List.replicate 1024 (0 : Nat)))) :
    NthElementPost peakGreater n (binsOf (List.replicate 1024 (0 : Nat))) output := by
  refine ⟨hperm, ?_⟩
  intro x hx y hy
  have hx0 := binsOf_replicate_fst x (hperm.mem_iff.1 (List.mem_of_mem_take hx))
  have hy0 := binsOf_replicate_fst y (hperm.mem_iff.1 (List.mem_of_mem_drop hy))
  simp [peakGreater, hx0, hy0]

/-- Witness of C12: the flat spectrum, left in place by `nth_element`. -/
theorem top_k_peaks_witness :
    (selectPeaks (fun _ l => l) (List.replicate 1024 (0 : Nat))).length = 5
    ∧ ∀ k ∈ selectPeaks (fun _ l => l) (List.replicate 1024 (0 : Nat)), 5 ≤ k ∧ k < 1024 :=
  ⟨(top_k_peaks (fun _ l => l) (List.replicate 1024 (0 : Nat)) (List.length_replicate _ _)
      (post_of_flat _ _ (List.Perm.refl _))).1,
   (top_k_peaks (fun _ l => l) (List.replicate 1024 (0 : Nat)) (List.length_replicate _ _)
      (post_of_flat _ _ (List.Perm.refl _))).2.2.1⟩

set_option maxRecDepth 100000 in
/-- Counterexample to C15 as stated: the flat spectrum, all bins tied.  Leaving `bins` in
place and reversing it both keep the promise of `std::nth_element`; the first selects the
bins 5..9, the second the bins 1023..1019, the highest indices. -/
theorem peak_tie_counterexample :
    NthElementPost peakGreater 5 (binsOf (List.replicate 1024 (0 : Nat)))
        (binsOf (List.replicate 1024 (0 : Nat)))
    ∧ NthElementPost peakGreater 5 (binsOf (List.replicate 1024 (0 : Nat)))
        (binsOf (List.replicate 1024 (0 : Nat))).reverse
    ∧ selectPeaks (fun _ l => l) (List.replicate 1024 (0 : Nat)) = [5, 6, 7, 8, 9]
    ∧ selectPeaks (fun _ l => l.reverse) (List.replicate 1024 (0 : Nat))
        = [1023, 1022, 1021, 1020, 1019] := by
  refine ⟨post_of_flat _ _ (List.Perm.refl _), post_of_flat _ _ (List.reverse_perm _), ?_, ?_⟩
  · decide
  · decide

theorem selectPeaks_exchange {P : Type} [LinearOrder P] [Inhabited P]
    (nth1 nth2 : Nat → List (P × Int) → List (P × Int)) (mag : List P)
    (h1 : NthElementPost peakGreater (min TOP_PEAKS (binsOf mag).length) (binsOf mag)
      (nth1 (min TOP_PEAKS (binsOf mag).length) (binsOf mag)))
    (h2 : NthElementPost peakGreater (min TOP_PEAKS (binsOf mag).length) (binsOf mag)
      (nth2 (min TOP_PEAKS (binsOf mag).length) (binsOf mag)))
    (k : Int) (hk1 : k ∈ selectPeaks nth1 mag) (hk2 : k ∉ selectPeaks nth2 mag) :
    ∃ j ∈ selectPeaks nth2 mag, j ∉ selectPeaks nth1 mag ∧ powerAt mag j = powerAt mag k := by
  obtain ⟨l1, n1, r1, p1⟩ := selectPeaks_spec nth1 mag h1
  obtain ⟨l2, n2, r2, p2⟩ := selectPeaks_spec nth2 mag h2
  have hex : ∃ j ∈ selectPeaks nth2 mag, j ∉ selectPeaks nth1 mag := by
    by_contra hno
    push_neg at hno
    have hsub : selectPeaks nth2 mag ⊆ (selectPeaks nth1 mag).erase k := by
      intro j hj
      have hj1 := hno j hj
      have hne : j ≠ k := fun e => hk2 (e ▸ hj)
      exact (List.mem_erase_of_ne hne).2 hj1
    have hle := (n2.subperm hsub).length_le
    rw [List.length_erase_of_mem hk1, l1, l2] at hle
    omega
  obtain ⟨j, hj2, hj1⟩ := hex
  refine ⟨j, hj2, hj1, le_antisymm ?_ ?_⟩
  · exact p1 k hk1 j (r2 j hj2).1 (r2 j hj2).2 hj1
  · exact p2 j hj2 k (r1 k hk1).1 (r1 k hk1).2 hk2

/-- C15, amended. Peak ties: the comparison looks at the power only, so which of several
bins of equal power take the last peak slots is left to `std::nth_element`.  For two
rearrangements that both keep its promise, a bin selected by one and not by the other is
tied in power with a bin selected only by the other; hence when the powers of the bins of
`[5, 1024)` are pairwise distinct the selected set is determined by the spectrum. -/
theorem peak_ties {P : Type} [LinearOrder P] [Inhabited P]
    (nth1 nth2 : Nat → List (P × Int) → List (P × Int)) (mag : List P)
    (h1 : NthElementPost peakGreater (min TOP_PEAKS (binsOf mag).length) (binsOf mag)
      (nth1 (min TOP_PEAKS (binsOf mag).length) (binsOf mag)))
    (h2 : NthElementPost peakGreater (min TOP_PEAKS (binsOf mag).length) (binsOf mag)
      (nth2 (min TOP_PEAKS (binsOf mag).length) (binsOf mag))) :
    (∀ k ∈ selectPeaks nth1 mag, k ∉ selectPeaks nth2 mag →
        ∃ j ∈ selectPeaks nth2 mag, j ∉ selectPeaks nth1 mag
          ∧ powerAt mag j = powerAt mag k)
    ∧ ((∀ i j : Int, 5 ≤ i → i < 1024 → 5 ≤ j → j < 1024 → i ≠ j →
          powerAt mag i ≠ powerAt mag j)
        → (selectPeaks nth1 mag).Perm (selectPeaks nth2 mag)) := by
  refine ⟨fun k hk1 hk2 => selectPeaks_exchange nth1 nth2 mag h1 h2 k hk1 hk2, ?_⟩
  intro hinj
  obtain ⟨_, n1, r1, _⟩ := selectPeaks_spec nth1 mag h1
  obtain ⟨_, n2, r2, _⟩ := selectPeaks_spec nth2 mag h2
  rw [List.perm_ext_iff_of_nodup n1 n2]
  intro k
  constructor
  · intro hk1
    by_contra hk2
    obtain ⟨j, hj2, _, hp⟩ := selectPeaks_exchange nth1 nth2 mag h1 h2 k hk1 hk2
    have hne : j ≠ k := fun e => hk2 (e ▸ hj2)
    exact hinj j k (r2 j hj2).1 (r2 j hj2).2 (r1 k hk1).1 (r1 k hk1).2 hne hp
  · intro hk2
    by_contra hk1
    obtain ⟨j, hj1, _, hp⟩ := selectPeaks_exchange nth2 nth1 mag h2 h1 k hk2 hk1
    have hne : j ≠ k := fun e => hk1 (e ▸ hj1)
    exact hinj j k (r1 j hj1).1 (r1 j hj1).2 (r2 k hk2).1 (r2 k hk2).2 hne hp

set_option maxRecDepth 100000 in
/-- Witness of C15 amended, on the flat spectrum: bin 5, selected when `bins` is left in
place and not when it is reversed, is tied with a bin only the reversal selects. -/
theorem peak_ties_witness :
    ∃ j ∈ selectPeaks (fun _ l => l.reverse) (List.replicate 1024 (0 : Nat)),
      j ∉ selectPeaks (fun _ l => l) (List.replicate 1024 (0 : Nat))
      ∧ powerAt (List.replicate 1024 (0 : Nat)) j = powerAt (List.replicate 1024 (0 : Nat)) 5 :=
  (peak_ties (fun _ l => l) (fun _ l => l.reverse) (List.replicate 1024 (0 : Nat))
    (post_of_flat _ _ (List.Perm.refl _)) (post_of_flat _ _ (List.reverse_perm _))).1 5
    (by decide) (by decide)

theorem pickBest_fold_keep (entries : Votes) (init : Int × Int)
    (h : ∀ x ∈ entries, x.2 ≤ init.2) :
    entries.foldl (fun best e => if e.2 > best.2 then (e.1.1, e.2) else best) init = init := by
  induction entries with
  | nil => rfl
  | cons x rest ih =>
      have hx : ¬ x.2 > init.2 := not_lt.2 (h x (List.mem_cons_self _ _))
      simp only [List.foldl_cons, hx, if_false]
      exact ih fun y hy => h y (List.mem_cons_of_mem _ hy)

/-- The scan ends on the first entry, in the order it is fed, whose count is the largest. -/
theorem pickBest_first_max (front back : Votes) (e : VoteKey × Int)
    (hfront : ∀ x ∈ front, x.2 < e.2) (hback : ∀ x ∈ back, x.2 ≤ e.2) (hpos : 0 < e.2) :
    pickBest (front ++ e :: back) = (e.1.1, e.2) := by
  unfold pickBest
  rw [List.foldl_append, List.foldl_cons]
  obtain ⟨h0, hle, hcase⟩ := pickBest_fold front (-1, 0)
  have hlt : (front.foldl (fun best e => if e.2 > best.2 then (e.1.1, e.2) else best)
      (-1, 0)).2 < e.2 := by
    rcases hcase with h | ⟨x, hx, hr, _⟩
    · rw [h]
      exact hpos
    · rw [hr]
      exact hfront x hx
  rw [if_pos hlt]
  exact pickBest_fold_keep back (e.1.1, e.2) hback

theorem tiedCatalog_ref : RefIntegrity tiedCatalog := by
  unfold RefIntegrity songExists
  decide

theorem tiedCatalog_ids : IdsPositive tiedCatalog := by
  unfold IdsPositive
  decide

/-- Counterexample to C14 as stated: songs 1 and 2 each have one posting of hash 7 and tie
with one vote.  Iterating the votes in insertion order returns song 2, not the lowest id;
iterating them in reverse returns song 1: the result is not fixed by postings and query. -/
theorem tie_break_counterexample :
    pairCount tiedCatalog [(7, 0)] 1 0 = 1
    ∧ pairCount tiedCatalog [(7, 0)] 2 0 = 1
    ∧ (bestMatch id (fun _ => true) true
        tiedCatalog
        [(7, 0)] {} 0).outSong.id = 2
    ∧ (bestMatch List.reverse (fun _ => true) true
        tiedCatalog
        [(7, 0)] {} 0).outSong.id = 1 := by
  decide

/-- C14, amended. Matcher tie-break: `bestMatch` returns the song of the key whose count is
the largest and which comes first in the iteration order of the `QHash` (the scan replaces
its candidate only on a strictly greater count), whatever its song id and delta; the
returned song is fixed by postings and query alone when every key with the maximum count
belongs to one song. -/
theorem tie_break_first (iterOrder : Votes → Votes) (horder : ∀ v, (iterOrder v).Perm v)
    (selectOk : Nat → Bool) (hsel : ∀ i, selectOk i = true) (db : Database)
    (href : RefIntegrity db) (hids : IdsPositive db) (query : List Emit)
    (outSong : SongRow) (voteCount : Int) :
    (∀ (votes front back : Votes) (e : VoteKey × Int),
        voteLoop db selectOk query 0 [] = some votes →
        iterOrder votes = front ++ e :: back →
        (∀ x ∈ front, x.2 < e.2) → (∀ x ∈ back, x.2 ≤ e.2) → 0 < e.2 →
        (bestMatch iterOrder selectOk true db query outSong voteCount).ok = true
        ∧ (bestMatch iterOrder selectOk true db query outSong voteCount).outSong.id = e.1.1
        ∧ (bestMatch iterOrder selectOk true db query outSong voteCount).voteCount = e.2)
    ∧ ∀ s d, 0 < pairCount db query s d →
        (∀ s2 d2, pairCount db query s2 d2 ≤ pairCount db query s d) →
        (∀ s2 d2, pairCount db query s2 d2 = pairCount db query s d → s2 = s) →
        (bestMatch iterOrder selectOk true db query outSong voteCount).ok = true
        ∧ (bestMatch iterOrder selectOk true db query outSong voteCount).outSong.id = s := by
  constructor
  · intro votes front back e hv hit hfront hback hpos
    have hbest : pickBest (iterOrder votes) = (e.1.1, e.2) := by
      rw [hit]
      exact pickBest_first_max front back e hfront hback hpos
    obtain ⟨w, hw, hwok, hwv⟩ := voteLoop_spec db selectOk hsel query 0 []
      ⟨List.nodup_nil, fun x hx => absurd hx (List.not_mem_nil x)⟩
    rw [hv] at hw
    have hwe : w = votes := (Option.some.inj hw).symm
    subst hwe
    have hmem : e ∈ w := (horder w).mem_iff.1 (by rw [hit]; simp)
    have hval : e.2 = (pairCount db query e.1.1 e.1.2 : Int) := by
      have := hwv e.1
      rw [voteOf_of_mem w hwok.1 e hmem] at this
      simpa [voteOf] using this
    have hpc : 0 < pairCount db query e.1.1 e.1.2 := by
      rw [hval] at hpos
      exact_mod_cast hpos
    obtain ⟨q, _, p, hp, _, hps, _⟩ := posting_of_pairCount_pos db query _ _ hpc
    have hex : songExists db e.1.1 := hps ▸ href p hp
    have hs : ¬ e.1.1 < 0 := by
      obtain ⟨row, hrowmem, hid⟩ := hex
      have := hids row hrowmem
      omega
    obtain ⟨row, hrow⟩ := find_song db e.1.1 hex
    have hrid : row.id = e.1.1 := by
      have := List.find?_some hrow
      simpa using this
    unfold bestMatch
    rw [hv]
    simp only [hbest, hs, if_false, if_true, hrow]
    exact ⟨trivial, hrid, trivial⟩
  · intro s d hpos hmax huniq
    have hbound :=
      (bestMatch_cases iterOrder horder selectOk hsel db query outSong voteCount _ rfl).1
    obtain ⟨s1, d1, hval, hok, _, hid⟩ :=
      bestMatch_hit iterOrder horder selectOk hsel db href hids query outSong voteCount
        ⟨s, d, hpos⟩
    refine ⟨hok, ?_⟩
    rw [hid]
    apply huniq s1 d1
    have h1 := hbound s d
    rw [← hval] at h1
    have h2 := hmax s1 d1
    omega

/-- Witness of C14 amended: in the tie of songs 1 and 2, the votes iterated in insertion
order, the first key with the largest count is that of song 2. -/
theorem tie_break_first_witness :
    (bestMatch id (fun _ => true) true
        tiedCatalog
        [(7, 0)] {} 0).outSong.id = 2 :=
  ((tie_break_first id (fun _ => List.Perm.refl _) (fun _ => true) (fun _ => rfl)
    tiedCatalog
    tiedCatalog_ref tiedCatalog_ids
    [(7, 0)] {} 0).1 [((2, 0), 1), ((1, 0), 1)] [] [((1, 0), 1)] ((2, 0), 1) (by decide) rfl
    (by intro x hx; cases hx) (by intro x hx; simp only [List.mem_singleton] at hx; subst hx; decide)
    (by decide)).2.1

namespace Fingerprint

theorem compute_eq_pairing (peakPick : List Int → List Int) (pcm : List Int) (sr : Int) :
    compute peakPick pcm sr = pairing sr (framePeaks peakPick pcm) := by
  unfold compute framePeaks
  split
  · rename_i h
    have hnil : frameLoop pcm pcm.length 0 = [] := by
      cases hl : pcm.length with
      | zero => rfl
      | succ k =>
          simp only [frameLoop]
          rw [if_neg (by omega)]
    rw [hnil]
    rfl
  · rfl

theorem length_frameLoop (pcm : List Int) (fuel start : Nat)
    (h : pcm.length < start + WINDOW_SIZE + fuel * HOP_SIZE) :
    (frameLoop pcm fuel start).length
      = if start + WINDOW_SIZE ≤ pcm.length
        then (pcm.length - start - WINDOW_SIZE) / HOP_SIZE + 1 else 0 := by
  induction fuel generalizing start with
  | zero =>
      simp only [frameLoop, List.length_nil]
      rw [if_neg (by omega)]
  | succ n ih =>
      simp only [frameLoop]
      by_cases hc : start + WINDOW_SIZE ≤ pcm.length
      · rw [if_pos hc, if_pos hc, List.length_cons,
          ih (start + HOP_SIZE) (by simp only [WINDOW_SIZE, HOP_SIZE] at h ⊢; omega)]
        simp only [WINDOW_SIZE, HOP_SIZE] at hc ⊢
        split
        · omega
        · omega
      · rw [if_neg hc, if_neg hc]
        rfl

/-- The number of frames of a buffer of `N` samples. -/
theorem length_framePeaks (peakPick : List Int → List Int) (pcm : List Int) :
    (framePeaks peakPick pcm).length
      = if pcm.length < 2048 then 0 else (pcm.length - 2048) / 1024 + 1 := by
  unfold framePeaks
  rw [List.length_map, length_frameLoop pcm pcm.length 0
    (by simp only [WINDOW_SIZE, HOP_SIZE]; omega)]
  simp only [WINDOW_SIZE, HOP_SIZE]
  split <;> split <;> omega

theorem getD_map_length (frames : List (List Int)) (peakPick : List Int → List Int)
    (hfive : ∀ frame, (peakPick frame).length = 5) (t : Nat) (ht : t < frames.length) :
    ((frames.map peakPick).getD t []).length = 5 := by
  rw [List.getD_eq_getElem?_getD, List.getElem?_map, List.getElem?_eq_getElem ht]
  exact hfive _

theorem sum_const_five (l : List Nat) (f : Nat → Nat) (h : ∀ x ∈ l, f x = 5) :
    (l.map f).sum = 5 * l.length := by
  induction l with
  | nil => rfl
  | cons x rest ih =>
      rw [List.map_cons, List.sum_cons, h x (List.mem_cons_self _ _),
        ih fun y hy => h y (List.mem_cons_of_mem _ hy), List.length_cons]
      ring

theorem targetFrames_succ (totalFrames a : Nat) (h : a + 1 < totalFrames) :
    ∃ rest, targetFrames totalFrames a = (a + 1) :: rest := by
  unfold targetFrames
  simp only [TARGET_DT_MIN, TARGET_DT_MAX]
  obtain ⟨k, hk⟩ : ∃ k, min (a + 20) (totalFrames - 1) + 1 - (a + 1) = k + 1 :=
    ⟨min (a + 20) (totalFrames - 1) - (a + 1), by omega⟩
  rw [hk]
  exact ⟨_, List.range'_succ _ _ _⟩

theorem targetFrames_last (totalFrames a : Nat) (h : totalFrames ≤ a + 1) :
    targetFrames totalFrames a = [] := by
  unfold targetFrames
  simp only [TARGET_DT_MIN, TARGET_DT_MAX]
  rw [show min (a + 20) (totalFrames - 1) + 1 - (a + 1) = 0 by omega]
  rfl

/-- With five peaks in every frame, an anchor frame that has a successor emits exactly the
pairs of its first peak with the five peaks of the next frame. -/
theorem anchorStep_five (sr : Int) (peaksInFrame : List (List Int))
    (hfive : ∀ t, t < peaksInFrame.length → (peaksInFrame.getD t []).length = 5)
    (a : Nat) (ha : a + 1 < peaksInFrame.length) :
    anchorStep sr peaksInFrame [] a
      = (peaksInFrame.getD (a + 1) []).map fun f2 =>
          (hashPair (bandCode ((peaksInFrame.getD a []).headD 0) sr) (bandCode f2 sr) 1,
           offsetMs a sr) := by
  rw [anchorStep_eq, List.nil_append]
  obtain ⟨rest, hrest⟩ := targetFrames_succ peaksInFrame.length a ha
  have hA := hfive a (by omega)
  have hT := hfive (a + 1) ha
  obtain ⟨f1, A', hAeq⟩ : ∃ f1 A', peaksInFrame.getD a [] = f1 :: A' := by
    cases hc : peaksInFrame.getD a [] with
    | nil => rw [hc] at hA; cases hA
    | cons f1 A' => exact ⟨f1, A', rfl⟩
  unfold candidates
  rw [hrest, List.flatMap_cons, hAeq]
  have hcons : candidatesAt sr a (a + 1) (f1 :: A') (peaksInFrame.getD (a + 1) [])
      = ((peaksInFrame.getD (a + 1) []).map fun f2 => emitPair sr a (a + 1) f1 f2)
        ++ candidatesAt sr a (a + 1) A' (peaksInFrame.getD (a + 1) []) := by
    simp [candidatesAt, List.flatMap_cons]
  rw [hcons, List.append_assoc, List.take_append_eq_append_take, List.length_map, hT]
  have h5 : FANOUT = 5 := rfl
  rw [h5, List.take_of_length_le (by rw [List.length_map, hT]), Nat.sub_self, List.take_zero,
    List.append_nil]
  apply List.map_congr_left
  intro f2 _
  simp only [emitPair, List.headD_cons, Nat.cast_add, Nat.cast_one, add_sub_cancel_left]

theorem anchorStep_last (sr : Int) (peaksInFrame : List (List Int)) (a : Nat)
    (ha : peaksInFrame.length ≤ a + 1) : anchorStep sr peaksInFrame [] a = [] := by
  rw [anchorStep_eq, List.nil_append]
  unfold candidates
  rw [targetFrames_last _ a ha]
  rfl

theorem sum_all_but_last (n : Nat) (f : Nat → Nat)
    (h5 : ∀ a, a + 1 < n → f a = 5) (h0 : ∀ a, n ≤ a + 1 → f a = 0) :
    ((List.range n).map f).sum = 5 * (n - 1) := by
  cases n with
  | zero => rfl
  | succ k =>
      rw [List.range_succ, List.map_append, List.sum_append, List.map_singleton,
        List.sum_singleton, h0 k (le_refl _),
        sum_const_five (List.range k) f fun a ha => h5 a (by have := List.mem_range.1 ha; omega),
        List.length_range]
      omega

/-- The size of the output of the pairing stage when every frame has five peaks. -/
theorem length_pairing_five (sr : Int) (peaksInFrame : List (List Int))
    (hfive : ∀ t, t < peaksInFrame.length → (peaksInFrame.getD t []).length = 5) :
    (pairing sr peaksInFrame).length = 5 * (peaksInFrame.length - 1) := by
  rw [pairing_eq, List.length_flatMap]
  apply sum_all_but_last
  · intro a ha
    have := anchorStep_five sr peaksInFrame hfive a ha
    rw [anchorStep_eq, List.nil_append] at this
    simp only [Function.comp, this, List.length_map]
    exact hfive (a + 1) ha
  · intro a ha
    have := anchorStep_last sr peaksInFrame a ha
    rw [anchorStep_eq, List.nil_append] at this
    simp only [Function.comp, this, List.length_nil]

theorem framePeaks_five (peakPick : List Int → List Int)
    (hfive : ∀ frame, (peakPick frame).length = 5) (pcm : List Int) (t : Nat)
    (ht : t < (framePeaks peakPick pcm).length) :
    ((framePeaks peakPick pcm).getD t []).length = 5 := by
  unfold framePeaks at ht ⊢
  rw [List.length_map] at ht
  exact getD_map_length _ peakPick hfive t ht

theorem length_peakPickOf {P : Type} [Inhabited P] (spectrum : List Int → List P)
    (nthElement : Nat → List (P × Int) → List (P × Int))
    (hperm : ∀ n l, (nthElement n l).Perm l) (frame : List Int) :
    (peakPickOf spectrum nthElement frame).length = 5 := by
  unfold peakPickOf selectPeaks
  simp only [List.length_map, List.length_take, (hperm _ _).length_eq, length_binsOf]
  rfl

theorem mem_peakPickOf {P : Type} [Inhabited P] (spectrum : List Int → List P)
    (nthElement : Nat → List (P × Int) → List (P × Int))
    (hperm : ∀ n l, (nthElement n l).Perm l) (frame : List Int) (k : Int)
    (hk : k ∈ peakPickOf spectrum nthElement frame) : 5 ≤ k ∧ k < 1024 := by
  unfold peakPickOf selectPeaks at hk
  obtain ⟨x, hx, rfl⟩ := List.mem_map.1 hk
  have hx' := (hperm _ _).mem_iff.1 (List.mem_of_mem_take hx)
  exact ((mem_binsOf _ x).1 hx').1

theorem freqToBand_range (bin fftSize sr : Int) :
    0 ≤ freqToBand bin fftSize sr ∧ freqToBand bin fftSize sr ≤ 6 := by
  unfold freqToBand
  split_ifs <;> omega

theorem bandCode_range (f sr : Int) (hf : 0 ≤ f) :
    0 ≤ bandCode f sr ∧ bandCode f sr ≤ 895 := by
  unfold bandCode
  have hb := freqToBand_range f WINDOW_SIZE sr
  have h1 : 0 ≤ Int.tmod f 128 := Int.tmod_nonneg _ hf
  have h2 : Int.tmod f 128 < 128 := Int.tmod_lt_of_pos _ (by decide)
  omega

/-- The hash of two band codes at frame distance 1 carries 1 in its low 12 bits. -/
theorem decode_distance_one (f1 f2 sr : Int) (h1 : 0 ≤ f1) (h2 : 0 ≤ f2) :
    (decodeHash (hashPair (bandCode f1 sr) (bandCode f2 sr) 1)).2.2 = 1 := by
  have b1 := bandCode_range f1 sr h1
  have b2 := bandCode_range f2 sr h2
  rw [hashPair_clamped _ _ 1 b1.1 b2.1 (by decide),
    decodeHash_sum _ _ _ (by omega) (by omega) (by decide)]
  rfl

theorem mem_getD_map (frames : List (List Int)) (peakPick : List Int → List Int) (t : Nat)
    (k : Int) (hk : k ∈ (frames.map peakPick).getD t []) : ∃ frame, k ∈ peakPick frame := by
  rw [List.getD_eq_getElem?_getD, List.getElem?_map] at hk
  cases hg : frames[t]? with
  | none => rw [hg] at hk; cases hk
  | some frame => rw [hg] at hk; exact ⟨frame, hk⟩

end Fingerprint

/-- C19. Exact output size of `compute`: with the peak picker keeping five bins of every
frame (any `nth_element` that rearranges `bins`), a buffer of `N` samples yields no pair when
`N < 2048` and exactly `5 * ((N - 2048) / 1024)` pairs otherwise, whatever the samples and
the rate; in particular nothing for `N < 3072`. -/
theorem compute_output_size {P : Type} [Inhabited P] (spectrum : List Int → List P)
    (nthElement : Nat → List (P × Int) → List (P × Int))
    (hperm : ∀ n l, (nthElement n l).Perm l) (pcm : List Int) (sr : Int) (_hsr : 0 < sr) :
    (compute (peakPickOf spectrum nthElement) pcm sr).length
        = (if pcm.length < 2048 then 0 else 5 * ((pcm.length - 2048) / 1024))
    ∧ (pcm.length < 3072 → compute (peakPickOf spectrum nthElement) pcm sr = []) := by
  have hlen : (compute (peakPickOf spectrum nthElement) pcm sr).length
      = (if pcm.length < 2048 then 0 else 5 * ((pcm.length - 2048) / 1024)) := by
    rw [compute_eq_pairing, length_pairing_five sr _
      (framePeaks_five _ (length_peakPickOf spectrum nthElement hperm) pcm),
      length_framePeaks]
    split <;> omega
  refine ⟨hlen, ?_⟩
  intro hshort
  apply List.length_eq_zero.1
  rw [hlen]
  split <;> omega

/-- Witness of C19: the 176400 samples of Scenario A give 850 pairs. -/
theorem compute_output_size_witness :
    (compute (peakPickOf (fun _ => ([] : List Nat)) (fun _ l => l)) (silence 176400)
      44100).length = 850 :=
  ((compute_output_size (fun _ => ([] : List Nat)) (fun _ l => l)
      (fun _ _ => List.Perm.refl _) (silence 176400) 44100 (by decide)).1).trans
    (by rw [show (silence 176400).length = 176400 from List.length_replicate _ _]; decide)

/-- The anchor loop without its last round, which emits nothing. -/
theorem compute_eq_anchors (peakPick : List Int → List Int) (pcm : List Int) (sr : Int) :
    compute peakPick pcm sr
      = (List.range ((pcm.length - 2048) / 1024)).flatMap
          (fun a => anchorStep sr (framePeaks peakPick pcm) [] a) := by
  have hcomp : compute peakPick pcm sr
      = (List.range (framePeaks peakPick pcm).length).flatMap
          (fun a => anchorStep sr (framePeaks peakPick pcm) [] a) := by
    rw [compute_eq_pairing, pairing_eq]
    congr 1
    funext a
    rw [anchorStep_eq, List.nil_append]
  have hlen := length_framePeaks peakPick pcm
  rw [hcomp]
  by_cases hN : pcm.length < 2048
  · rw [if_pos hN] at hlen
    rw [hlen, show (pcm.length - 2048) / 1024 = 0 by omega]
  · rw [if_neg hN] at hlen
    rw [hlen, List.range_succ, List.flatMap_append, List.flatMap_singleton,
      anchorStep_last sr _ _ (by rw [hlen]), List.append_nil]

/-- C20. Only adjacent-frame pairs of the first anchor peak: a buffer of `N` samples has
`(N - 2048) / 1024 + 1` frames (none for `N < 2048`), each with five peaks, and with
`FANOUT = 5` the output of `compute` is what the anchor frames `a < (N - 2048) / 1024` emit
in order.  Every anchor frame with a successor, `(a + 1) * 1024 + 2048 ≤ N`, emits exactly
the five pairs `hashPair(code(A[0]), code(T[j]), 1)` at `offsetMs a` for the five peaks
`T[j]` of frame `a + 1`; the last frame emits nothing; the output has
`5 * ((N - 2048) / 1024)` pairs, and every emitted hash carries frame distance 1 in its low
12 bits. -/
theorem adjacent_first_peak_pairs {P : Type} [Inhabited P] (spectrum : List Int → List P)
    (nthElement : Nat → List (P × Int) → List (P × Int))
    (hperm : ∀ n l, (nthElement n l).Perm l) (pcm : List Int) (sr : Int) (_hsr : 0 < sr) :
    (framePeaks (peakPickOf spectrum nthElement) pcm).length
        = (if pcm.length < 2048 then 0 else (pcm.length - 2048) / 1024 + 1)
    ∧ compute (peakPickOf spectrum nthElement) pcm sr
        = (List.range ((pcm.length - 2048) / 1024)).flatMap
            (fun a => anchorStep sr (framePeaks (peakPickOf spectrum nthElement) pcm) [] a)
    ∧ (∀ a, (a + 1) * 1024 + 2048 ≤ pcm.length →
        ((framePeaks (peakPickOf spectrum nthElement) pcm).getD a []).length = 5
        ∧ ((framePeaks (peakPickOf spectrum nthElement) pcm).getD (a + 1) []).length = 5
        ∧ anchorStep sr (framePeaks (peakPickOf spectrum nthElement) pcm) [] a
          = ((framePeaks (peakPickOf spectrum nthElement) pcm).getD (a + 1) []).map (fun f2 =>
              (hashPair
                (bandCode
                  (((framePeaks (peakPickOf spectrum nthElement) pcm).getD a []).headD 0) sr)
                (bandCode f2 sr) 1,
               offsetMs a sr))
        ∧ (anchorStep sr (framePeaks (peakPickOf spectrum nthElement) pcm) [] a).length = 5)
    ∧ (∀ a, pcm.length < (a + 1) * 1024 + 2048 →
        anchorStep sr (framePeaks (peakPickOf spectrum nthElement) pcm) [] a = [])
    ∧ (compute (peakPickOf spectrum nthElement) pcm sr).length
        = 5 * ((pcm.length - 2048) / 1024)
    ∧ ∀ e ∈ compute (peakPickOf spectrum nthElement) pcm sr, (decodeHash e.1).2.2 = 1 := by
  have hfive := framePeaks_five _ (length_peakPickOf spectrum nthElement hperm) pcm
  have hlen := length_framePeaks (peakPickOf spectrum nthElement) pcm
  have hsucc : ∀ a, (a + 1) * 1024 + 2048 ≤ pcm.length →
      a + 1 < (framePeaks (peakPickOf spectrum nthElement) pcm).length := by
    intro a ha
    rw [hlen, if_neg (by omega)]
    omega
  have hlast : ∀ a, pcm.length < (a + 1) * 1024 + 2048 →
      (framePeaks (peakPickOf spectrum nthElement) pcm).length ≤ a + 1 := by
    intro a ha
    rw [hlen]
    split <;> omega
  have hcomp := compute_eq_anchors (peakPickOf spectrum nthElement) pcm sr
  refine ⟨hlen, hcomp, ?_, fun a ha => anchorStep_last sr _ a (hlast a ha), ?_, ?_⟩
  · intro a ha
    have hs := hsucc a ha
    have hstep := anchorStep_five sr _ hfive a hs
    refine ⟨hfive a (by omega), hfive (a + 1) hs, hstep, ?_⟩
    rw [hstep, List.length_map]
    exact hfive (a + 1) hs
  · rw [compute_eq_pairing, length_pairing_five sr _ hfive, hlen]
    split <;> omega
  · intro e he
    rw [hcomp, List.mem_flatMap] at he
    obtain ⟨a, haR, hea⟩ := he
    rw [List.mem_range] at haR
    have ha : a + 1 < (framePeaks (peakPickOf spectrum nthElement) pcm).length :=
      hsucc a (by omega)
    rw [anchorStep_five sr _ hfive a ha, List.mem_map] at hea
    obtain ⟨f2, hf2, rfl⟩ := hea
    obtain ⟨fr2, hfr2⟩ := mem_getD_map _ _ _ f2 hf2
    have r2 := mem_peakPickOf spectrum nthElement hperm fr2 f2 hfr2
    have hA := hfive a (by omega)
    have hhead : 0 ≤ ((framePeaks (peakPickOf spectrum nthElement) pcm).getD a []).headD 0 := by
      cases hc : (framePeaks (peakPickOf spectrum nthElement) pcm).getD a [] with
      | nil => rw [hc] at hA; cases hA
      | cons f1 A' =>
          have hmem : f1 ∈ (framePeaks (peakPickOf spectrum nthElement) pcm).getD a [] := by
            rw [hc]; exact List.mem_cons_self _ _
          obtain ⟨fr1, hfr1⟩ := mem_getD_map _ _ _ f1 hmem
          have r1 := mem_peakPickOf spectrum nthElement hperm fr1 f1 hfr1
          simp only [List.headD_cons]
          omega
    exact decode_distance_one _ _ sr hhead (by omega)

/-- Witness of C20: 4096 samples of silence, the peaks being the bins 5..9 of every frame.
There are three frames; frames 0 and 1 emit five pairs each, ten in all. -/
theorem adjacent_first_peak_pairs_witness :
    (framePeaks (peakPickOf (fun _ => ([] : List Nat)) (fun _ l => l)) (silence 4096)).length
        = 3
    ∧ (compute (peakPickOf (fun _ => ([] : List Nat)) (fun _ l => l)) (silence 4096)
        44100).length = 10
    ∧ (anchorStep 44100
        (framePeaks (peakPickOf (fun _ => ([] : List Nat)) (fun _ l => l)) (silence 4096))
        [] 0).length = 5
    ∧ ∀ e ∈ compute (peakPickOf (fun _ => ([] : List Nat)) (fun _ l => l)) (silence 4096) 44100,
        (decodeHash e.1).2.2 = 1 :=
  ⟨((adjacent_first_peak_pairs (fun _ => ([] : List Nat)) (fun _ l => l)
      (fun _ _ => List.Perm.refl _) (silence 4096) 44100 (by decide)).1).trans
      (by rw [show (silence 4096).length = 4096 from List.length_replicate _ _]; decide),
   ((adjacent_first_peak_pairs (fun _ => ([] : List Nat)) (fun _ l => l)
      (fun _ _ => List.Perm.refl _) (silence 4096) 44100 (by decide)).2.2.2.2.1).trans
      (by rw [show (silence 4096).length = 4096 from List.length_replicate _ _]),
   ((adjacent_first_peak_pairs (fun _ => ([] : List Nat)) (fun _ l => l)
      (fun _ _ => List.Perm.refl _) (silence 4096) 44100 (by decide)).2.2.1 0
      (by rw [show (silence 4096).length = 4096 from List.length_replicate _ _]; decide)).2.2.2,
   (adjacent_first_peak_pairs (fun _ => ([] : List Nat)) (fun _ l => l)
      (fun _ _ => List.Perm.refl _) (silence 4096) 44100 (by decide)).2.2.2.2.2⟩

theorem tdiv_two_bounds (L R : Int) :
    min L R ≤ Int.tdiv (L + R) 2 ∧ Int.tdiv (L + R) 2 ≤ max L R := by
  rcases le_or_lt 0 (L + R) with h | h
  · rw [Int.tdiv_eq_ediv h (by decide)]
    omega
  · have e : Int.tdiv (L + R) 2 = -((-(L + R)) / 2) := by
      have := Int.neg_tdiv (-(L + R)) 2
      rw [neg_neg] at this
      rw [this, Int.tdiv_eq_ediv (by omega) (by decide)]
    rw [e]
    omega

theorem toInt16_id (x : Int) (h : -32768 ≤ x ∧ x ≤ 32767) : toInt16 x = x := by
  unfold toInt16
  omega

/-- C17. Stereo downmix of `loadPcm16`: a 2-channel chunk of `n` frames `(L_i, R_i)` of
16-bit samples yields `n` mono samples; sample `i` is `(L_i + R_i) / 2` in 32-bit arithmetic
with truncation toward zero, lies between `min(L_i, R_i)` and `max(L_i, R_i)`, hence in the
`int16` range where the cast changes nothing, and is `L_i / 2` when `R_i = 0`. -/
theorem stereo_downmix (p : List Int) (n : Nat) (hlen : p.length = 2 * n)
    (hp : ∀ x ∈ p, -32768 ≤ x ∧ x ≤ 32767) :
    (loadSamples 2 (4 * n) p).length = n
    ∧ ∀ i, i < n →
        (loadSamples 2 (4 * n) p).getD i 0 = Int.tdiv (p.getD (2 * i) 0 + p.getD (2 * i + 1) 0) 2
        ∧ min (p.getD (2 * i) 0) (p.getD (2 * i + 1) 0) ≤ (loadSamples 2 (4 * n) p).getD i 0
        ∧ (loadSamples 2 (4 * n) p).getD i 0 ≤ max (p.getD (2 * i) 0) (p.getD (2 * i + 1) 0)
        ∧ (-32768 ≤ (loadSamples 2 (4 * n) p).getD i 0
            ∧ (loadSamples 2 (4 * n) p).getD i 0 ≤ 32767)
        ∧ (p.getD (2 * i + 1) 0 = 0 →
            (loadSamples 2 (4 * n) p).getD i 0 = Int.tdiv (p.getD (2 * i) 0) 2) := by
  have hframes : 4 * n / (2 * 2) = n := by omega
  have hdef : loadSamples 2 (4 * n) p
      = (List.range n).map fun i =>
          toInt16 (Int.tdiv (p.getD (2 * i) 0 + p.getD (2 * i + 1) 0) 2) := by
    unfold loadSamples
    simp only [hframes]
    rfl
  have hrange : ∀ j, j < p.length → -32768 ≤ p.getD j 0 ∧ p.getD j 0 ≤ 32767 := by
    intro j hj
    rw [List.getD_eq_getElem _ _ hj]
    exact hp _ (List.getElem_mem _)
  refine ⟨by rw [hdef, List.length_map, List.length_range], ?_⟩
  intro i hi
  have hL := hrange (2 * i) (by omega)
  have hR := hrange (2 * i + 1) (by omega)
  have hb := tdiv_two_bounds (p.getD (2 * i) 0) (p.getD (2 * i + 1) 0)
  have hget : (loadSamples 2 (4 * n) p).getD i 0
      = Int.tdiv (p.getD (2 * i) 0 + p.getD (2 * i + 1) 0) 2 := by
    rw [hdef, List.getD_eq_getElem _ _ (by rw [List.length_map, List.length_range]; exact hi),
      List.getElem_map, List.getElem_range]
    exact toInt16_id _ (by omega)
  rw [hget]
  refine ⟨rfl, hb.1, hb.2, by omega, ?_⟩
  intro h0
  rw [h0, add_zero]

/-- Witness of C17: two frames, the right channel silent in the second (Scenario D). -/
theorem stereo_downmix_witness :
    (loadSamples 2 8 [100, -7, 32767, 0]).length = 2
    ∧ (loadSamples 2 8 [100, -7, 32767, 0]).getD 1 0 = Int.tdiv 32767 2 :=
  ⟨(stereo_downmix [100, -7, 32767, 0] 2 rfl (by decide)).1,
   ((stereo_downmix [100, -7, 32767, 0] 2 rfl (by decide)).2 1 (by decide)).2.2.2.2 rfl⟩

namespace Fingerprint

theorem fl_int (fl : ℚ → ℚ) (hfl : DoubleRounding fl) (m : Int) (hm : |m| ≤ 2 ^ 53) :
    fl (m : ℚ) = (m : ℚ) := by
  have := hfl.2 m 0 hm (by decide)
  simpa using this

theorem truncToInt_of_floor (y : ℚ) (n : Int) (h0 : 0 ≤ n) (hlo : (n : ℚ) ≤ y)
    (hhi : y < (n : ℚ) + 1) (hfit : n ≤ 2147483647) : truncToInt y = some n := by
  have hy0 : (0 : ℚ) ≤ y := le_trans (by exact_mod_cast h0) hlo
  have hnum : 0 ≤ y.num := Rat.num_nonneg.2 hy0
  have hfloor : ⌊y⌋ = n := Int.floor_eq_iff.2 ⟨hlo, hhi⟩
  have ht : Int.tdiv y.num y.den = n := by
    rw [Int.tdiv_eq_ediv hnum (by exact_mod_cast Nat.zero_le _), ← Rat.floor_def, hfloor]
  unfold truncToInt
  simp only [ht]
  rw [if_pos ⟨by omega, hfit⟩]

/-- Rounding the quotient of an integer below `2^41` by an `int` rate does not reach the
next integer. -/
theorem fl_div_bounds (fl : ℚ → ℚ) (hfl : DoubleRounding fl) (X sr : Int) (hX0 : 0 ≤ X)
    (hX : X < 2 ^ 41) (hsr : 0 < sr) (hsr32 : sr ≤ 2147483647) :
    ((X / sr : Int) : ℚ) ≤ fl ((X : ℚ) / (sr : ℚ))
    ∧ fl ((X : ℚ) / (sr : ℚ)) < ((X / sr : Int) : ℚ) + 1 := by
  have hsrQ : (0 : ℚ) < (sr : ℚ) := by exact_mod_cast hsr
  have hn0 : 0 ≤ X / sr := Int.ediv_nonneg hX0 (le_of_lt hsr)
  have hmul : X / sr * sr ≤ X := Int.ediv_mul_le X (ne_of_gt hsr)
  have hlt : X < (X / sr + 1) * sr := by
    have := Int.lt_ediv_add_one_mul_self X hsr
    linarith
  have hnle : X / sr ≤ X := by nlinarith
  constructor
  · have hq : ((X / sr : Int) : ℚ) ≤ (X : ℚ) / (sr : ℚ) := by
      rw [le_div_iff₀ hsrQ]
      exact_mod_cast hmul
    have := hfl.1 _ _ hq
    rwa [fl_int fl hfl (X / sr) (by rw [abs_of_nonneg hn0]; omega)] at this
  · -- a double between the quotient and the next integer
    obtain ⟨k, hk1, hk2, hk3⟩ : ∃ k : Nat, sr ≤ 2 ^ k ∧ (2 : Int) ^ k ≤ 2 * sr ∧ k ≤ 32 := by
      refine ⟨Nat.log 2 sr.toNat + 1, ?_, ?_, ?_⟩
      · have := Nat.lt_pow_succ_log_self (by decide : 1 < 2) sr.toNat
        have h2 : ((sr.toNat : Nat) : Int) < ((2 ^ (Nat.log 2 sr.toNat).succ : Nat) : Int) := by
          exact_mod_cast this
        rw [Int.toNat_of_nonneg (le_of_lt hsr)] at h2
        push_cast at h2
        exact le_of_lt h2
      · have := Nat.pow_log_le_self 2 (x := sr.toNat) (by omega)
        have h2 : ((2 ^ Nat.log 2 sr.toNat : Nat) : Int) ≤ ((sr.toNat : Nat) : Int) := by
          exact_mod_cast this
        rw [Int.toNat_of_nonneg (le_of_lt hsr)] at h2
        push_cast at h2
        rw [pow_succ]
        linarith
      · have h1 : Nat.log 2 sr.toNat < 31 := by
          apply Nat.log_lt_of_lt_pow (by omega)
          omega
        omega
    have hpk : (0 : ℚ) < (2 : ℚ) ^ k := by positivity
    have hm : |(X / sr + 1) * 2 ^ k - 1| ≤ 2 ^ 53 := by
      have hpos : (1 : Int) ≤ 2 ^ k := one_le_pow₀ (by decide)
      have h1 : (0 : Int) ≤ (X / sr + 1) * 2 ^ k - 1 := by nlinarith
      rw [abs_of_nonneg h1]
      have h2 : (X / sr + 1) * 2 ^ k ≤ (X / sr + 1) * (2 * sr) :=
        mul_le_mul_of_nonneg_left hk2 (by omega)
      nlinarith
    have hr := hfl.2 ((X / sr + 1) * 2 ^ k - 1) k hm (by omega)
    have hqr : (X : ℚ) / (sr : ℚ) ≤ (((X / sr + 1) * 2 ^ k - 1 : Int) : ℚ) / 2 ^ k := by
      rw [div_le_iff₀ hsrQ, div_mul_eq_mul_div, le_div_iff₀ hpk]
      have h1 : X + 1 ≤ (X / sr + 1) * sr := by omega
      have h2 : (X + 1) * 2 ^ k ≤ (X / sr + 1) * sr * 2 ^ k :=
        mul_le_mul_of_nonneg_right h1 (by positivity)
      have h3 : sr ≤ 2 ^ k := hk1
      have h4 : X * 2 ^ k ≤ ((X / sr + 1) * 2 ^ k - 1) * sr := by nlinarith
      exact_mod_cast h4
    have hmono := hfl.1 _ _ hqr
    rw [hr] at hmono
    refine lt_of_le_of_lt hmono ?_
    rw [div_lt_iff₀ hpk]
    push_cast
    linarith

end Fingerprint

theorem offsetMs_eq_ediv (a : Nat) (sr : Int) (hsr : 0 < sr)
    (hfit : ((a : Int) * 1024 * 1000) / sr ≤ 2147483647) :
    offsetMs a sr = ((a : Int) * 1024 * 1000) / sr := by
  have hX0 : (0 : Int) ≤ (a : Int) * 1024 * 1000 := by positivity
  have hq : Int.tdiv ((a : Int) * 1024 * 1000) sr = ((a : Int) * 1024 * 1000) / sr := by
    rw [Int.tdiv_eq_ediv hX0 (le_of_lt hsr)]
  have h0 : 0 ≤ ((a : Int) * 1024 * 1000) / sr := Int.ediv_nonneg hX0 (le_of_lt hsr)
  rw [offsetMs_of_fit a sr (by omega) (by rw [hq]; omega) (by rw [hq]; exact hfit), hq]

/-- Counterexample to C16 as stated: frame `a = 2098` at `sr = 1`.  `a * 1024` is an `int`,
but `floor(a * 1024 * 1000 / sr) = 2148352000` is not, so no `int` offset equals it: for
every rounding to `double` the conversion `int(...)` is outside its defined range. -/
theorem anchor_offset_counterexample :
    (2098 * 1024 : Int) ≤ 2147483647
    ∧ ((2098 : Int) * 1024 * 1000) / 1 = 2148352000
    ∧ (2147483647 : Int) < 2148352000
    ∧ ∀ fl : ℚ → ℚ, DoubleRounding fl → offsetMsDouble fl 2098 1 = none := by
  refine ⟨by decide, by decide, by decide, ?_⟩
  intro fl hfl
  have h1 : fl ((2148352000 : Int) : ℚ) = ((2148352000 : Int) : ℚ) :=
    fl_int fl hfl 2148352000 (by decide)
  have hx : (((2098 * HOP_SIZE : Nat) : ℚ) * 1000) = ((2148352000 : Int) : ℚ) := by
    simp only [HOP_SIZE]
    norm_num
  unfold offsetMsDouble
  rw [hx, h1]
  have hd : (((2148352000 : Int) : ℚ) / ((1 : Int) : ℚ)) = ((2148352000 : Int) : ℚ) := by
    norm_num
  rw [hd, h1]
  unfold truncToInt
  simp only [Rat.num_intCast, Rat.den_intCast]
  decide

/-- C16, amended. Anchor offset: for every `int` rate `sr > 0` and frame `a` with `a * 1024`
an `int`, provided `floor(a * 1024 * 1000 / sr)` is itself an `int` (always so when
`sr ≥ 1000`), the offset computed in `double` arithmetic and truncated is exactly that
floor, for every rounding with the two properties of `DoubleRounding`; it is `offsetMs a sr`,
it is non-negative, and it does not decrease with `a`. -/
theorem anchor_offset_floor (fl : ℚ → ℚ) (hfl : DoubleRounding fl) (a : Nat) (sr : Int)
    (hsr : 0 < sr) (hsr32 : sr ≤ 2147483647) (ha : a * 1024 ≤ 2147483647)
    (hfit : ((a : Int) * 1024 * 1000) / sr ≤ 2147483647) :
    offsetMsDouble fl a sr = some (((a : Int) * 1024 * 1000) / sr)
    ∧ offsetMs a sr = ((a : Int) * 1024 * 1000) / sr
    ∧ 0 ≤ offsetMs a sr
    ∧ (∀ b : Nat, b ≤ a → offsetMs b sr ≤ offsetMs a sr)
    ∧ (1000 ≤ sr → ∀ b : Nat, b * 1024 ≤ 2147483647 →
        ((b : Int) * 1024 * 1000) / sr ≤ 2147483647) := by
  have hX0 : (0 : Int) ≤ (a : Int) * 1024 * 1000 := by positivity
  have hX : (a : Int) * 1024 * 1000 < 2 ^ 41 := by
    have : ((a * 1024 : Nat) : Int) ≤ 2147483647 := by exact_mod_cast ha
    push_cast at this
    norm_num
    omega
  have hb := fl_div_bounds fl hfl ((a : Int) * 1024 * 1000) sr hX0 hX hsr hsr32
  have hprod : fl (((a * HOP_SIZE : Nat) : ℚ) * 1000)
      = (((a : Int) * 1024 * 1000 : Int) : ℚ) := by
    have := fl_int fl hfl ((a : Int) * 1024 * 1000) (by rw [abs_of_nonneg hX0]; omega)
    simp only [HOP_SIZE]
    push_cast at this ⊢
    exact this
  refine ⟨?_, offsetMs_eq_ediv a sr hsr hfit, ?_, ?_, ?_⟩
  · unfold offsetMsDouble
    rw [hprod]
    exact truncToInt_of_floor _ _ (Int.ediv_nonneg hX0 (le_of_lt hsr)) hb.1 hb.2 hfit
  · rw [offsetMs_eq_ediv a sr hsr hfit]
    exact Int.ediv_nonneg hX0 (le_of_lt hsr)
  · intro b hba
    have hmono : ((b : Int) * 1024 * 1000) / sr ≤ ((a : Int) * 1024 * 1000) / sr := by
      apply Int.ediv_le_ediv hsr
      have : (b : Int) ≤ a := by exact_mod_cast hba
      omega
    rw [offsetMs_eq_ediv a sr hsr hfit, offsetMs_eq_ediv b sr hsr (le_trans hmono hfit)]
    exact hmono
  · intro h1000 b hb32
    have hbI : ((b * 1024 : Nat) : Int) ≤ 2147483647 := by exact_mod_cast hb32
    push_cast at hbI
    have h1 : ((b : Int) * 1024 * 1000) / sr ≤ (b : Int) * 1024 := by
      apply Int.ediv_le_of_le_mul hsr
      have hb0 : (0 : Int) ≤ (b : Int) * 1024 := by omega
      nlinarith
    omega

/-- Witness of C16 amended: frame 1 at 44100 Hz starts at millisecond 23. -/
theorem anchor_offset_floor_witness :
    offsetMsDouble id 1 44100 = some 23 ∧ offsetMs 1 44100 = 23 :=
  ⟨(anchor_offset_floor id ⟨fun _ _ h => h, fun _ _ _ _ => rfl⟩ 1 44100 (by decide) (by decide)
      (by decide) (by decide)).1,
   (anchor_offset_floor id ⟨fun _ _ h => h, fun _ _ _ _ => rfl⟩ 1 44100 (by decide) (by decide)
      (by decide) (by decide)).2.1⟩

/-! ## The radix-2 transform -/

namespace miniFFT

theorem xor_two_pow_of_lt (r k : Nat) (h : r < 2 ^ k) : r ^^^ 2 ^ k = r + 2 ^ k := by
  have hor : 2 ^ k * 1 + r = 2 ^ k * 1 ||| r := Nat.mul_add_lt_is_or h 1
  rw [Nat.mul_one] at hor
  rw [Nat.add_comm, hor]
  apply Nat.eq_of_testBit_eq
  intro i
  rw [Nat.testBit_xor, Nat.testBit_or, Nat.testBit_two_pow]
  by_cases hi : k = i
  · subst hi
    rw [Nat.testBit_lt_two_pow h]
    simp
  · simp [hi]

theorem xor_two_pow_of_ge (r k : Nat) (h : r < 2 ^ k) : (2 ^ k + r) ^^^ 2 ^ k = r := by
  rw [Nat.add_comm, ← xor_two_pow_of_lt r k h, Nat.xor_assoc, Nat.xor_self, Nat.xor_zero]

theorem and_two_pow_of_lt (r k : Nat) (h : r < 2 ^ k) : r &&& 2 ^ k = 0 := by
  apply Nat.eq_of_testBit_eq
  intro i
  rw [Nat.testBit_and, Nat.testBit_two_pow, Nat.zero_testBit]
  by_cases hi : k = i
  · subst hi
    rw [Nat.testBit_lt_two_pow h]
    simp
  · simp [hi]

theorem and_two_pow_of_ge (r k : Nat) (h : r < 2 ^ k) : (2 ^ k + r) &&& 2 ^ k ≠ 0 := by
  intro h0
  have hb : ((2 ^ k + r) &&& 2 ^ k).testBit k = false := by rw [h0, Nat.zero_testBit]
  rw [Nat.testBit_and, Nat.testBit_two_pow, Nat.add_comm, ← xor_two_pow_of_lt r k h,
    Nat.testBit_xor, Nat.testBit_two_pow, Nat.testBit_lt_two_pow h] at hb
  simp at hb

theorem bitRev_lt (m i : Nat) : bitRev m i < 2 ^ m := by
  induction m generalizing i with
  | zero => simp [bitRev]
  | succ m ih =>
      have h1 := ih (i / 2)
      have h2 : i % 2 < 2 := Nat.mod_lt _ (by decide)
      simp only [bitRev, pow_succ]
      nlinarith

/-- Reversal moves the top bit to the bottom. -/
theorem bitRev_top (m b r : Nat) (hb : b < 2) (hr : r < 2 ^ m) :
    bitRev (m + 1) (b * 2 ^ m + r) = 2 * bitRev m r + b := by
  induction m generalizing r with
  | zero =>
      have hr0 : r = 0 := by simpa using hr
      subst hr0
      simp only [bitRev, pow_zero, Nat.mul_one, Nat.add_zero]
      omega
  | succ m ih =>
      have e0 : b * 2 ^ (m + 1) = 2 * (b * 2 ^ m) := by
        rw [pow_succ]
        ring
      have e1 : (b * 2 ^ (m + 1) + r) % 2 = r % 2 := by
        rw [e0]
        omega
      have e2 : (b * 2 ^ (m + 1) + r) / 2 = b * 2 ^ m + r / 2 := by
        rw [e0]
        omega
      have hr2 : r / 2 < 2 ^ m := by
        rw [pow_succ] at hr
        omega
      rw [bitRev, e1, e2, ih (r / 2) hr2]
      simp only [bitRev]
      ring

theorem bitRev_bitRev (m i : Nat) (hi : i < 2 ^ m) : bitRev m (bitRev m i) = i := by
  induction m generalizing i with
  | zero =>
      have : i = 0 := by simpa using hi
      subst this
      rfl
  | succ m ih =>
      have hi2 : i / 2 < 2 ^ m := by
        rw [pow_succ] at hi
        omega
      rw [show bitRev (m + 1) i = (i % 2) * 2 ^ m + bitRev m (i / 2) from rfl,
        bitRev_top m (i % 2) _ (Nat.mod_lt _ (by decide)) (bitRev_lt m _), ih _ hi2]
      omega

/-- The reversed counter: the inner loop and the `j ^= bit` after it turn the reversal of
`i` into the reversal of `i + 1`. -/
theorem carryLoop_spec (m fuel i : Nat) (hfuel : m ≤ fuel) (hi : i + 1 < 2 ^ (m + 1)) :
    (carryLoop fuel (bitRev (m + 1) i) (2 ^ m)).1 ^^^ (carryLoop fuel (bitRev (m + 1) i) (2 ^ m)).2
      = bitRev (m + 1) (i + 1) := by
  induction m generalizing fuel i with
  | zero =>
      have hi0 : i = 0 := by
        simp at hi
        omega
      subst hi0
      cases fuel <;> simp [carryLoop, bitRev]
  | succ m ih =>
      obtain ⟨f, rfl⟩ : ∃ f, fuel = f + 1 := ⟨fuel - 1, by omega⟩
      have hr := bitRev_lt (m + 1) (i / 2)
      rcases Nat.mod_two_eq_zero_or_one i with h0 | h1
      · have hj : bitRev (m + 2) i = bitRev (m + 1) (i / 2) := by
          rw [show bitRev (m + 2) i = (i % 2) * 2 ^ (m + 1) + bitRev (m + 1) (i / 2) from rfl, h0]
          omega
        have hnext : bitRev (m + 2) (i + 1) = 2 ^ (m + 1) + bitRev (m + 1) (i / 2) := by
          rw [show bitRev (m + 2) (i + 1)
            = ((i + 1) % 2) * 2 ^ (m + 1) + bitRev (m + 1) ((i + 1) / 2) from rfl]
          rw [show (i + 1) % 2 = 1 by omega, show (i + 1) / 2 = i / 2 by omega]
          omega
        rw [hj, hnext]
        simp only [carryLoop, and_two_pow_of_lt _ _ hr, ne_eq, not_true_eq_false, if_false]
        rw [xor_two_pow_of_lt _ _ hr]
        omega
      · have hj : bitRev (m + 2) i = 2 ^ (m + 1) + bitRev (m + 1) (i / 2) := by
          rw [show bitRev (m + 2) i = (i % 2) * 2 ^ (m + 1) + bitRev (m + 1) (i / 2) from rfl, h1]
          omega
        have hnext : bitRev (m + 2) (i + 1) = bitRev (m + 1) (i / 2 + 1) := by
          rw [show bitRev (m + 2) (i + 1)
            = ((i + 1) % 2) * 2 ^ (m + 1) + bitRev (m + 1) ((i + 1) / 2) from rfl]
          rw [show (i + 1) % 2 = 0 by omega, show (i + 1) / 2 = i / 2 + 1 by omega]
          omega
        have hshift : 2 ^ (m + 1) >>> 1 = 2 ^ m := by
          rw [Nat.shiftRight_eq_div_pow, pow_succ]
          omega
        rw [hj, hnext]
        simp only [carryLoop, and_two_pow_of_ge _ _ hr, ne_eq, not_false_eq_true, if_true,
          xor_two_pow_of_ge _ _ hr, hshift]
        apply ih f (i / 2) (by omega)
        rw [pow_succ] at hi
        omega

theorem bitRev_zero (m : Nat) : bitRev m 0 = 0 := by
  induction m with
  | zero => rfl
  | succ m ih => simp [bitRev, ih]

theorem bitRev_eq_iff (m i j : Nat) (hi : i < 2 ^ m) (hj : j < 2 ^ m) :
    bitRev m i = j ↔ i = bitRev m j := by
  constructor
  · intro h
    rw [← h, bitRev_bitRev m i hi]
  · intro h
    rw [h, bitRev_bitRev m j hj]

/-- The state of the bit-reversal loop after `c` rounds. -/
theorem reorder_spec {K : Type} (M : Nat) (x : Nat → K) (c : Nat) (hc : c < 2 ^ (M + 1)) :
    (reorder (2 ^ (M + 1)) x c).1 = bitRev (M + 1) c
      ∧ ∀ k, k < 2 ^ (M + 1) → (reorder (2 ^ (M + 1)) x c).2 k
          = if k ≤ c ∨ bitRev (M + 1) k ≤ c then x (bitRev (M + 1) k) else x k := by
  induction c with
  | zero =>
      refine ⟨(bitRev_zero _).symm, ?_⟩
      intro k hk
      show x k = _
      split_ifs with h
      · rcases h with h | h
        · have : k = 0 := by omega
          subst this
          rw [bitRev_zero]
        · have h0 : bitRev (M + 1) k = 0 := by omega
          have : k = 0 := by
            rw [(bitRev_eq_iff (M + 1) k 0 hk (by positivity)).1 h0, bitRev_zero]
          subst this
          rw [bitRev_zero]
      · rfl
  | succ c ih =>
      obtain ⟨ihj, ihb⟩ := ih (by omega)
      have hshift : 2 ^ (M + 1) >>> 1 = 2 ^ M := by
        rw [Nat.shiftRight_eq_div_pow, pow_succ]
        omega
      have hfuel : M ≤ 2 ^ (M + 1) := by
        have := @Nat.lt_two_pow (M + 1)
        omega
      have hj : (reorder (2 ^ (M + 1)) x (c + 1)).1 = bitRev (M + 1) (c + 1) := by
        show (carryLoop _ (reorder (2 ^ (M + 1)) x c).1 (2 ^ (M + 1) >>> 1)).1
          ^^^ (carryLoop _ (reorder (2 ^ (M + 1)) x c).1 (2 ^ (M + 1) >>> 1)).2 = _
        rw [ihj, hshift]
        exact carryLoop_spec M _ c hfuel hc
      refine ⟨hj, ?_⟩
      intro k hk
      have hb : (reorder (2 ^ (M + 1)) x (c + 1)).2
          = if c + 1 < (reorder (2 ^ (M + 1)) x (c + 1)).1
            then swapAt (reorder (2 ^ (M + 1)) x c).2 (c + 1)
              (reorder (2 ^ (M + 1)) x (c + 1)).1
            else (reorder (2 ^ (M + 1)) x c).2 := rfl
      rw [hb, hj]
      have hjlt := bitRev_lt (M + 1) (c + 1)
      have hrr := bitRev_bitRev (M + 1) (c + 1) hc
      have hrk := bitRev_bitRev (M + 1) k hk
      have hklt := bitRev_lt (M + 1) k
      have hkey : bitRev (M + 1) k = c + 1 ↔ k = bitRev (M + 1) (c + 1) :=
        bitRev_eq_iff (M + 1) k (c + 1) hk hc
      by_cases hij : c + 1 < bitRev (M + 1) (c + 1)
      · rw [if_pos hij]
        unfold swapAt
        by_cases h1 : k = c + 1
        · subst h1
          rw [if_pos rfl, ihb _ hjlt, hrr, if_neg (by omega), if_pos (by omega)]
        · rw [if_neg h1]
          by_cases h2 : k = bitRev (M + 1) (c + 1)
          · subst h2
            rw [if_pos rfl, ihb _ hc, if_neg (by omega), hrr, if_pos (by omega)]
          · rw [if_neg h2, ihb k hk]
            have h3 : bitRev (M + 1) k ≠ c + 1 := fun h => h2 (hkey.1 h)
            by_cases h4 : k ≤ c ∨ bitRev (M + 1) k ≤ c
            · rw [if_pos h4, if_pos (by omega)]
            · rw [if_neg h4, if_neg (by omega)]
      · rw [if_neg hij, ihb k hk]
        by_cases h4 : k ≤ c ∨ bitRev (M + 1) k ≤ c
        · rw [if_pos h4, if_pos (by omega)]
        · rw [if_neg h4]
          by_cases h5 : k ≤ c + 1 ∨ bitRev (M + 1) k ≤ c + 1
          · rw [if_pos h5]
            have hfix : bitRev (M + 1) k = k := by
              rcases h5 with h5 | h5
              · have hk1 : k = c + 1 := by omega
                subst hk1
                omega
              · have hk1 : bitRev (M + 1) k = c + 1 := by omega
                have hk2 := hkey.1 hk1
                have hk3 : k ≤ c + 1 := by omega
                have hk4 : k = c + 1 := by omega
                omega
            rw [hfix]
          · rw [if_neg h5]

/-- The bit-reversal loop leaves element `bitRev k` at position `k`. -/
theorem reorder_final {K : Type} (M : Nat) (x : Nat → K) (k : Nat) (hk : k < 2 ^ (M + 1)) :
    (reorder (2 ^ (M + 1)) x (2 ^ (M + 1) - 1)).2 k = x (bitRev (M + 1) k) := by
  have hpos : 0 < 2 ^ (M + 1) := by positivity
  rw [(reorder_spec M x (2 ^ (M + 1) - 1) (by omega)).2 k hk, if_pos (by omega)]

/-- The state of the butterfly loop after `c ≤ half` rounds. -/
theorem butterflies_spec {K : Type} [Ring K] (wlen : K) (i half : Nat) (a : Nat → K)
    (c : Nat) (hc : c ≤ half) :
    (butterflies wlen i half a c).1 = wlen ^ c
      ∧ ∀ p, (butterflies wlen i half a c).2 p
          = if i ≤ p ∧ p < i + c then a p + a (p + half) * wlen ^ (p - i)
            else if i + half ≤ p ∧ p < i + half + c
              then a (p - half) - a p * wlen ^ (p - half - i)
            else a p := by
  induction c with
  | zero =>
      refine ⟨(pow_zero _).symm, ?_⟩
      intro p
      show a p = _
      rw [if_neg (by omega), if_neg (by omega)]
  | succ c ih =>
      obtain ⟨ihw, ihb⟩ := ih (by omega)
      refine ⟨?_, ?_⟩
      · show (butterflies wlen i half a c).1 * wlen = _
        rw [ihw, pow_succ]
      · intro p
        have hstep : (butterflies wlen i half a (c + 1)).2
            = Function.update (Function.update (butterflies wlen i half a c).2 (i + c)
                ((butterflies wlen i half a c).2 (i + c)
                  + (butterflies wlen i half a c).2 (i + c + half)
                    * (butterflies wlen i half a c).1))
                (i + c + half)
                ((butterflies wlen i half a c).2 (i + c)
                  - (butterflies wlen i half a c).2 (i + c + half)
                    * (butterflies wlen i half a c).1) := rfl
        have hu : (butterflies wlen i half a c).2 (i + c) = a (i + c) := by
          rw [ihb, if_neg (by omega), if_neg (by omega)]
        have hv : (butterflies wlen i half a c).2 (i + c + half) = a (i + c + half) := by
          rw [ihb, if_neg (by omega), if_neg (by omega)]
        rw [hstep, hu, hv, ihw]
        by_cases h1 : p = i + c + half
        · subst h1
          rw [Function.update_same, if_neg (by omega), if_pos (by omega)]
          rw [show i + c + half - half = i + c by omega, show i + c - i = c by omega]
        · rw [Function.update_noteq h1]
          by_cases h2 : p = i + c
          · subst h2
            rw [Function.update_same, if_pos (by omega), show i + c - i = c by omega]
          · rw [Function.update_noteq h2, ihb]
            have h3 : (i ≤ p ∧ p < i + (c + 1)) ↔ (i ≤ p ∧ p < i + c) := by omega
            have h4 : (i + half ≤ p ∧ p < i + half + (c + 1))
                ↔ (i + half ≤ p ∧ p < i + half + c) := by omega
            simp only [h3, h4]

/-- The buffer after the first `c` blocks of a stage of block length `2 * half`. -/
theorem blocks_spec {K : Type} [Ring K] (wlen : K) (half : Nat) (a : Nat → K) (c : Nat) :
    (∀ b k, b < c → k < half →
        blocks wlen (2 * half) a c (b * (2 * half) + k)
            = a (b * (2 * half) + k) + a (b * (2 * half) + k + half) * wlen ^ k
          ∧ blocks wlen (2 * half) a c (b * (2 * half) + k + half)
            = a (b * (2 * half) + k) - a (b * (2 * half) + k + half) * wlen ^ k)
      ∧ ∀ p, c * (2 * half) ≤ p → blocks wlen (2 * half) a c p = a p := by
  induction c with
  | zero =>
      refine ⟨fun b k hb => absurd hb (Nat.not_lt_zero _), fun p _ => rfl⟩
  | succ c ih =>
      obtain ⟨ih1, ih2⟩ := ih
      have hstep : blocks wlen (2 * half) a (c + 1)
          = (butterflies wlen (c * (2 * half)) (2 * half / 2)
              (blocks wlen (2 * half) a c) (2 * half / 2)).2 := rfl
      have hhalf : 2 * half / 2 = half := by omega
      rw [hhalf] at hstep
      have hsp := (butterflies_spec wlen (c * (2 * half)) half (blocks wlen (2 * half) a c)
        half (le_refl _)).2
      have hsucc : (c + 1) * (2 * half) = c * (2 * half) + 2 * half := by ring
      refine ⟨?_, ?_⟩
      · intro b k hb hk
        rw [hstep, hsp, hsp]
        rcases Nat.lt_succ_iff_lt_or_eq.1 hb with hlt | heq
        · have hle : (b + 1) * (2 * half) ≤ c * (2 * half) :=
            Nat.mul_le_mul_right _ hlt
          have hb1 : (b + 1) * (2 * half) = b * (2 * half) + 2 * half := by ring
          rw [if_neg (by omega), if_neg (by omega), if_neg (by omega), if_neg (by omega)]
          exact ih1 b k hlt hk
        · subst heq
          rw [if_pos (by omega), if_neg (by omega), if_pos (by omega)]
          rw [ih2 _ (by omega), ih2 _ (by omega)]
          rw [show b * (2 * half) + k + half - half = b * (2 * half) + k by omega,
            ih2 _ (by omega)]
          rw [show b * (2 * half) + k - b * (2 * half) = k by omega]
          exact ⟨rfl, rfl⟩
      · intro p hp
        rw [hstep, hsp, if_neg (by omega), if_neg (by omega)]
        exact ih2 p (by omega)

theorem sum_range_two_mul {K : Type} [AddCommMonoid K] (f : Nat → K) (N : Nat) :
    ∑ t in Finset.range (2 * N), f t
      = ∑ t in Finset.range N, f (2 * t) + ∑ t in Finset.range N, f (2 * t + 1) := by
  induction N with
  | zero => simp
  | succ N ih =>
      rw [show 2 * (N + 1) = 2 * N + 1 + 1 by ring, Finset.sum_range_succ,
        Finset.sum_range_succ, ih, Finset.sum_range_succ, Finset.sum_range_succ]
      abel

theorem bitRev_even (q b : Nat) : bitRev (q + 1) (2 * b) = bitRev q b := by
  rw [show bitRev (q + 1) (2 * b) = (2 * b % 2) * 2 ^ q + bitRev q (2 * b / 2) from rfl,
    show 2 * b % 2 = 0 by omega, show 2 * b / 2 = b by omega]
  omega

theorem bitRev_odd (q b : Nat) : bitRev (q + 1) (2 * b + 1) = bitRev q b + 2 ^ q := by
  rw [show bitRev (q + 1) (2 * b + 1)
      = ((2 * b + 1) % 2) * 2 ^ q + bitRev q ((2 * b + 1) / 2) from rfl,
    show (2 * b + 1) % 2 = 1 by omega, show (2 * b + 1) / 2 = b by omega]
  omega

theorem pow_upper_half {K : Type} [CommRing K] (ω : K) (s q k t : Nat)
    (hω : ω ^ (2 ^ q * 2 ^ s) = -1) :
    ω ^ (2 ^ q * (k + 2 ^ s) * t) = ω ^ (2 ^ q * k * t) * (-1) ^ t := by
  rw [show 2 ^ q * (k + 2 ^ s) * t = 2 ^ q * k * t + 2 ^ q * 2 ^ s * t by ring, pow_add,
    pow_mul (ω) (2 ^ q * 2 ^ s) t, hω]

/-- One stage of butterflies merges the transforms of two interleaved halves. -/
theorem stage_step {K : Type} [CommRing K] (ω : K) (x : Nat → K) (s q : Nat)
    (hω : ω ^ (2 ^ q * 2 ^ s) = -1) (A : Nat → K)
    (hA : ∀ b k, b < 2 ^ (q + 1) → k < 2 ^ s →
      A (b * 2 ^ s + k)
        = ∑ t in Finset.range (2 ^ s),
            x (bitRev (q + 1) b + t * 2 ^ (q + 1)) * ω ^ (2 ^ (q + 1) * k * t))
    (b k : Nat) (hb : b < 2 ^ q) (hk : k < 2 ^ (s + 1)) :
    blocks (ω ^ 2 ^ q) (2 * 2 ^ s) A (2 ^ q) (b * 2 ^ (s + 1) + k)
      = ∑ t in Finset.range (2 ^ (s + 1)),
          x (bitRev q b + t * 2 ^ q) * ω ^ (2 ^ q * k * t) := by
  have hE : ∀ j, j < 2 ^ s → A (b * (2 * 2 ^ s) + j)
      = ∑ t in Finset.range (2 ^ s),
          x (bitRev q b + (2 * t) * 2 ^ q) * ω ^ (2 ^ q * j * (2 * t)) := by
    intro j hj
    have h := hA (2 * b) j (by rw [pow_succ]; omega) hj
    rw [show 2 * b * 2 ^ s = b * (2 * 2 ^ s) by ring, bitRev_even] at h
    rw [h]
    refine Finset.sum_congr rfl fun t _ => ?_
    rw [show t * 2 ^ (q + 1) = 2 * t * 2 ^ q by ring,
      show 2 ^ (q + 1) * j * t = 2 ^ q * j * (2 * t) by ring]
  have hO : ∀ j, j < 2 ^ s → A (b * (2 * 2 ^ s) + j + 2 ^ s) * (ω ^ 2 ^ q) ^ j
      = ∑ t in Finset.range (2 ^ s),
          x (bitRev q b + (2 * t + 1) * 2 ^ q) * ω ^ (2 ^ q * j * (2 * t + 1)) := by
    intro j hj
    have h := hA (2 * b + 1) j (by rw [pow_succ]; omega) hj
    rw [show (2 * b + 1) * 2 ^ s + j = b * (2 * 2 ^ s) + j + 2 ^ s by ring, bitRev_odd] at h
    rw [h, Finset.sum_mul]
    refine Finset.sum_congr rfl fun t _ => ?_
    rw [show bitRev q b + 2 ^ q + t * 2 ^ (q + 1) = bitRev q b + (2 * t + 1) * 2 ^ q by ring,
      mul_assoc, ← pow_mul, ← pow_add,
      show 2 ^ (q + 1) * j * t + 2 ^ q * j = 2 ^ q * j * (2 * t + 1) by ring]
  have hsp := (blocks_spec (ω ^ 2 ^ q) (2 ^ s) A (2 ^ q)).1 b
  rw [show 2 ^ (s + 1) = 2 * 2 ^ s by ring, sum_range_two_mul]
  by_cases hlow : k < 2 ^ s
  · rw [(hsp k hb hlow).1, hE k hlow, hO k hlow]
  · obtain ⟨j, rfl⟩ : ∃ j, k = j + 2 ^ s := ⟨k - 2 ^ s, by omega⟩
    have hj : j < 2 ^ s := by
      rw [pow_succ] at hk
      omega
    rw [← Nat.add_assoc, (hsp j hb hj).2, hE j hj, hO j hj, sub_eq_add_neg,
      ← Finset.sum_neg_distrib]
    congr 1
    · refine Finset.sum_congr rfl fun t _ => ?_
      have h1 : (-1 : K) ^ (2 * t) = 1 := by rw [pow_mul, neg_one_sq, one_pow]
      rw [pow_upper_half ω s q j (2 * t) hω, h1, mul_one]
    · refine Finset.sum_congr rfl fun t _ => ?_
      have h1 : (-1 : K) ^ (2 * t + 1) = -1 := by
        rw [pow_succ, pow_mul, neg_one_sq, one_pow, one_mul]
      rw [pow_upper_half ω s q j (2 * t + 1) hω, h1]
      ring

/-- The stage loop, started on blocks of length `2 ^ s` that hold the transforms of the
`2 ^ q` interleaved subsequences, ends with the transform of the whole buffer. -/
theorem stages_spec {K : Type} [CommRing K] (wlenOf : Nat → K) (ω : K) (x : Nat → K)
    (M : Nat) (hω : ω ^ 2 ^ M = -1)
    (hw : ∀ s q, s + q = M → wlenOf (2 ^ (s + 1)) = ω ^ 2 ^ q)
    (q s fuel : Nat) (hM : s + q = M + 1) (hfuel : q ≤ fuel) (A : Nat → K)
    (hA : ∀ b k, b < 2 ^ q → k < 2 ^ s →
      A (b * 2 ^ s + k)
        = ∑ t in Finset.range (2 ^ s), x (bitRev q b + t * 2 ^ q) * ω ^ (2 ^ q * k * t))
    (k : Nat) (hk : k < 2 ^ (M + 1)) :
    stages wlenOf (2 ^ (M + 1)) fuel (2 ^ (s + 1)) A k
      = ∑ t in Finset.range (2 ^ (M + 1)), x t * ω ^ (k * t) := by
  induction q generalizing s fuel A with
  | zero =>
      have hs : s = M + 1 := by omega
      subst hs
      have hres : stages wlenOf (2 ^ (M + 1)) fuel (2 ^ (M + 1 + 1)) A = A := by
        cases fuel with
        | zero => rfl
        | succ f =>
            have hgt : ¬ 2 ^ (M + 1 + 1) ≤ 2 ^ (M + 1) := by
              rw [pow_succ 2 (M + 1)]
              have : 0 < 2 ^ (M + 1) := by positivity
              omega
            show (if 2 ^ (M + 1 + 1) ≤ 2 ^ (M + 1) then _ else A) = A
            rw [if_neg hgt]
      rw [hres]
      have h := hA 0 k (by norm_num) hk
      rw [Nat.zero_mul, Nat.zero_add] at h
      rw [h]
      refine Finset.sum_congr rfl fun t _ => ?_
      simp [bitRev]
  | succ q ih =>
      obtain ⟨f, rfl⟩ : ∃ f, fuel = f + 1 := ⟨fuel - 1, by omega⟩
      have hle : 2 ^ (s + 1) ≤ 2 ^ (M + 1) := Nat.pow_le_pow_right (by decide) (by omega)
      have hcount : (2 ^ (M + 1) + 2 ^ (s + 1) - 1) / 2 ^ (s + 1) = 2 ^ q := by
        have hsplit : 2 ^ (M + 1) = 2 ^ (s + 1) * 2 ^ q := by
          rw [← pow_add]
          congr 1
          omega
        have hpos : 0 < 2 ^ (s + 1) := by positivity
        rw [hsplit, Nat.add_sub_assoc hpos, Nat.mul_add_div hpos,
          Nat.div_eq_of_lt (by omega), Nat.add_zero]
      have hstep : stages wlenOf (2 ^ (M + 1)) (f + 1) (2 ^ (s + 1)) A
          = stages wlenOf (2 ^ (M + 1)) f (2 ^ (s + 1) <<< 1)
              (blocks (wlenOf (2 ^ (s + 1))) (2 ^ (s + 1)) A
                ((2 ^ (M + 1) + 2 ^ (s + 1) - 1) / 2 ^ (s + 1))) := by
        show (if 2 ^ (s + 1) ≤ 2 ^ (M + 1) then _ else A) = _
        rw [if_pos hle]
      have hshl : 2 ^ (s + 1) <<< 1 = 2 ^ (s + 1 + 1) := by
        rw [Nat.shiftLeft_eq, pow_succ 2 (s + 1)]
      have hpw : ω ^ (2 ^ q * 2 ^ s) = -1 := by
        rw [← pow_add, show q + s = M by omega]
        exact hω
      rw [hstep, hcount, hshl, hw s q (by omega)]
      apply ih (s + 1) f (by omega) (by omega)
      intro b j hb hj
      have h := stage_step ω x s q hpw A hA b j hb hj
      rw [show 2 * 2 ^ s = 2 ^ (s + 1) by ring] at h
      exact h

/-- The function `fft` on a buffer of `2 ^ (M + 1)` elements computes the discrete Fourier
transform with the root `ω`, when the twiddle of each stage is the matching power of `ω`. -/
theorem fftBuf_eq_dft {K : Type} [CommRing K] (wlenOf : Nat → K) (ω : K) (x : Nat → K)
    (M : Nat) (hω : ω ^ 2 ^ M = -1)
    (hw : ∀ s q, s + q = M → wlenOf (2 ^ (s + 1)) = ω ^ 2 ^ q)
    (k : Nat) (hk : k < 2 ^ (M + 1)) :
    fftBuf wlenOf (2 ^ (M + 1)) x k
      = ∑ t in Finset.range (2 ^ (M + 1)), x t * ω ^ (k * t) := by
  have hn : ¬ 2 ^ (M + 1) ≤ 1 := by
    have : 0 < 2 ^ M := by positivity
    rw [pow_succ]
    omega
  have hfuel : M + 1 ≤ 2 ^ (M + 1) := by
    have := @Nat.lt_two_pow (M + 1)
    omega
  unfold fftBuf
  rw [if_neg hn]
  have h := stages_spec wlenOf ω x M hω hw (M + 1) 0 (2 ^ (M + 1)) (by omega) hfuel
    (reorder (2 ^ (M + 1)) x (2 ^ (M + 1) - 1)).2 ?_ k hk
  · exact h
  · intro b j hb hj
    have hj0 : j = 0 := by simpa using hj
    subst hj0
    have hpos : b * 2 ^ 0 + 0 = b := by simp
    rw [hpos, reorder_final M x b hb]
    simp

theorem fft_getD {K : Type} [Ring K] (wlenOf : Nat → K) (a : List K) (k : Nat)
    (hk : k < a.length) :
    (fft wlenOf a).getD k 0 = fftBuf wlenOf a.length (fun i => a.getD i 0) k := by
  unfold fft
  rw [List.getD_eq_getElem?_getD, List.getElem?_map, List.getElem?_range hk]
  rfl

/-- The twiddle of the stage of block length `len` is `exp (2πi / len)`. -/
theorem wlen_eq_exp (len : Nat) :
    (⟨Real.cos (2 * Real.pi / len), Real.sin (2 * Real.pi / len)⟩ : ℂ)
      = Complex.exp ((2 * Real.pi / len : ℝ) * Complex.I) := by
  apply Complex.ext
  · exact (Complex.exp_ofReal_mul_I_re _).symm
  · exact (Complex.exp_ofReal_mul_I_im _).symm

theorem exp_root_pow (M q s : Nat) (h : s + q = M) :
    Complex.exp ((2 * Real.pi / (2 ^ (M + 1) : Nat) : ℝ) * Complex.I) ^ 2 ^ q
      = Complex.exp ((2 * Real.pi / (2 ^ (s + 1) : Nat) : ℝ) * Complex.I) := by
  rw [← Complex.exp_nat_mul]
  congr 1
  subst h
  push_cast
  rw [show (s + q + 1) = (s + 1) + q by ring, pow_add]
  field_simp
  ring

theorem exp_root_half (M : Nat) :
    Complex.exp ((2 * Real.pi / (2 ^ (M + 1) : Nat) : ℝ) * Complex.I) ^ 2 ^ M = -1 := by
  rw [← Complex.exp_nat_mul, ← Complex.exp_pi_mul_I]
  congr 1
  push_cast
  rw [pow_succ]
  field_simp
  ring

/-- Over exact arithmetic `fft` computes the transform with kernel `exp (+2πi·j·k/n)`. -/
theorem fft_eq_inverse_dft (m : Nat) (x : List ℝ) (hx : x.length = 2 ^ m) (k : Nat)
    (hk : k < x.length) :
    (fft (fun len => (⟨Real.cos (2 * Real.pi / len), Real.sin (2 * Real.pi / len)⟩ : ℂ))
        (x.map fun s => (⟨s, 0⟩ : ℂ))).getD k 0
      = ∑ j in Finset.range x.length,
          (x.getD j 0 : ℂ) * Complex.exp (2 * Real.pi * Complex.I * j * k / x.length) := by
  have hget : ∀ i, (x.map fun s => (⟨s, 0⟩ : ℂ)).getD i 0 = ((x.getD i 0 : ℝ) : ℂ) := by
    intro i
    rw [List.getD_eq_getElem?_getD, List.getD_eq_getElem?_getD, List.getElem?_map]
    cases x[i]? <;> rfl
  rw [fft_getD _ _ _ (by rw [List.length_map]; exact hk), List.length_map]
  simp only [hget]
  cases m with
  | zero =>
      have hlen : x.length = 1 := by simpa using hx
      have hk0 : k = 0 := by omega
      subst hk0
      rw [hlen]
      simp [fftBuf]
  | succ M =>
      rw [hx]
      rw [hx] at hk
      rw [fftBuf_eq_dft _ (Complex.exp ((2 * Real.pi / (2 ^ (M + 1) : Nat) : ℝ) * Complex.I))
        _ M (exp_root_half M) ?_ k hk]
      · refine Finset.sum_congr rfl fun t _ => ?_
        rw [← Complex.exp_nat_mul]
        congr 2
        push_cast
        field_simp
        ring
      · intro s q hsq
        rw [exp_root_pow M q s hsq]
        exact wlen_eq_exp _

/-- For a real input the forward transform is the complex conjugate of what `fft` computes. -/
theorem forward_dft_eq_conj (x : List ℝ) (k : Nat) :
    ∑ j in Finset.range x.length,
        (x.getD j 0 : ℂ) * Complex.exp (-2 * Real.pi * Complex.I * j * k / x.length)
      = (starRingEnd ℂ) (∑ j in Finset.range x.length,
          (x.getD j 0 : ℂ) * Complex.exp (2 * Real.pi * Complex.I * j * k / x.length)) := by
  rw [map_sum]
  refine Finset.sum_congr rfl fun j _ => ?_
  rw [map_mul, Complex.conj_ofReal, ← Complex.exp_conj]
  congr 2
  simp only [map_div₀, map_mul, Complex.conj_I, Complex.conj_ofReal, map_natCast, map_ofNat]
  ring

/-- C18. Power spectrum correctness over exact real and complex arithmetic: for every real
input `x` of length `n = 2 ^ m` and every bin `k < n / 2`, the value `Re² + Im²` of element
`k` of the buffer after `miniFFT::fft` (twiddles `cpx(cos(2π/len), sin(2π/len))`, input
`cpx(x[j], 0)`) is the squared modulus of bin `k` of the forward discrete Fourier transform,
`|∑ j, x[j] · exp(-2πi·j·k/n)|²`. -/
theorem fft_power_spectrum (m : Nat) (x : List ℝ) (hx : x.length = 2 ^ m) (k : Nat)
    (hk : k < x.length / 2) :
    ((fft (fun len => (⟨Real.cos (2 * Real.pi / len), Real.sin (2 * Real.pi / len)⟩ : ℂ))
          (x.map fun s => (⟨s, 0⟩ : ℂ))).getD k 0).re ^ 2
        + ((fft (fun len => (⟨Real.cos (2 * Real.pi / len), Real.sin (2 * Real.pi / len)⟩ : ℂ))
          (x.map fun s => (⟨s, 0⟩ : ℂ))).getD k 0).im ^ 2
      = Complex.abs (∑ j in Finset.range x.length,
          (x.getD j 0 : ℂ) * Complex.exp (-2 * Real.pi * Complex.I * j * k / x.length)) ^ 2 := by
  rw [forward_dft_eq_conj, Complex.abs_conj, ← fft_eq_inverse_dft m x hx k (by omega),
    Complex.sq_abs, Complex.normSq_apply]
  ring

/-- Witness for C18: the four samples `1, 2, 3, 4` and bin `1`. -/
theorem fft_power_spectrum_witness :
    ([1, 2, 3, 4] : List ℝ).length = 2 ^ 2 ∧ 1 < ([1, 2, 3, 4] : List ℝ).length / 2
      ∧ ((fft (fun len => (⟨Real.cos (2 * Real.pi / len), Real.sin (2 * Real.pi / len)⟩ : ℂ))
            (([1, 2, 3, 4] : List ℝ).map fun s => (⟨s, 0⟩ : ℂ))).getD 1 0).re ^ 2
          + ((fft (fun len =>
              (⟨Real.cos (2 * Real.pi / len), Real.sin (2 * Real.pi / len)⟩ : ℂ))
            (([1, 2, 3, 4] : List ℝ).map fun s => (⟨s, 0⟩ : ℂ))).getD 1 0).im ^ 2
        = Complex.abs (∑ j in Finset.range ([1, 2, 3, 4] : List ℝ).length,
            ((([1, 2, 3, 4] : List ℝ).getD j 0 : ℝ) : ℂ)
              * Complex.exp (-2 * Real.pi * Complex.I * j * (1 : Nat)
                  / ([1, 2, 3, 4] : List ℝ).length)) ^ 2 :=
  ⟨rfl, by decide, fft_power_spectrum 2 [1, 2, 3, 4] rfl 1 (by decide)⟩

end miniFFT

/-! ## The clamps of `hashPair` seen from `compute` -/

namespace Fingerprint

/-- Every pair of the pairing stage comes from an anchor frame `a`, one of its target
frames `t`, a peak of frame `a` and a peak of frame `t`. -/
theorem mem_pairing_frames (sr : Int) (peaksInFrame : List (List Int)) (e : Emit)
    (he : e ∈ pairing sr peaksInFrame) :
    ∃ a t f1 f2, a < peaksInFrame.length ∧ t ∈ targetFrames peaksInFrame.length a
      ∧ f1 ∈ peaksInFrame.getD a [] ∧ f2 ∈ peaksInFrame.getD t []
      ∧ e = emitPair sr a t f1 f2 := by
  rw [pairing_eq] at he
  simp only [List.mem_flatMap, List.mem_range] at he
  obtain ⟨a, ha, hmem⟩ := he
  have hc := List.mem_of_mem_take hmem
  simp only [candidates, candidatesAt, List.mem_flatMap, List.mem_map] at hc
  obtain ⟨t, ht, f1, hf1, f2, hf2, rfl⟩ := hc
  exact ⟨a, t, f1, f2, ha, ht, hf1, hf2, rfl⟩

/-- The hash of two band codes of non-negative bins at a frame distance in `[1, 20]` is the
positional sum of the three fields, and reads back as them. -/
theorem hashPair_bandCodes (f1 f2 sr : Int) (dt : Nat) (h1 : 0 ≤ f1) (h2 : 0 ≤ f2)
    (hdt : dt ≤ 20) :
    hashPair (bandCode f1 sr) (bandCode f2 sr) (dt : Int)
        = (bandCode f1 sr).toNat * 2 ^ 22 + (bandCode f2 sr).toNat * 2 ^ 12 + dt
      ∧ decodeHash (hashPair (bandCode f1 sr) (bandCode f2 sr) (dt : Int))
        = ((bandCode f1 sr).toNat, (bandCode f2 sr).toNat, dt) := by
  have b1 := bandCode_range f1 sr h1
  have b2 := bandCode_range f2 sr h2
  have key := hashPair_natCast (bandCode f1 sr).toNat (bandCode f2 sr).toNat dt
    (by omega) (by omega) (by omega)
  rw [Int.toNat_of_nonneg b1.1, Int.toNat_of_nonneg b2.1] at key
  refine ⟨key, ?_⟩
  rw [key]
  exact decodeHash_sum _ _ _ (by omega) (by omega) (by omega)

end Fingerprint

/-- C21. The clamp in `hashPair` is unreachable from `compute`: for every rate `sr` (so for
every `sr > 0`) and every bin `0 ≤ f < 1024` the band code
`freqToBand(f, 2048, sr) * 128 + f % 128` lies in `[0, 895]`; every pair `compute` emits
comes from an anchor frame `a`, a target frame `t` with `1 ≤ t - a ≤ 20` and peaks
`5 ≤ f1, f2 < 1024`, so none of the tests `f1 > 1023`, `f2 > 1023`, `dt > 4095` of
`hashPair` holds, and the hash reads back as exactly `(code(f1), code(f2), t - a)`. -/
theorem clamp_unreachable {P : Type} [Inhabited P] (spectrum : List Int → List P)
    (nthElement : Nat → List (P × Int) → List (P × Int))
    (hperm : ∀ n l, (nthElement n l).Perm l) (pcm : List Int) (sr : Int) :
    (∀ f : Int, 0 ≤ f → f < 1024 → 0 ≤ bandCode f sr ∧ bandCode f sr ≤ 895)
    ∧ ∀ e ∈ compute (peakPickOf spectrum nthElement) pcm sr,
        ∃ (a t : Nat) (f1 f2 : Int),
          e = (hashPair (bandCode f1 sr) (bandCode f2 sr) ((t : Int) - (a : Int)),
                offsetMs a sr)
          ∧ (5 ≤ f1 ∧ f1 < 1024) ∧ (5 ≤ f2 ∧ f2 < 1024)
          ∧ (1 ≤ (t : Int) - (a : Int) ∧ (t : Int) - (a : Int) ≤ 20)
          ∧ (¬ bandCode f1 sr > 1023 ∧ ¬ bandCode f2 sr > 1023
              ∧ ¬ (t : Int) - (a : Int) > 4095)
          ∧ ((decodeHash e.1).1 : Int) = bandCode f1 sr
          ∧ ((decodeHash e.1).2.1 : Int) = bandCode f2 sr
          ∧ ((decodeHash e.1).2.2 : Int) = (t : Int) - (a : Int) := by
  refine ⟨fun f h0 _ => bandCode_range f sr h0, ?_⟩
  intro e he
  rw [compute_eq_pairing] at he
  obtain ⟨a, t, f1, f2, _, ht, hf1, hf2, rfl⟩ := mem_pairing_frames sr _ e he
  rw [mem_targetFrames] at ht
  simp only [TARGET_DT_MIN, TARGET_DT_MAX] at ht
  unfold framePeaks at hf1 hf2
  obtain ⟨fr1, hfr1⟩ := mem_getD_map _ _ a f1 hf1
  obtain ⟨fr2, hfr2⟩ := mem_getD_map _ _ t f2 hf2
  have r1 := mem_peakPickOf spectrum nthElement hperm fr1 f1 hfr1
  have r2 := mem_peakPickOf spectrum nthElement hperm fr2 f2 hfr2
  have b1 := bandCode_range f1 sr (by omega)
  have b2 := bandCode_range f2 sr (by omega)
  obtain ⟨d, hd⟩ : ∃ d : Nat, t = a + d := ⟨t - a, by omega⟩
  have hdt : (t : Int) - (a : Int) = (d : Int) := by omega
  have hdec := (hashPair_bandCodes f1 f2 sr d (by omega) (by omega) (by omega)).2
  refine ⟨a, t, f1, f2, rfl, r1, r2, by omega, ⟨by omega, by omega, by omega⟩, ?_⟩
  have hE : (emitPair sr a t f1 f2).1
      = hashPair (bandCode f1 sr) (bandCode f2 sr) (d : Int) := by
    show hashPair (bandCode f1 sr) (bandCode f2 sr) ((t : Int) - (a : Int)) = _
    rw [hdt]
  rw [hE, hdec]
  refine ⟨?_, ?_, ?_⟩ <;> simp only [] <;> omega

/-- Witness of C21: three frames of silence at 44100 Hz; the band code of bin 1023 is the
largest there is, and every emitted hash reads back below the clamps. -/
theorem clamp_unreachable_witness :
    (0 ≤ bandCode 1023 44100 ∧ bandCode 1023 44100 ≤ 895)
    ∧ ∀ e ∈ compute (peakPickOf (fun _ => ([] : List Nat)) (fun _ l => l)) (silence 4096)
          44100,
        ∃ (a t : Nat) (f1 f2 : Int),
          e = (hashPair (bandCode f1 44100) (bandCode f2 44100) ((t : Int) - (a : Int)),
                offsetMs a 44100)
          ∧ (5 ≤ f1 ∧ f1 < 1024) ∧ (5 ≤ f2 ∧ f2 < 1024)
          ∧ (1 ≤ (t : Int) - (a : Int) ∧ (t : Int) - (a : Int) ≤ 20)
          ∧ (¬ bandCode f1 44100 > 1023 ∧ ¬ bandCode f2 44100 > 1023
              ∧ ¬ (t : Int) - (a : Int) > 4095)
          ∧ ((decodeHash e.1).1 : Int) = bandCode f1 44100
          ∧ ((decodeHash e.1).2.1 : Int) = bandCode f2 44100
          ∧ ((decodeHash e.1).2.2 : Int) = (t : Int) - (a : Int) :=
  ⟨(clamp_unreachable (fun _ => ([] : List Nat)) (fun _ l => l)
      (fun _ _ => List.Perm.refl _) (silence 4096) 44100).1 1023 (by decide) (by decide),
   (clamp_unreachable (fun _ => ([] : List Nat)) (fun _ l => l)
      (fun _ _ => List.Perm.refl _) (silence 4096) 44100).2⟩

/-! ## Time shift of the query -/

theorem pairCount_shiftQuery (db : Database) (query : List Emit) (c s d : Int) :
    pairCount db (shiftQuery c query) s d = pairCount db query s (d + c) := by
  unfold pairCount shiftQuery
  rw [List.map_map]
  congr 1
  apply List.map_congr_left
  intro q _
  simp only [Function.comp]
  congr 1
  funext p
  congr 1
  apply propext
  constructor
  · rintro ⟨h1, h2, h3⟩
    exact ⟨h1, h2, by omega⟩
  · rintro ⟨h1, h2, h3⟩
    exact ⟨h1, h2, by omega⟩

theorem topSong_shiftQuery (db : Database) (query : List Emit) (c s : Int) :
    TopSong db (shiftQuery c query) s ↔ TopSong db query s := by
  unfold TopSong
  constructor
  · rintro ⟨d, hpos, hmax⟩
    rw [pairCount_shiftQuery] at hpos
    refine ⟨d + c, hpos, fun s2 d2 => ?_⟩
    have := hmax s2 (d2 - c)
    rw [pairCount_shiftQuery, pairCount_shiftQuery, Int.sub_add_cancel] at this
    exact this
  · rintro ⟨d, hpos, hmax⟩
    refine ⟨d - c, ?_, fun s2 d2 => ?_⟩
    · rw [pairCount_shiftQuery, Int.sub_add_cancel]
      exact hpos
    · rw [pairCount_shiftQuery, pairCount_shiftQuery, Int.sub_add_cancel]
      exact hmax s2 (d2 + c)

/-- Whether the vote loop gets through depends on the number of items only. -/
theorem voteLoop_isSome (db : Database) (selectOk : Nat → Bool) (q1 q2 : List Emit)
    (hlen : q1.length = q2.length) (i : Nat) (v1 v2 : Votes) :
    (voteLoop db selectOk q1 i v1).isSome = (voteLoop db selectOk q2 i v2).isSome := by
  induction q1 generalizing q2 i v1 v2 with
  | nil =>
      cases q2 with
      | nil => rfl
      | cons _ _ => cases hlen
  | cons h1 r1 ih =>
      cases q2 with
      | nil => cases hlen
      | cons h2 r2 =>
          simp only [voteLoop]
          cases selectOk i with
          | false => rfl
          | true =>
              simp only [Bool.not_true, Bool.false_eq_true, if_false]
              exact ih r2 (by simpa using hlen) (i + 1) _ _

/-- A vote loop that gets through took no failing `SELECT`. -/
theorem voteLoop_all_ok (db : Database) (selectOk : Nat → Bool) (query : List Emit) (i : Nat)
    (v w : Votes) (h : voteLoop db selectOk query i v = some w) :
    voteLoop db (fun _ => true) query i v = some w := by
  induction query generalizing i v with
  | nil => exact h
  | cons q rest ih =>
      simp only [voteLoop] at h ⊢
      cases hs : selectOk i with
      | false => rw [hs] at h; cases h
      | true =>
          rw [hs] at h
          simp only [Bool.not_true, Bool.false_eq_true, if_false] at h ⊢
          exact ih (i + 1) _ h

/-- The scan over the votes of a query: its count bounds every pair count; either nothing
was voted and it stays at `(-1, 0)`, or it ends on a song one of whose keys has that count. -/
theorem pickBest_votes (iterOrder : Votes → Votes) (horder : ∀ v, (iterOrder v).Perm v)
    (selectOk : Nat → Bool) (db : Database) (query : List Emit) (v : Votes)
    (hv : voteLoop db selectOk query 0 [] = some v) :
    (∀ s d, (pairCount db query s d : Int) ≤ (pickBest (iterOrder v)).2)
    ∧ ((pickBest (iterOrder v) = (-1, 0) ∧ ∀ s d, pairCount db query s d = 0)
       ∨ ∃ d, 0 < pairCount db query (pickBest (iterOrder v)).1 d
          ∧ (pairCount db query (pickBest (iterOrder v)).1 d : Int)
            = (pickBest (iterOrder v)).2) := by
  obtain ⟨w, hw, hvok, hvote⟩ := voteLoop_spec db (fun _ => true) (fun _ => rfl) query 0 []
    ⟨List.nodup_nil, fun e he => absurd he (List.not_mem_nil e)⟩
  rw [voteLoop_all_ok db selectOk query 0 [] v hv] at hw
  have hwv : w = v := (Option.some.inj hw).symm
  subst hwv
  have hvote2 : ∀ k, voteOf w k = pairCount db query k.1 k.2 := by
    intro k
    rw [hvote k]
    simp [voteOf]
  obtain ⟨h0, hle, hcase⟩ := pickBest_fold (iterOrder w) (-1, 0)
  change (0 : Int) ≤ (pickBest (iterOrder w)).2 at h0
  change ∀ e ∈ iterOrder w, e.2 ≤ (pickBest (iterOrder w)).2 at hle
  change pickBest (iterOrder w) = (-1, 0) ∨ ∃ e ∈ iterOrder w,
    pickBest (iterOrder w) = (e.1.1, e.2) ∧ (0 : Int) < e.2 at hcase
  have hbound : ∀ s d, (pairCount db query s d : Int) ≤ (pickBest (iterOrder w)).2 := by
    intro s d
    by_cases hz : voteOf w (s, d) = 0
    · have e := hvote2 (s, d)
      rw [hz] at e
      simp only [] at e
      omega
    · have hm := (horder w).mem_iff.2 (mem_of_voteOf_ne_zero w (s, d) hz)
      have := hle _ hm
      rw [← hvote2 (s, d)]
      exact this
  refine ⟨hbound, ?_⟩
  rcases hcase with hinit | ⟨e, he, hre, hpos⟩
  · left
    refine ⟨hinit, fun s d => ?_⟩
    have := hbound s d
    rw [hinit] at this
    simp only [] at this
    omega
  · right
    have hev : e ∈ w := (horder w).mem_iff.1 he
    have hval : e.2 = (pairCount db query e.1.1 e.1.2 : Int) := by
      rw [← hvote2 e.1, voteOf_of_mem w hvok.1 e hev]
    rw [hre]
    refine ⟨e.1.2, ?_, hval.symm⟩
    rw [hval] at hpos
    exact_mod_cast hpos

/-- After the vote loop `bestMatch` is a function of the result of the scan. -/
theorem bestMatch_of_votes (iterOrder : Votes → Votes) (selectOk : Nat → Bool) (metaOk : Bool)
    (db : Database) (query : List Emit) (outSong : SongRow) (voteCount : Int) (v : Votes)
    (hv : voteLoop db selectOk query 0 [] = some v) :
    bestMatch iterOrder selectOk metaOk db query outSong voteCount
      = if (pickBest (iterOrder v)).1 < 0
          then { ok := false, outSong := outSong, voteCount := (pickBest (iterOrder v)).2 }
        else
          match (if metaOk then db.songs.find? (fun s => s.id == (pickBest (iterOrder v)).1)
                 else none) with
          | none => { ok := false, outSong := outSong, voteCount := (pickBest (iterOrder v)).2 }
          | some row =>
              { ok := true, outSong := row, voteCount := (pickBest (iterOrder v)).2 } := by
  unfold bestMatch
  rw [hv]

theorem bestMatch_of_fail (iterOrder : Votes → Votes) (selectOk : Nat → Bool) (metaOk : Bool)
    (db : Database) (query : List Emit) (outSong : SongRow) (voteCount : Int)
    (hv : voteLoop db selectOk query 0 [] = none) :
    bestMatch iterOrder selectOk metaOk db query outSong voteCount
      = { ok := false, outSong := outSong, voteCount := voteCount } := by
  unfold bestMatch
  rw [hv]

/-- The scans over the votes of a query and of the shifted query end on the same count, and
stay at the start value together. -/
theorem pickBest_shift (iterOrder : Votes → Votes) (horder : ∀ v, (iterOrder v).Perm v)
    (selectOk : Nat → Bool) (db : Database) (query : List Emit) (c : Int) (v w : Votes)
    (hv : voteLoop db selectOk query 0 [] = some v)
    (hw : voteLoop db selectOk (shiftQuery c query) 0 [] = some w) :
    (pickBest (iterOrder w)).2 = (pickBest (iterOrder v)).2
    ∧ ((pickBest (iterOrder v) = (-1, 0) ∧ pickBest (iterOrder w) = (-1, 0))
       ∨ (TopSong db query (pickBest (iterOrder v)).1
          ∧ TopSong db query (pickBest (iterOrder w)).1)) := by
  obtain ⟨hbv, hcv⟩ := pickBest_votes iterOrder horder selectOk db query v hv
  obtain ⟨hbw, hcw⟩ := pickBest_votes iterOrder horder selectOk db (shiftQuery c query) w hw
  simp only [pairCount_shiftQuery] at hbw hcw
  rcases hcv with ⟨hiv, hzv⟩ | ⟨dv, hpv, hev⟩
  · rcases hcw with ⟨hiw, _⟩ | ⟨dw, hpw, _⟩
    · exact ⟨by rw [hiv, hiw], Or.inl ⟨hiv, hiw⟩⟩
    · rw [hzv] at hpw
      exact absurd hpw (lt_irrefl 0)
  · rcases hcw with ⟨_, hzw⟩ | ⟨dw, hpw, hew⟩
    · have := hzw (pickBest (iterOrder v)).1 (dv - c)
      rw [Int.sub_add_cancel] at this
      omega
    · have h1 := hbw (pickBest (iterOrder v)).1 (dv - c)
      rw [Int.sub_add_cancel] at h1
      have h2 := hbv (pickBest (iterOrder w)).1 (dw + c)
      have heq : (pickBest (iterOrder w)).2 = (pickBest (iterOrder v)).2 := by omega
      refine ⟨heq, Or.inr ⟨⟨dv, hpv, fun s2 d2 => ?_⟩, ⟨dw + c, hpw, fun s2 d2 => ?_⟩⟩⟩
      · have := hbv s2 d2
        omega
      · have := hbv s2 d2
        omega

theorem bestMatch_voteCount (iterOrder : Votes → Votes) (selectOk : Nat → Bool) (metaOk : Bool)
    (db : Database) (query : List Emit) (outSong : SongRow) (voteCount : Int) (v : Votes)
    (hv : voteLoop db selectOk query 0 [] = some v) :
    (bestMatch iterOrder selectOk metaOk db query outSong voteCount).voteCount
      = (pickBest (iterOrder v)).2 := by
  rw [bestMatch_of_votes iterOrder selectOk metaOk db query outSong voteCount v hv]
  split
  · rfl
  · split <;> rfl

/-- A successful call returns the row of the song the scan ended on, which is not `-1`. -/
theorem bestMatch_ok_song (iterOrder : Votes → Votes) (selectOk : Nat → Bool) (metaOk : Bool)
    (db : Database) (query : List Emit) (outSong : SongRow) (voteCount : Int) (v : Votes)
    (hv : voteLoop db selectOk query 0 [] = some v)
    (hok : (bestMatch iterOrder selectOk metaOk db query outSong voteCount).ok = true) :
    0 ≤ (pickBest (iterOrder v)).1
      ∧ (bestMatch iterOrder selectOk metaOk db query outSong voteCount).outSong.id
        = (pickBest (iterOrder v)).1 := by
  rw [bestMatch_of_votes iterOrder selectOk metaOk db query outSong voteCount v hv] at hok ⊢
  split at hok
  · cases hok
  · rename_i hneg
    rw [if_neg hneg]
    refine ⟨by omega, ?_⟩
    cases hm : metaOk with
    | false =>
        rw [hm] at hok
        cases hok
    | true =>
        rw [hm] at hok
        simp only [if_true] at hok ⊢
        cases hf : db.songs.find? (fun x => x.id == (pickBest (iterOrder v)).1) with
        | none => rw [hf] at hok; cases hok
        | some row =>
            have := List.find?_some hf
            simpa using this

/-- With every posting referencing an existing song of positive id, the call succeeds on a
song that has a posting exactly when the `SELECT` on `songs` does. -/
theorem bestMatch_ok_of_posting (iterOrder : Votes → Votes) (selectOk : Nat → Bool)
    (metaOk : Bool) (db : Database) (href : RefIntegrity db) (hids : IdsPositive db)
    (query : List Emit) (outSong : SongRow) (voteCount : Int) (v : Votes)
    (hv : voteLoop db selectOk query 0 [] = some v)
    (hp : ∃ p ∈ db.fingerprints, p.song_id = (pickBest (iterOrder v)).1) :
    (bestMatch iterOrder selectOk metaOk db query outSong voteCount).ok = metaOk := by
  obtain ⟨p, hpm, hps⟩ := hp
  have hex : songExists db (pickBest (iterOrder v)).1 := hps ▸ href p hpm
  have hneg : ¬ (pickBest (iterOrder v)).1 < 0 := by
    obtain ⟨row, hrowmem, hid⟩ := hex
    have := hids row hrowmem
    omega
  obtain ⟨row, hrow⟩ := find_song db _ hex
  rw [bestMatch_of_votes iterOrder selectOk metaOk db query outSong voteCount v hv, if_neg hneg]
  cases metaOk with
  | false => rfl
  | true => simp only [if_true, hrow]

theorem posting_of_topSong (db : Database) (query : List Emit) (s : Int)
    (h : TopSong db query s) : ∃ p ∈ db.fingerprints, p.song_id = s := by
  obtain ⟨d, hpos, _⟩ := h
  obtain ⟨_, _, p, hp, _, hps, _⟩ := posting_of_pairCount_pos db query s d hpos
  exact ⟨p, hp, hps⟩

/-- C22. Time-shift invariance of the matcher: on a catalog whose postings all reference
existing songs of positive id (every catalog `insertSong` and `fingerprintAndStore` build),
replacing every `q_ms` of the query by `q_ms + c` yields the same outcome match or no match
and the same `voteCount`, and the set of songs attaining the maximum vote count is
unchanged.  A successful call returns one of these songs, before and after the shift, and
the whole result is unchanged when one song alone attains the maximum.  (`int` is unbounded
here: no subtraction overflows.) -/
theorem time_shift_invariance (iterOrder : Votes → Votes) (horder : ∀ v, (iterOrder v).Perm v)
    (selectOk : Nat → Bool) (metaOk : Bool) (db : Database)
    (href : RefIntegrity db) (hids : IdsPositive db) (query : List Emit) (c : Int)
    (outSong : SongRow) (voteCount : Int) :
    (bestMatch iterOrder selectOk metaOk db (shiftQuery c query) outSong voteCount).ok
        = (bestMatch iterOrder selectOk metaOk db query outSong voteCount).ok
    ∧ (bestMatch iterOrder selectOk metaOk db (shiftQuery c query) outSong voteCount).voteCount
        = (bestMatch iterOrder selectOk metaOk db query outSong voteCount).voteCount
    ∧ (∀ s, TopSong db (shiftQuery c query) s ↔ TopSong db query s)
    ∧ ((bestMatch iterOrder selectOk metaOk db query outSong voteCount).ok = true →
        TopSong db query
          (bestMatch iterOrder selectOk metaOk db query outSong voteCount).outSong.id)
    ∧ ((bestMatch iterOrder selectOk metaOk db (shiftQuery c query) outSong voteCount).ok = true →
        TopSong db query
          (bestMatch iterOrder selectOk metaOk db (shiftQuery c query) outSong
            voteCount).outSong.id)
    ∧ ((∀ s1 s2, TopSong db query s1 → TopSong db query s2 → s1 = s2) →
        bestMatch iterOrder selectOk metaOk db (shiftQuery c query) outSong voteCount
          = bestMatch iterOrder selectOk metaOk db query outSong voteCount) := by
  have hsome := voteLoop_isSome db selectOk (shiftQuery c query) query
    (by unfold shiftQuery; rw [List.length_map]) 0 [] []
  cases hv : voteLoop db selectOk query 0 [] with
  | none =>
      cases hw : voteLoop db selectOk (shiftQuery c query) 0 [] with
      | some w =>
          rw [hv, hw] at hsome
          cases hsome
      | none =>
          rw [bestMatch_of_fail iterOrder selectOk metaOk db query outSong voteCount hv,
            bestMatch_of_fail iterOrder selectOk metaOk db (shiftQuery c query) outSong
              voteCount hw]
          exact ⟨rfl, rfl, topSong_shiftQuery db query c, fun h => Bool.noConfusion h,
            fun h => Bool.noConfusion h, fun _ => rfl⟩
  | some v =>
      cases hw : voteLoop db selectOk (shiftQuery c query) 0 [] with
      | none =>
          rw [hv, hw] at hsome
          cases hsome
      | some w =>
          obtain ⟨hcount, hcase⟩ := pickBest_shift iterOrder horder selectOk db query c v w hv hw
          have hneg : ¬ (0 : Int) ≤ ((-1, 0) : Int × Int).1 := by decide
          refine ⟨?_, ?_, topSong_shiftQuery db query c, ?_, ?_, ?_⟩
          · rcases hcase with ⟨hiv, hiw⟩ | ⟨htv, htw⟩
            · rw [bestMatch_of_votes iterOrder selectOk metaOk db _ outSong voteCount w hw,
                bestMatch_of_votes iterOrder selectOk metaOk db _ outSong voteCount v hv,
                hiv, hiw]
            · rw [bestMatch_ok_of_posting iterOrder selectOk metaOk db href hids _ outSong
                  voteCount w hw (posting_of_topSong db query _ htw),
                bestMatch_ok_of_posting iterOrder selectOk metaOk db href hids _ outSong
                  voteCount v hv (posting_of_topSong db query _ htv)]
          · rw [bestMatch_voteCount iterOrder selectOk metaOk db _ outSong voteCount w hw,
              bestMatch_voteCount iterOrder selectOk metaOk db _ outSong voteCount v hv, hcount]
          · intro hok
            obtain ⟨h0, hid⟩ :=
              bestMatch_ok_song iterOrder selectOk metaOk db _ outSong voteCount v hv hok
            rw [hid]
            rcases hcase with ⟨hiv, _⟩ | ⟨htv, _⟩
            · rw [hiv] at h0
              exact absurd h0 hneg
            · exact htv
          · intro hok
            obtain ⟨h0, hid⟩ :=
              bestMatch_ok_song iterOrder selectOk metaOk db _ outSong voteCount w hw hok
            rw [hid]
            rcases hcase with ⟨_, hiw⟩ | ⟨_, htw⟩
            · rw [hiw] at h0
              exact absurd h0 hneg
            · exact htw
          · intro huniq
            have hbest : pickBest (iterOrder w) = pickBest (iterOrder v) := by
              rcases hcase with ⟨hiv, hiw⟩ | ⟨htv, htw⟩
              · rw [hiv, hiw]
              · exact Prod.ext (huniq _ _ htw htv) hcount
            rw [bestMatch_of_votes iterOrder selectOk metaOk db _ outSong voteCount w hw,
              bestMatch_of_votes iterOrder selectOk metaOk db _ outSong voteCount v hv, hbest]

/-- Witness of C22: in the tie of songs 1 and 2, both with a row, the query shifted by 5
gives the outcome and the vote count of the unshifted one. -/
theorem time_shift_invariance_witness :
    (bestMatch id (fun _ => true) true tiedCatalog (shiftQuery 5 [(7, 0)]) {} 0).ok
      = (bestMatch id (fun _ => true) true tiedCatalog [(7, 0)] {} 0).ok
    ∧ (bestMatch id (fun _ => true) true tiedCatalog (shiftQuery 5 [(7, 0)]) {} 0).voteCount
      = (bestMatch id (fun _ => true) true tiedCatalog [(7, 0)] {} 0).voteCount :=
  ⟨(time_shift_invariance id (fun _ => List.Perm.refl _) (fun _ => true) true tiedCatalog
      tiedCatalog_ref tiedCatalog_ids [(7, 0)] 5 {} 0).1,
   (time_shift_invariance id (fun _ => List.Perm.refl _) (fun _ => true) true tiedCatalog
      tiedCatalog_ref tiedCatalog_ids [(7, 0)] 5 {} 0).2.1⟩

/-! ## Sample rate -/

/-- For a positive rate `offsetMs` is the computation in `double` arithmetic, with `INT_MIN`
where the conversion to `int` has no defined result. -/
theorem offsetMs_eq_double (fl : ℚ → ℚ) (hfl : DoubleRounding fl) (a : Nat) (sr : Int)
    (hsr : 0 < sr) (hsr32 : sr ≤ 2147483647) (ha : a * 1024 ≤ 2147483647) :
    offsetMs a sr = (offsetMsDouble fl a sr).getD (-2147483648) := by
  have hX0 : (0 : Int) ≤ (a : Int) * 1024 * 1000 := by positivity
  have hX : (a : Int) * 1024 * 1000 < 2 ^ 41 := by
    have : ((a * 1024 : Nat) : Int) ≤ 2147483647 := by exact_mod_cast ha
    push_cast at this
    norm_num
    omega
  have hb := fl_div_bounds fl hfl ((a : Int) * 1024 * 1000) sr hX0 hX hsr hsr32
  have hprod : fl (((a * HOP_SIZE : Nat) : ℚ) * 1000)
      = (((a : Int) * 1024 * 1000 : Int) : ℚ) := by
    have := fl_int fl hfl ((a : Int) * 1024 * 1000) (by rw [abs_of_nonneg hX0]; omega)
    simp only [HOP_SIZE]
    push_cast at this ⊢
    exact this
  have hn0 : 0 ≤ ((a : Int) * 1024 * 1000) / sr := Int.ediv_nonneg hX0 (le_of_lt hsr)
  by_cases hfit : ((a : Int) * 1024 * 1000) / sr ≤ 2147483647
  · rw [offsetMs_eq_ediv a sr hsr hfit]
    unfold offsetMsDouble
    rw [hprod, truncToInt_of_floor _ _ hn0 hb.1 hb.2 hfit]
    rfl
  · have hq : Int.tdiv ((a : Int) * 1024 * 1000) sr = ((a : Int) * 1024 * 1000) / sr := by
      rw [Int.tdiv_eq_ediv hX0 (le_of_lt hsr)]
    have hleft : offsetMs a sr = -2147483648 := by
      unfold offsetMs
      simp only [HOP_SIZE]
      apply if_neg
      intro h
      have h2 : Int.tdiv ((a : Int) * 1024 * 1000) sr ≤ 2147483647 := h.2.2
      rw [hq] at h2
      exact hfit h2
    have hy0 : (0 : ℚ) ≤ fl ((((a : Int) * 1024 * 1000 : Int) : ℚ) / (sr : ℚ)) :=
      le_trans (by exact_mod_cast hn0) hb.1
    have hfloor : ⌊fl ((((a : Int) * 1024 * 1000 : Int) : ℚ) / (sr : ℚ))⌋
        = ((a : Int) * 1024 * 1000) / sr := Int.floor_eq_iff.2 ⟨hb.1, hb.2⟩
    have ht : Int.tdiv (fl ((((a : Int) * 1024 * 1000 : Int) : ℚ) / (sr : ℚ))).num
        (fl ((((a : Int) * 1024 * 1000 : Int) : ℚ) / (sr : ℚ))).den
        = ((a : Int) * 1024 * 1000) / sr := by
      rw [Int.tdiv_eq_ediv (Rat.num_nonneg.2 hy0) (by exact_mod_cast Nat.zero_le _),
        ← Rat.floor_def, hfloor]
    rw [hleft]
    unfold offsetMsDouble
    rw [hprod]
    unfold truncToInt
    simp only [ht]
    rw [if_neg (by omega)]
    rfl

/-- Every anchor frame of `compute` starts a whole window inside the buffer. -/
theorem anchor_in_buffer (peakPick : List Int → List Int) (pcm : List Int) (sr : Int)
    (e : Emit) (he : e ∈ compute peakPick pcm sr) :
    ∃ a : Nat, a * 1024 + 2048 ≤ pcm.length ∧ e.2 = offsetMs a sr := by
  rw [compute_eq_pairing] at he
  obtain ⟨a, t, f1, f2, ha, _, _, _, rfl⟩ := mem_pairing_frames sr _ e he
  rw [length_framePeaks] at ha
  refine ⟨a, ?_, rfl⟩
  split at ha
  · omega
  · omega

/-- Counterexample to C10 as stated: 4096 samples of silence at `sr = -1` are not rejected.
Whatever five peaks the silent frame yields, `compute` returns ten pairs, one of them with
the negative `anchor_ms = -1024000`; with the peaks `40 .. 44` the ten offsets are listed. -/
theorem compute_negative_rate_counterexample :
    (compute (fun _ => [40, 41, 42, 43, 44]) (silence 4096) (-1)).map Prod.snd
        = [0, 0, 0, 0, 0, -1024000, -1024000, -1024000, -1024000, -1024000]
    ∧ ∀ peakPick : List Int → List Int, (peakPick (silence 2048)).length = 5 →
        (compute peakPick (silence 4096) (-1)).length = 10
        ∧ ∃ e ∈ compute peakPick (silence 4096) (-1), e.2 = -1024000 := by
  refine ⟨?_, ?_⟩
  · rw [compute_silence _ (-1) 40 41 42 43 44 rfl]
    decide
  · intro peakPick hlen
    obtain ⟨p0, p1, p2, p3, p4, hP⟩ := five_of_length _ hlen
    rw [compute_silence peakPick (-1) p0 p1 p2 p3 p4 hP]
    refine ⟨rfl, emitPair (-1) 1 2 p0 p0, by simp, ?_⟩
    show offsetMs 1 (-1) = -1024000
    decide

/-- C10, amended. `Fingerprint::compute` has no sample-rate check and no error result: a
negative `sr` yields as many pairs as a positive one (the number of pairs is the same for all
non-zero rates), every `anchor_ms` being non-positive when `sr < 0`.  For `sr > 0` every
`anchor_ms` is non-negative provided the offsets fit the 32-bit `int` they are converted to,
which they do when `pcm.size() * 1000 ≤ INT_MAX * sr`. -/
theorem compute_sample_rate (peakPick : List Int → List Int) (pcm : List Int) (sr : Int) :
    (sr ≠ 0 → ∀ sr2 : Int, sr2 ≠ 0 →
        (compute peakPick pcm sr).length = (compute peakPick pcm sr2).length)
    ∧ (0 < sr → (pcm.length : Int) * 1000 ≤ 2147483647 * sr →
        ∀ e ∈ compute peakPick pcm sr, 0 ≤ e.2)
    ∧ (sr < 0 → ∀ e ∈ compute peakPick pcm sr, e.2 ≤ 0) := by
  refine ⟨?_, ?_, ?_⟩
  · intro _ sr2 _
    unfold compute
    split
    · rfl
    · exact length_pairing sr sr2 _
  · intro hsr hfit e he
    obtain ⟨a, ha, hea⟩ := anchor_in_buffer peakPick pcm sr e he
    have haI : (a : Int) * 1024 + 2048 ≤ (pcm.length : Int) := by exact_mod_cast ha
    have hq : ((a : Int) * 1024 * 1000) / sr ≤ 2147483647 := by
      apply Int.ediv_le_of_le_mul hsr
      omega
    rw [hea, offsetMs_eq_ediv a sr hsr hq]
    exact Int.ediv_nonneg (by positivity) (le_of_lt hsr)
  · intro hsr e he
    obtain ⟨a, _, hea⟩ := anchor_in_buffer peakPick pcm sr e he
    rw [hea]
    exact offsetMs_nonpos a sr hsr

end MusicRecognition
